import Mathlib

/-!
# Task7: discrete-event simulation of a storage request scheduler

A shallow embedding of `src/Task7/Task7/Task7.cpp` (`simulateServer` and
what it calls) and the properties proved of it.

* C++ `int` values are `Int`.  The functions of the engine (`latency`,
  `startRequest`, `processEvent`, `Reachable`) compute on them exactly;
  signed overflow is undefined behaviour in the source, and these functions
  describe the runs without overflow.  The `int N` is converted to `size_t`
  where the source compares it with a size (`sizeT`).
* The engine on 32-bit `int`s (`Machine`, `start32`, `event32`,
  `Reachable32`, `simulate32`, `partitionLatencies32`) is the same code with
  the result of every `int` operation wrapped around modulo 2^32
  (`wrapInt`), as two's complement hardware leaves it; its flag `overflow`
  tells whether an operation of the run had a result outside the range of
  `int`.  A run with the flag down is a run of the exact engine
  (`reachable32_exact`).
* A `Request*` into the `requests` vector is the index of the request in
  that vector, as the initial `sort` leaves it; the vector itself is part of
  the state, and `start_time`, `end_time` are written into it.
* `std::priority_queue<Event, vector<Event>, greater<Event>>` is the list of
  the queued events; `top()` may return any queued event `e` such that
  `e > x` holds for no queued `x` (`IsTop`).  `Reachable` follows every such
  choice and starts from any vector; `simulateServer` sorts with the stable
  insertion sort and takes the first such event of the list.
* The loops run on fuel that is proved to suffice
  (`readmitBody_readmitLoop`, `simulateServer_queue_empty`, and on 32-bit
  `int`s `readmitLoop32_fuel`, `simulate32_queue_empty`).
* The `double` values of `compute_stats` are exact rationals; the sum of
  the two middle values (line 125) is an `int` sum and wraps around.
* `Traced` pairs a state with the history of the run (the events popped,
  the writes of `start_time` and `end_time`, the pushes and erases on the
  pending queue); the `traced` functions are the functions of the loop with
  this bookkeeping added, and their states are those of the loop
  (`tracedEvent_state`, `simulateTraced_state`).
-/

namespace Task7

/-! ## Definitions -/

/-- The `enum class EventType { COMPLETION, ARRIVAL }`. -/
inductive EventType where
  | COMPLETION
  | ARRIVAL
  deriving DecidableEq, Repr

/-- The underlying value of an enumerator: `COMPLETION` is 0, `ARRIVAL` is 1. -/
def EventType.toNat : EventType → Nat
  | .COMPLETION => 0
  | .ARRIVAL => 1

/-- The `struct Request`; `start_time` and `end_time` start as `-1`. -/
structure Request where
  id : Int
  timestamp : Int
  type : String
  address : Int
  size : Int
  start_time : Int := -1
  end_time : Int := -1
  deriving DecidableEq, Repr, Inhabited

/-- The `struct Event`; `req` is the index of the request pointed to. -/
structure Event where
  time : Int
  event_type : EventType
  req : Nat
  deriving DecidableEq, Repr

/-- The `Event::operator>`. -/
def Event.gt (a other : Event) : Bool :=
  if a.time = other.time then
    decide (a.event_type.toNat > other.event_type.toNat)
  else
    decide (a.time > other.time)

/-- The function `isRangesOverlap`. -/
def isRangesOverlap (a b : Request) : Bool :=
  let a_start := a.address
  let a_end := a_start + a.size - 1
  let b_start := b.address
  let b_end := b_start + b.size - 1
  decide (a_start ≤ b_end) && decide (b_start ≤ a_end)

/-- The request an index points to. -/
def getReq (requests : List Request) (i : Nat) : Request :=
  requests.getD i default

/-- Apply `f` to the element at index `i`. -/
def updateAt (f : Request → Request) : List Request → Nat → List Request
  | [], _ => []
  | r :: rs, 0 => f r :: rs
  | r :: rs, i + 1 => r :: updateAt f rs i

/-- The assignment `req->start_time = t`. -/
def setStart (requests : List Request) (i : Nat) (t : Int) : List Request :=
  updateAt (fun r => { r with start_time := t }) requests i

/-- The assignment `req->end_time = t`. -/
def setEnd (requests : List Request) (i : Nat) (t : Int) : List Request :=
  updateAt (fun r => { r with end_time := t }) requests i

/-- The local state of `simulateServer`: the request vector and the four
containers of the event loop. -/
structure State where
  requests : List Request
  event_queue : List Event
  active_requests : List Nat
  pending_queue : List Nat
  completed_requests : List Nat
  deriving DecidableEq, Repr

/-- The value of the `int N` after its conversion to `size_t` in the
comparisons with `active_requests.size()`: a non-negative `N` is kept, a
negative `N` wraps around to `2^64 + N`. -/
def sizeT (N : Int) : Nat :=
  if 0 ≤ N then N.toNat else (2 ^ 64 + N).toNat

/-- The test `active->type == "WRITE" && isRangesOverlap(*active, *cand)`
run over the active requests (the `for` loop with `break`). -/
def overlapsActiveWrite (active : List Request) (cand : Request) : Bool :=
  active.any (fun a => decide (a.type = "WRITE") && isRangesOverlap a cand)

/-- The flag `can_start` of the ARRIVAL branch, lines 60-68. -/
def can_start (N : Int) (active : List Request) (cand : Request) : Bool :=
  let can := !(overlapsActiveWrite active cand)
  if active.length ≥ sizeT N then false else can

/-- The value `size * (type == "WRITE" ? 1 : 2)`. -/
def latency (r : Request) : Int :=
  r.size * (if r.type = "WRITE" then 1 else 2)

/-- The values of the active requests. -/
def activeReqs (s : State) : List Request :=
  s.active_requests.map (getReq s.requests)

/-- The admission block (lines 71-75 and 97-101): push the COMPLETION event,
append to the active set, write `start_time`. -/
def startRequest (s : State) (time : Int) (r : Nat) : State :=
  let completion_time := time + latency (getReq s.requests r)
  { s with
    event_queue := s.event_queue ++ [⟨completion_time, EventType.COMPLETION, r⟩]
    active_requests := s.active_requests ++ [r]
    requests := setStart s.requests r time }

/-- The ARRIVAL branch, lines 59-80. -/
def processArrival (N : Int) (s : State) (event : Event) : State :=
  if can_start N (activeReqs s) (getReq s.requests event.req) then
    startRequest s event.time event.req
  else
    { s with pending_queue := s.pending_queue ++ [event.req] }

/-- Lines 82-84 of the COMPLETION branch: remove the request from the active
set, write `end_time`, append to the completed list. -/
def complete (s : State) (event : Event) : State :=
  { s with
    active_requests := s.active_requests.filter (fun r => decide (r ≠ event.req))
    requests := setEnd s.requests event.req event.time
    completed_requests := s.completed_requests ++ [event.req] }

/-- One pass through the `while` of lines 86-106: `none` when the loop is
left (guard false, or `break`), otherwise the state after the body. -/
def readmitBody (N : Int) (time : Int) (s : State) : Option State :=
  match s.pending_queue with
  | [] => none
  | next_req :: rest =>
    if s.active_requests.length < sizeT N then
      let overlap := overlapsActiveWrite (activeReqs s) (getReq s.requests next_req)
      if !overlap then
        some (startRequest { s with pending_queue := rest } time next_req)
      else
        none
    else
      none

/-- The `while` loop of lines 86-106, at most `fuel` passes. -/
def readmitLoop (N : Int) (time : Int) : Nat → State → State
  | 0, s => s
  | fuel + 1, s =>
    match readmitBody N time s with
    | none => s
    | some s1 => readmitLoop N time fuel s1

/-- The COMPLETION branch, lines 81-107.  Every pass of the `while` removes
the head of the pending queue, so its length bounds the number of passes. -/
def processCompletion (N : Int) (s : State) (event : Event) : State :=
  let s1 := complete s event
  readmitLoop N event.time s1.pending_queue.length s1

/-- The body of the event loop once the event is popped, lines 59-107. -/
def processEvent (N : Int) (s : State) (event : Event) : State :=
  match event.event_type with
  | EventType.ARRIVAL => processArrival N s event
  | EventType.COMPLETION => processCompletion N s event

/-- An event that `top()` may return: no queued event is below it. -/
def IsTop (e : Event) (q : List Event) : Prop :=
  e ∈ q ∧ ∀ x ∈ q, Event.gt e x = false

instance (e : Event) (q : List Event) : Decidable (IsTop e q) := by
  unfold IsTop; infer_instance

/-- The first event of the queue that `top()` may return. -/
def topEvent (q : List Event) : Option Event :=
  q.find? (fun e => q.all (fun x => !(Event.gt e x)))

/-- The `top()` and `pop()` of lines 56-57. -/
def popEvent (q : List Event) : Option (Event × List Event) :=
  match topEvent q with
  | none => none
  | some e => some (e, q.erase e)

/-- The comparator of the initial `sort`, `a.timestamp < b.timestamp`. -/
def byTimestamp (a b : Request) : Bool :=
  decide (a.timestamp < b.timestamp)

/-- The initial `sort` of line 47, as the stable insertion sort: `a` is put
before the first `b` that does not compare below it. -/
def sortRequests (requests : List Request) : List Request :=
  requests.insertionSort (fun a b => byTimestamp b a = false)

/-- The ARRIVAL events pushed by the loop of lines 51-53, for the requests
from index `i` on. -/
def arrivalEvents : Nat → List Request → List Event
  | _, [] => []
  | i, r :: rs => ⟨r.timestamp, EventType.ARRIVAL, i⟩ :: arrivalEvents (i + 1) rs

/-- The state at the first test of the event loop (line 55). -/
def initState (requests : List Request) : State :=
  { requests := requests
    event_queue := arrivalEvents 0 requests
    active_requests := []
    pending_queue := []
    completed_requests := [] }

/-- One pass of the event loop, lines 55-108: `none` when the queue is
empty. -/
def step (N : Int) (s : State) : Option State :=
  match popEvent s.event_queue with
  | none => none
  | some (event, q) => some (processEvent N { s with event_queue := q } event)

/-- The event loop, at most `fuel` passes. -/
def eventLoop (N : Int) : Nat → State → State
  | 0, s => s
  | fuel + 1, s =>
    match step N s with
    | none => s
    | some s1 => eventLoop N fuel s1

/-- The simulation part of `simulateServer`, lines 42-108: the state when
the event loop is left.  Each request has one ARRIVAL and at most one
COMPLETION event, so twice the number of requests bounds the passes. -/
def simulateServer (requests : List Request) (N : Int) : State :=
  eventLoop N (2 * requests.length) (initState (sortRequests requests))

/-- The states at the loop test of line 55, for every order in which the
priority queue may hand out its events; `requests` is the vector after the
initial sort. -/
inductive Reachable (N : Int) (requests : List Request) : State → Prop
  | init : Reachable N requests (initState requests)
  | step (s : State) (e : Event) :
      Reachable N requests s → IsTop e s.event_queue →
      Reachable N requests (processEvent N { s with event_queue := s.event_queue.erase e } e)

/-- The fields of a request that come from the trace. -/
def Request.inputs (r : Request) : Int × Int × String × Int × Int :=
  (r.id, r.timestamp, r.type, r.address, r.size)

/-- The requests whose ARRIVAL event is queued. -/
def arrivalReqs (q : List Event) : List Nat :=
  (q.filter (fun e => decide (e.event_type = EventType.ARRIVAL))).map Event.req

/-- The requests whose COMPLETION event is queued. -/
def completionReqs (q : List Event) : List Nat :=
  (q.filter (fun e => decide (e.event_type = EventType.COMPLETION))).map Event.req

/-- Where the requests are: not yet arrived, pending, active, completed. -/
def placed (s : State) : List Nat :=
  arrivalReqs s.event_queue ++ s.pending_queue ++ s.active_requests ++ s.completed_requests

/-- What holds of the state at every point of the event loop, for the
initial vector `reqs`; `hand` lists the requests that the running branch has
taken out of a container and not yet put into the next one. -/
structure Inv (N : Int) (reqs : List Request) (hand : List Nat) (s : State) : Prop where
  len : s.requests.length = reqs.length
  inputs : ∀ i, (getReq s.requests i).inputs = (getReq reqs i).inputs
  place : (hand ++ placed s).Perm (List.range reqs.length)
  running : (completionReqs s.event_queue).Perm s.active_requests
  arrTime : ∀ e ∈ s.event_queue, e.event_type = EventType.ARRIVAL →
    e.time = (getReq reqs e.req).timestamp
  compTime : ∀ e ∈ s.event_queue, e.event_type = EventType.COMPLETION →
    e.time = (getReq s.requests e.req).start_time + latency (getReq reqs e.req)
  doneTime : ∀ r ∈ s.completed_requests,
    (getReq s.requests r).end_time
      = (getReq s.requests r).start_time + latency (getReq reqs r)
  startFresh : ∀ r, r ∈ hand ∨ r ∈ arrivalReqs s.event_queue ∨ r ∈ s.pending_queue →
    (getReq s.requests r).start_time = (getReq reqs r).start_time
  endFresh : ∀ r, r ∉ s.completed_requests →
    (getReq s.requests r).end_time = (getReq reqs r).end_time
  excl : s.active_requests.Pairwise (fun a b =>
    (getReq reqs a).type = "WRITE" →
      isRangesOverlap (getReq reqs a) (getReq reqs b) = false)
  slots : s.active_requests.length ≤ sizeT N

/-- The number of events still to be popped if every pending request is
admitted: two for a request that has not arrived, one for a pending or an
active one. -/
def work (s : State) : Nat :=
  2 * (arrivalReqs s.event_queue).length + (completionReqs s.event_queue).length
    + s.pending_queue.length

/-- The states at every point of the run: at the loop test (`top`), and in
the COMPLETION branch after lines 82-84 and after each of the first `k`
passes of the pending loop (`inner`). -/
inductive Visited (N : Int) (requests : List Request) : State → Prop
  | top (s : State) : Reachable N requests s → Visited N requests s
  | inner (s : State) (e : Event) (k : Nat) :
      Reachable N requests s → IsTop e s.event_queue →
      e.event_type = EventType.COMPLETION →
      Visited N requests
        (readmitLoop N e.time k (complete { s with event_queue := s.event_queue.erase e } e))

/-- Every time of the state is at least `c`: the queued events, the
`start_time` of the active and completed requests, the `end_time` of the
completed ones. -/
structure Bounded (c : Int) (s : State) : Prop where
  queue : ∀ e ∈ s.event_queue, c ≤ e.time
  started : ∀ r, r ∈ s.active_requests ∨ r ∈ s.completed_requests →
    c ≤ (getReq s.requests r).start_time
  ended : ∀ r ∈ s.completed_requests, c ≤ (getReq s.requests r).end_time

/-- The trace has no timestamp below `c` and no negative size. -/
def TraceFrom (c : Int) (reqs : List Request) : Prop :=
  ∀ r ∈ reqs, c ≤ r.timestamp ∧ 0 ≤ r.size

instance (c : Int) (reqs : List Request) : Decidable (TraceFrom c reqs) := by
  unfold TraceFrom; infer_instance

/-- What the initial `sort` may leave in the vector: the requests of the
trace, no request before one that compares below it. -/
def SortResult (requests reqs : List Request) : Prop :=
  reqs.Perm requests ∧ reqs.Pairwise (fun a b => byTimestamp b a = false)

/-- The states that one pass of the event loop may lead to, one for each
event that the queue may hand out. -/
def successors (N : Int) (s : State) : List State :=
  (s.event_queue.filter (fun e => decide (IsTop e s.event_queue))).map
    (fun e => processEvent N { s with event_queue := s.event_queue.erase e } e)

/-- The states that the loop test may see after `k` passes. -/
def level (N : Int) (reqs : List Request) : Nat → List State
  | 0 => [initState reqs]
  | k + 1 => (level N reqs k).flatMap (successors N)

/-- The states that the loop test may see in a run. -/
def runs (N : Int) (reqs : List Request) : List State :=
  (List.range (2 * reqs.length + 1)).flatMap (level N reqs)

/-- Head-of-line trace: WRITE A(t=0, addr=0, size=10), WRITE B(t=0,
addr=100, size=3), READ C(t=1, addr=5, size=1), READ D(t=2, addr=200,
size=1). -/
def holTrace : List Request :=
  [ { id := 1, timestamp := 0, type := "WRITE", address := 0, size := 10 },
    { id := 2, timestamp := 0, type := "WRITE", address := 100, size := 3 },
    { id := 3, timestamp := 1, type := "READ", address := 5, size := 1 },
    { id := 4, timestamp := 2, type := "READ", address := 200, size := 1 } ]

/-- A READ(t=0, addr=0, size=10) followed by a WRITE(t=1, addr=5, size=1)
inside its range. -/
def readThenWrite : List Request :=
  [ { id := 1, timestamp := 0, type := "READ", address := 0, size := 10 },
    { id := 2, timestamp := 1, type := "WRITE", address := 5, size := 1 } ]

/-- The claim of the asymmetric exclusion invariant at one state: no active
WRITE overlaps another active request. -/
def WriteExclusive (s : State) : Prop :=
  ∀ w ∈ s.active_requests, ∀ x ∈ s.active_requests, w ≠ x →
    (getReq s.requests w).type = "WRITE" →
      isRangesOverlap (getReq s.requests w) (getReq s.requests x) = false

instance (s : State) : Decidable (WriteExclusive s) := by
  unfold WriteExclusive; infer_instance

/-- What the admission test keeps: an active WRITE overlaps no request that
stands behind it in `active_requests`, that is, none admitted after it. -/
def WriteExclusiveLater (s : State) : Prop :=
  s.active_requests.Pairwise (fun w x =>
    (getReq s.requests w).type = "WRITE" →
      isRangesOverlap (getReq s.requests w) (getReq s.requests x) = false)

/-- The admission rule in the words of the specification: fewer than `N`
active requests, and no active WRITE overlapping the candidate. -/
def SpecAdmits (N : Int) (s : State) (cand : Nat) : Prop :=
  (s.active_requests.length : Int) < N ∧
    ∀ a ∈ s.active_requests, (getReq s.requests a).type = "WRITE" →
      isRangesOverlap (getReq s.requests a) (getReq s.requests cand) = false

instance (N : Int) (s : State) (cand : Nat) : Decidable (SpecAdmits N s cand) := by
  unfold SpecAdmits; infer_instance

/-- The state of `readThenWrite` with `N = 2` when the ARRIVAL of the WRITE
has been popped: the READ is active, the queue holds its COMPLETION. -/
def writeArrives : State :=
  { (eventLoop 2 1 (initState (sortRequests readThenWrite))) with
    event_queue := [⟨20, EventType.COMPLETION, 0⟩] }

/-- A queue with an ARRIVAL and a COMPLETION of time 3 and a COMPLETION of
time 10. -/
def tieQueue : List Event :=
  [⟨3, EventType.ARRIVAL, 2⟩, ⟨10, EventType.COMPLETION, 0⟩, ⟨3, EventType.COMPLETION, 1⟩]

/-- The state of the head-of-line trace with `N = 2` when the COMPLETION of B
(time 3) has been popped: A is active, C and D are pending. -/
def holAtThree : State :=
  { (eventLoop 2 4 (initState (sortRequests holTrace))) with
    event_queue := [⟨10, EventType.COMPLETION, 0⟩] }

/-- The ids of the requests that the indices of `l` point to. -/
def idsOf (s : State) (l : List Nat) : List Int :=
  l.map (fun r => (getReq s.requests r).id)

/-- The COMPLETION of B in a run of the head-of-line trace with `N = 2`: at
a COMPLETION event of time 3, once the completed request is removed, A is
active, C and D are pending in this order, D passes the admission test, and
the step ends without an admission. -/
def HolBlocked (s : State) : Prop :=
  ∀ e ∈ s.event_queue, IsTop e s.event_queue →
    e.event_type = EventType.COMPLETION → e.time = 3 →
      idsOf s (complete { s with event_queue := s.event_queue.erase e } e).pending_queue
        = [3, 4] ∧
      idsOf s (complete { s with event_queue := s.event_queue.erase e } e).active_requests
        = [1] ∧
      (∀ d ∈ s.pending_queue, (getReq s.requests d).id = 4 →
        SpecAdmits 2 (complete { s with event_queue := s.event_queue.erase e } e) d) ∧
      processEvent 2 { s with event_queue := s.event_queue.erase e } e
        = complete { s with event_queue := s.event_queue.erase e } e

instance (s : State) : Decidable (HolBlocked s) := by
  unfold HolBlocked; infer_instance

/-- The values of a 32-bit `int`, from -2147483648 to 2147483647. -/
def IntRange (x : Int) : Prop :=
  -2147483648 ≤ x ∧ x ≤ 2147483647

instance (x : Int) : Decidable (IntRange x) := by
  unfold IntRange; infer_instance

/-- The 32-bit `int` that an `int` operation with the exact result `x`
leaves: `x` itself when it is in range, otherwise `x` wrapped around modulo
2^32 (the behaviour of two's complement hardware on signed overflow). -/
def wrapInt (x : Int) : Int :=
  (x + 2147483648) % 4294967296 - 2147483648

/-- The four values printed by `compute_stats`; the `double` values are
exact rationals here. -/
structure Stats where
  avg : ℚ
  median : ℚ
  min_val : Int
  max_val : Int
  deriving DecidableEq

/-- The lambda `compute_stats`, lines 118-131: `none` when it returns
without printing, otherwise the values printed.  The `sort` is the insertion
sort, `accumulate(.., 0.0)` the left fold from zero in `double`; the two
middle values are added as `int` (line 125) before the division by 2.0. -/
def compute_stats (data : List Int) : Option Stats :=
  if data = [] then none
  else
    let data := data.insertionSort (fun a b => a ≤ b)
    let n := data.length
    let avg : ℚ := data.foldl (fun (acc : ℚ) (x : Int) => acc + (x : ℚ)) 0 / (n : ℚ)
    let min_val := data.headD 0
    let max_val := data.getLastD 0
    let median : ℚ :=
      if n % 2 ≠ 0 then ((data.getD (n / 2) 0 : Int) : ℚ)
      else ((wrapInt (data.getD (n / 2 - 1) 0 + data.getD (n / 2) 0) : Int) : ℚ) / 2
    some { avg := avg, median := median, min_val := min_val, max_val := max_val }

/-- The loop of lines 110-116 over the completed list: the latencies
`end_time - timestamp` of the requests of type "READ", and those of all
others. -/
def partitionLatencies (requests : List Request) : List Nat → List Int × List Int
  | [] => ([], [])
  | r :: rest =>
    let total_latency := (getReq requests r).end_time - (getReq requests r).timestamp
    let p := partitionLatencies requests rest
    if (getReq requests r).type = "READ" then (total_latency :: p.1, p.2)
    else (p.1, total_latency :: p.2)

/-- The statistics part of `simulateServer`, lines 110-136: what is printed
under "READ statistics:" and under "WRITE statistics:". -/
def report (s : State) : Option Stats × Option Stats :=
  let p := partitionLatencies s.requests s.completed_requests
  (compute_stats p.1, compute_stats p.2)

/-- The median in the words of the specification, as an exact rational: the
middle value of the ascending list for an odd count, the mean of the two
middle values for an even count. -/
def specMedian (data : List Int) : ℚ :=
  let sorted := data.insertionSort (fun a b => a ≤ b)
  let n := data.length
  if n % 2 = 1 then ((sorted.getD (n / 2) 0 : Int) : ℚ)
  else (((sorted.getD (n / 2 - 1) 0 : Int) : ℚ) + ((sorted.getD (n / 2) 0 : Int) : ℚ)) / 2

/-- Two READs of size 1073741823 at t=0 on ranges that do not overlap; each
has the latency 2147483646. -/
def largeReads : List Request :=
  [ { id := 1, timestamp := 0, type := "READ", address := 0, size := 1073741823 },
    { id := 2, timestamp := 0, type := "READ", address := 1073741823, size := 1073741823 } ]

/-- The run of a WRITE `W` and a request `R` that arrives while `W` is
active and is blocked by it, state by state: at the start (0), after the
ARRIVAL of `W` (1), after the ARRIVAL of `R` (2), after the COMPLETION of
`W` (3), after the COMPLETION of `R` (4). -/
def blockedState (W R : Request) : Nat → State
  | 0 =>
    { requests := [W, R]
      event_queue := [⟨W.timestamp, EventType.ARRIVAL, 0⟩, ⟨R.timestamp, EventType.ARRIVAL, 1⟩]
      active_requests := [], pending_queue := [], completed_requests := [] }
  | 1 =>
    { requests := [{ W with start_time := W.timestamp }, R]
      event_queue := [⟨R.timestamp, EventType.ARRIVAL, 1⟩,
        ⟨W.timestamp + W.size, EventType.COMPLETION, 0⟩]
      active_requests := [0], pending_queue := [], completed_requests := [] }
  | 2 =>
    { requests := [{ W with start_time := W.timestamp }, R]
      event_queue := [⟨W.timestamp + W.size, EventType.COMPLETION, 0⟩]
      active_requests := [0], pending_queue := [1], completed_requests := [] }
  | 3 =>
    { requests := [{ W with start_time := W.timestamp, end_time := W.timestamp + W.size },
        { R with start_time := W.timestamp + W.size }]
      event_queue := [⟨W.timestamp + W.size + latency R, EventType.COMPLETION, 1⟩]
      active_requests := [1], pending_queue := [], completed_requests := [0] }
  | _ =>
    { requests := [{ W with start_time := W.timestamp, end_time := W.timestamp + W.size },
        { R with start_time := W.timestamp + W.size,
                 end_time := W.timestamp + W.size + latency R }]
      event_queue := []
      active_requests := [], pending_queue := [], completed_requests := [0, 1] }

/-- The five states of `blockedState`. -/
def blockedStates (W R : Request) : List State :=
  [0, 1, 2, 3, 4].map (blockedState W R)

/-- Scenario C: WRITE (t=0, addr=0, size=10), then READ (t=1, addr=5,
size=1) inside its range. -/
def scenarioC : List Request :=
  [ { id := 1, timestamp := 0, type := "WRITE", address := 0, size := 10 },
    { id := 2, timestamp := 1, type := "READ", address := 5, size := 1 } ]

/-- No WRITE of the vector overlaps another request of the vector. -/
def Uncontended (reqs : List Request) : Prop :=
  reqs.Pairwise (fun a b =>
    (a.type = "WRITE" → isRangesOverlap a b = false) ∧
    (b.type = "WRITE" → isRangesOverlap b a = false))

instance (reqs : List Request) : Decidable (Uncontended reqs) := by
  unfold Uncontended; infer_instance

/-- The ranges `[address, address + size - 1]` of `a` and `b` share an
address. -/
def SharesAddress (a b : Request) : Prop :=
  ∃ x : Int, (a.address ≤ x ∧ x ≤ a.address + a.size - 1) ∧
    (b.address ≤ x ∧ x ≤ b.address + b.size - 1)

/-- No WRITE of the vector shares an address with another request of the
vector. -/
def DisjointWrites (reqs : List Request) : Prop :=
  reqs.Pairwise (fun a b => a.type = "WRITE" ∨ b.type = "WRITE" → ¬ SharesAddress a b)

/-- Scenario A: a single READ (id=1, t=0, addr=0, size=5). -/
def scenarioA : List Request :=
  [ { id := 1, timestamp := 0, type := "READ", address := 0, size := 5 } ]

/-- Scenario B: two WRITE requests at t=0 that do not overlap, A(addr=0,
size=10) and B(addr=100, size=3). -/
def scenarioB : List Request :=
  [ { id := 1, timestamp := 0, type := "WRITE", address := 0, size := 10 },
    { id := 2, timestamp := 0, type := "WRITE", address := 100, size := 3 } ]

/-- The outputs of a request that did not wait: `start_time = timestamp` and
`end_time = timestamp + size * (1 if WRITE else 2)`. -/
def NeverWaited (r : Request) : Prop :=
  r.start_time = r.timestamp ∧
    r.end_time = r.timestamp + r.size * (if r.type = "WRITE" then 1 else 2)

instance (r : Request) : Decidable (NeverWaited r) := by
  unfold NeverWaited; infer_instance

/-- The run of a request `A` and a request `B` that arrives at the instant
at which `A` completes, state by state: at the start (0), after the ARRIVAL
of `A` (1), after the COMPLETION of `A` (2), after the ARRIVAL of `B` (3),
after the COMPLETION of `B` (4). -/
def reuseState (A B : Request) : Nat → State
  | 0 =>
    { requests := [A, B]
      event_queue := [⟨A.timestamp, EventType.ARRIVAL, 0⟩, ⟨B.timestamp, EventType.ARRIVAL, 1⟩]
      active_requests := [], pending_queue := [], completed_requests := [] }
  | 1 =>
    { requests := [{ A with start_time := A.timestamp }, B]
      event_queue := [⟨B.timestamp, EventType.ARRIVAL, 1⟩,
        ⟨A.timestamp + latency A, EventType.COMPLETION, 0⟩]
      active_requests := [0], pending_queue := [], completed_requests := [] }
  | 2 =>
    { requests := [{ A with start_time := A.timestamp,
                            end_time := A.timestamp + latency A }, B]
      event_queue := [⟨B.timestamp, EventType.ARRIVAL, 1⟩]
      active_requests := [], pending_queue := [], completed_requests := [0] }
  | 3 =>
    { requests := [{ A with start_time := A.timestamp,
                            end_time := A.timestamp + latency A },
        { B with start_time := B.timestamp }]
      event_queue := [⟨B.timestamp + latency B, EventType.COMPLETION, 1⟩]
      active_requests := [1], pending_queue := [], completed_requests := [0] }
  | _ =>
    { requests := [{ A with start_time := A.timestamp,
                            end_time := A.timestamp + latency A },
        { B with start_time := B.timestamp, end_time := B.timestamp + latency B }]
      event_queue := []
      active_requests := [], pending_queue := [], completed_requests := [0, 1] }

/-- The five states of `reuseState`. -/
def reuseStates (A B : Request) : List State :=
  [0, 1, 2, 3, 4].map (reuseState A B)

/-- Same-instant trace: WRITE A (t=0, addr=0, size=10), then READ B (t=10,
addr=5, size=1) inside its range, arriving when A completes. -/
def sameInstant : List Request :=
  [ { id := 1, timestamp := 0, type := "WRITE", address := 0, size := 10 },
    { id := 2, timestamp := 10, type := "READ", address := 5, size := 1 } ]

/-- What the engine has done so far, each list in the order of the run: the
events popped (lines 56-57), the requests whose `start_time` was written
(lines 75 and 101), those whose `end_time` was written (line 83), those
appended to the pending queue (line 78) and those erased from its front
(line 96). -/
structure History where
  popped : List Event
  started : List Nat
  ended : List Nat
  enqueued : List Nat
  dequeued : List Nat
  deriving DecidableEq, Repr

/-- A state of the run together with the history that led to it. -/
structure Traced where
  state : State
  history : History
  deriving DecidableEq, Repr

/-- The admission block `startRequest`, recording the write of `start_time`. -/
def tracedStart (x : Traced) (time : Int) (r : Nat) : Traced :=
  { state := startRequest x.state time r
    history := { x.history with started := x.history.started ++ [r] } }

/-- The ARRIVAL branch `processArrival`, recording the write of `start_time`
or the `push_back` on the pending queue. -/
def tracedArrival (N : Int) (x : Traced) (event : Event) : Traced :=
  if can_start N (activeReqs x.state) (getReq x.state.requests event.req) then
    tracedStart x event.time event.req
  else
    { state := { x.state with pending_queue := x.state.pending_queue ++ [event.req] }
      history := { x.history with enqueued := x.history.enqueued ++ [event.req] } }

/-- Lines 82-84, `complete`, recording the write of `end_time`. -/
def tracedComplete (x : Traced) (event : Event) : Traced :=
  { state := complete x.state event
    history := { x.history with ended := x.history.ended ++ [event.req] } }

/-- One pass of the pending loop, `readmitBody`, recording the `erase` of
the head and the write of `start_time`. -/
def tracedReadmitBody (N : Int) (time : Int) (x : Traced) : Option Traced :=
  match x.state.pending_queue with
  | [] => none
  | next_req :: rest =>
    if x.state.active_requests.length < sizeT N then
      let overlap :=
        overlapsActiveWrite (activeReqs x.state) (getReq x.state.requests next_req)
      if !overlap then
        some (tracedStart
          { state := { x.state with pending_queue := rest }
            history := { x.history with dequeued := x.history.dequeued ++ [next_req] } }
          time next_req)
      else
        none
    else
      none

/-- The pending loop `readmitLoop` with its history. -/
def tracedReadmitLoop (N : Int) (time : Int) : Nat → Traced → Traced
  | 0, x => x
  | fuel + 1, x =>
    match tracedReadmitBody N time x with
    | none => x
    | some x1 => tracedReadmitLoop N time fuel x1

/-- The COMPLETION branch `processCompletion` with its history. -/
def tracedCompletion (N : Int) (x : Traced) (event : Event) : Traced :=
  let x1 := tracedComplete x event
  tracedReadmitLoop N event.time x1.state.pending_queue.length x1

/-- The `pop` of `event`, recorded. -/
def tracedPop (x : Traced) (event : Event) : Traced :=
  { state := { x.state with event_queue := x.state.event_queue.erase event }
    history := { x.history with popped := x.history.popped ++ [event] } }

/-- One pass of the event loop for the popped `event`, `processEvent`, with
its history. -/
def tracedEvent (N : Int) (x : Traced) (event : Event) : Traced :=
  match event.event_type with
  | EventType.ARRIVAL => tracedArrival N (tracedPop x event) event
  | EventType.COMPLETION => tracedCompletion N (tracedPop x event) event

/-- The state at the first loop test, with the empty history. -/
def tracedInit (requests : List Request) : Traced :=
  { state := initState requests
    history := { popped := [], started := [], ended := [], enqueued := [], dequeued := [] } }

/-- The event loop `eventLoop` with its history. -/
def tracedLoop (N : Int) : Nat → Traced → Traced
  | 0, x => x
  | fuel + 1, x =>
    match topEvent x.state.event_queue with
    | none => x
    | some event => tracedLoop N fuel (tracedEvent N x event)

/-- The run of `simulateServer` with its history. -/
def simulateTraced (requests : List Request) (N : Int) : Traced :=
  tracedLoop N (2 * requests.length) (tracedInit (sortRequests requests))

/-- The states at the loop test with their histories, for every order in
which the priority queue may hand out its events. -/
inductive TracedReachable (N : Int) (requests : List Request) : Traced → Prop
  | init : TracedReachable N requests (tracedInit requests)
  | step (x : Traced) (e : Event) :
      TracedReachable N requests x → IsTop e x.state.event_queue →
      TracedReachable N requests (tracedEvent N x e)

/-- The stage of request `r`: 3 in the completed list, 2 in the active set,
1 in the pending queue, 0 in none of them. -/
def stage (s : State) (r : Nat) : Nat :=
  if r ∈ s.completed_requests then 3
  else if r ∈ s.active_requests then 2
  else if r ∈ s.pending_queue then 1
  else 0

/-- How the history and the containers fit together at every loop test: a
request is in `started` once for each time it stands in the active set or
the completed list, `ended` is the completed list, and the requests that
entered the pending queue are those that left it followed by those still in
it. -/
structure HistInv (x : Traced) : Prop where
  started : x.history.started.Perm (x.state.active_requests ++ x.state.completed_requests)
  ended : x.history.ended = x.state.completed_requests
  fifo : x.history.enqueued = x.history.dequeued ++ x.state.pending_queue
  dequeuedIn : ∀ r ∈ x.history.dequeued,
    r ∈ x.state.active_requests ∨ r ∈ x.state.completed_requests
  dequeuedNodup : x.history.dequeued.Nodup

/-- Whether an `int` operation with the exact result `x` overflows: `x` is
outside the range of a 32-bit `int`. -/
def overflows (x : Int) : Bool :=
  !decide (IntRange x)

/-- The function `isRangesOverlap` on 32-bit `int`s: the value returned, and
whether one of its four `int` operations overflowed. -/
def isRangesOverlap32 (a b : Request) : Bool × Bool :=
  let a_start := a.address
  let a_end := wrapInt (wrapInt (a_start + a.size) - 1)
  let b_start := b.address
  let b_end := wrapInt (wrapInt (b_start + b.size) - 1)
  (decide (a_start ≤ b_end) && decide (b_start ≤ a_end),
    overflows (a_start + a.size) || overflows (wrapInt (a_start + a.size) - 1)
      || overflows (b_start + b.size) || overflows (wrapInt (b_start + b.size) - 1))

/-- The `for` loop over the active requests with its `break` (lines 61-66
and 89-94) on 32-bit `int`s: whether an active WRITE overlaps `cand`, and
whether a call of `isRangesOverlap` made by the loop overflowed.  The call
is made for the active requests of type "WRITE" only, up to the first that
overlaps. -/
def overlapsActiveWrite32 (cand : Request) : List Request → Bool × Bool
  | [] => (false, false)
  | a :: rest =>
    if a.type = "WRITE" then
      if (isRangesOverlap32 a cand).1 then
        (true, (isRangesOverlap32 a cand).2)
      else
        ((overlapsActiveWrite32 cand rest).1,
          (isRangesOverlap32 a cand).2 || (overlapsActiveWrite32 cand rest).2)
    else
      overlapsActiveWrite32 cand rest

/-- A state of the run on 32-bit `int`s with the history that led to it;
`overflow` tells whether an `int` operation of the run so far has
overflowed. -/
structure Machine where
  state : State
  history : History
  overflow : Bool
  deriving DecidableEq, Repr

/-- The state and the history of a machine. -/
def Machine.traced (m : Machine) : Traced :=
  { state := m.state, history := m.history }

/-- The admission block (lines 71-75 and 97-101) on 32-bit `int`s: the
product `size * (type == "WRITE" ? 1 : 2)` and the sum `time + latency` wrap
around. -/
def start32 (m : Machine) (time : Int) (r : Nat) : Machine :=
  let product :=
    (getReq m.state.requests r).size * (if (getReq m.state.requests r).type = "WRITE" then 1 else 2)
  let latency := wrapInt product
  let completion_time := wrapInt (time + latency)
  { state := { m.state with
      event_queue := m.state.event_queue ++ [⟨completion_time, EventType.COMPLETION, r⟩]
      active_requests := m.state.active_requests ++ [r]
      requests := setStart m.state.requests r time }
    history := { m.history with started := m.history.started ++ [r] }
    overflow := m.overflow || overflows product || overflows (time + latency) }

/-- The ARRIVAL branch, lines 59-80, on 32-bit `int`s. -/
def arrival32 (N : Int) (m : Machine) (event : Event) : Machine :=
  let scan := overlapsActiveWrite32 (getReq m.state.requests event.req) (activeReqs m.state)
  let can := !scan.1
  let can_start := if m.state.active_requests.length ≥ sizeT N then false else can
  if can_start then
    start32 { m with overflow := m.overflow || scan.2 } event.time event.req
  else
    { state := { m.state with pending_queue := m.state.pending_queue ++ [event.req] }
      history := { m.history with enqueued := m.history.enqueued ++ [event.req] }
      overflow := m.overflow || scan.2 }

/-- The `while` loop of lines 86-106 on 32-bit `int`s, at most `fuel`
passes. -/
def readmitLoop32 (N : Int) (time : Int) : Nat → Machine → Machine
  | 0, m => m
  | fuel + 1, m =>
    match m.state.pending_queue with
    | [] => m
    | next_req :: rest =>
      if m.state.active_requests.length < sizeT N then
        let scan :=
          overlapsActiveWrite32 (getReq m.state.requests next_req) (activeReqs m.state)
        if !scan.1 then
          readmitLoop32 N time fuel
            (start32
              { state := { m.state with pending_queue := rest }
                history := { m.history with dequeued := m.history.dequeued ++ [next_req] }
                overflow := m.overflow || scan.2 }
              time next_req)
        else
          { m with overflow := m.overflow || scan.2 }
      else
        m

/-- The COMPLETION branch, lines 81-107, on 32-bit `int`s.  Every pass of
the `while` removes the head of the pending queue, so its length bounds the
number of passes. -/
def completion32 (N : Int) (m : Machine) (event : Event) : Machine :=
  readmitLoop32 N event.time (complete m.state event).pending_queue.length
    { state := complete m.state event
      history := { m.history with ended := m.history.ended ++ [event.req] }
      overflow := m.overflow }

/-- One pass of the event loop for the popped `event`, lines 56-107, on
32-bit `int`s. -/
def event32 (N : Int) (m : Machine) (event : Event) : Machine :=
  let m1 : Machine :=
    { state := { m.state with event_queue := m.state.event_queue.erase event }
      history := { m.history with popped := m.history.popped ++ [event] }
      overflow := m.overflow }
  match event.event_type with
  | EventType.ARRIVAL => arrival32 N m1 event
  | EventType.COMPLETION => completion32 N m1 event

/-- The machine at the first test of the event loop (line 55). -/
def init32 (requests : List Request) : Machine :=
  { state := initState requests
    history := { popped := [], started := [], ended := [], enqueued := [], dequeued := [] }
    overflow := false }

/-- The event loop on 32-bit `int`s, at most `fuel` passes. -/
def loop32 (N : Int) : Nat → Machine → Machine
  | 0, m => m
  | fuel + 1, m =>
    match topEvent m.state.event_queue with
    | none => m
    | some event => loop32 N fuel (event32 N m event)

/-- The simulation part of `simulateServer`, lines 42-108, on 32-bit
`int`s: the machine when the event loop is left. -/
def simulate32 (requests : List Request) (N : Int) : Machine :=
  loop32 N (2 * requests.length) (init32 (sortRequests requests))

/-- The machines at the loop test of line 55 on 32-bit `int`s, for every
order in which the priority queue may hand out its events; `requests` is
the vector after the initial sort. -/
inductive Reachable32 (N : Int) (requests : List Request) : Machine → Prop
  | init : Reachable32 N requests (init32 requests)
  | step (m : Machine) (e : Event) :
      Reachable32 N requests m → IsTop e m.state.event_queue →
      Reachable32 N requests (event32 N m e)

/-- The loop of lines 110-116 over the completed list on 32-bit `int`s: the
difference `end_time - timestamp` wraps around. -/
def partitionLatencies32 (requests : List Request) : List Nat → List Int × List Int
  | [] => ([], [])
  | r :: rest =>
    let total_latency := wrapInt ((getReq requests r).end_time - (getReq requests r).timestamp)
    let p := partitionLatencies32 requests rest
    if (getReq requests r).type = "READ" then (total_latency :: p.1, p.2)
    else (p.1, total_latency :: p.2)

/-- Whether a subtraction `end_time - timestamp` of the loop of lines
110-116 overflows. -/
def latencyOverflow (requests : List Request) (completed : List Nat) : Bool :=
  completed.any
    (fun r => overflows ((getReq requests r).end_time - (getReq requests r).timestamp))

/-- The machines at every point of the run on 32-bit `int`s: at the loop
test (`top`), and in the COMPLETION branch after lines 82-84 and after each
of the first `k` passes of the pending loop (`inner`). -/
inductive Visited32 (N : Int) (requests : List Request) : Machine → Prop
  | top (m : Machine) : Reachable32 N requests m → Visited32 N requests m
  | inner (m : Machine) (e : Event) (k : Nat) :
      Reachable32 N requests m → IsTop e m.state.event_queue →
      e.event_type = EventType.COMPLETION →
      Visited32 N requests
        (readmitLoop32 N e.time k
          { state := complete { m.state with event_queue := m.state.event_queue.erase e } e
            history := { m.history with
              popped := m.history.popped ++ [e]
              ended := m.history.ended ++ [e.req] }
            overflow := m.overflow })

/-- A WRITE(t=10, addr=0, size=-3), a record whose size is negative. -/
def negativeSize : List Request :=
  [ { id := 1, timestamp := 10, type := "WRITE", address := 0, size := -3 } ]

/-- A READ(t=0, addr=0, size=1073741824): twice its size is 2^31, one more
than the largest `int`. -/
def largeRead : List Request :=
  [ { id := 1, timestamp := 0, type := "READ", address := 0, size := 1073741824 } ]

/-- The claim on the order of the outputs at one state: every completed
request has `start_time ≤ end_time`. -/
def OutputsOrdered (s : State) : Prop :=
  ∀ r ∈ s.completed_requests,
    (getReq s.requests r).start_time ≤ (getReq s.requests r).end_time

instance (s : State) : Decidable (OutputsOrdered s) := by
  unfold OutputsOrdered; infer_instance

/-- The latency `end_time - timestamp` that the statistics loop computes. -/
def totalLatency (requests : List Request) (r : Nat) : Int :=
  (getReq requests r).end_time - (getReq requests r).timestamp

/-- The order of time in a run with history: the popped events have
ascending times, no queued event is earlier than a popped one, a pending
request arrived no later than some popped event, and no active or completed
request started before its timestamp. -/
structure Timed (reqs : List Request) (x : Traced) : Prop where
  sorted : (x.history.popped.map Event.time).Pairwise (fun a b => a ≤ b)
  queue : ∀ p ∈ x.history.popped, ∀ e ∈ x.state.event_queue, p.time ≤ e.time
  pend : ∀ r ∈ x.state.pending_queue,
    ∃ p ∈ x.history.popped, (getReq reqs r).timestamp ≤ p.time
  start : ∀ r, r ∈ x.state.active_requests ∨ r ∈ x.state.completed_requests →
    (getReq reqs r).timestamp ≤ (getReq x.state.requests r).start_time

/-- A READ(t=-2147483648, addr=0, size=1073741823) and a
WRITE(t=-2147483648, addr=5000, size=5): with `N = 1` the WRITE waits for the
READ, which completes at time -2. -/
def earlyTrace : List Request :=
  [ { id := 1, timestamp := -2147483648, type := "READ", address := 0, size := 1073741823 },
    { id := 2, timestamp := -2147483648, type := "WRITE", address := 5000, size := 5 } ]

/-- A single request of type "FLUSH" (t=0, addr=0, size=5). -/
def flushTrace : List Request :=
  [ { id := 1, timestamp := 0, type := "FLUSH", address := 0, size := 5 } ]

/-- Overtaking trace: WRITE A(t=0, addr=0, size=10), READ C(t=1, addr=5,
size=1), READ D(t=2, addr=200, size=1). -/
def overtakeTrace : List Request :=
  [ { id := 1, timestamp := 0, type := "WRITE", address := 0, size := 10 },
    { id := 3, timestamp := 1, type := "READ", address := 5, size := 1 },
    { id := 4, timestamp := 2, type := "READ", address := 200, size := 1 } ]

/-- The arrival of D in a run of the overtaking trace with `N = 2`: when the
ARRIVAL of D (time 2) is handed out, C is pending, and D is admitted. -/
def Overtaken (s : State) : Prop :=
  ∀ e ∈ s.event_queue, IsTop e s.event_queue →
    e.event_type = EventType.ARRIVAL → e.time = 2 →
      (getReq s.requests e.req).id = 4 ∧
      idsOf s s.pending_queue = [3] ∧
      idsOf s
        (processEvent 2 { s with event_queue := s.event_queue.erase e } e).active_requests
        = [1, 4] ∧
      idsOf s
        (processEvent 2 { s with event_queue := s.event_queue.erase e } e).pending_queue
        = [3]

instance (s : State) : Decidable (Overtaken s) := by
  unfold Overtaken; infer_instance

/-- The end of a run of the overtaking trace with `N = 2`: D (timestamp 2)
has `start_time = 2`, C (timestamp 1) has `start_time = 10`. -/
def OvertakeEnd (s : State) : Prop :=
  s.event_queue = [] → ∀ r ∈ s.requests,
    (r.id = 4 → r.timestamp = 2 ∧ r.start_time = 2) ∧
    (r.id = 3 → r.timestamp = 1 ∧ r.start_time = 10)

instance (s : State) : Decidable (OvertakeEnd s) := by
  unfold OvertakeEnd; infer_instance

/-! ## The request store -/

theorem length_updateAt (f : Request → Request) (l : List Request) (i : Nat) :
    (updateAt f l i).length = l.length := by
  induction l generalizing i with
  | nil => rfl
  | cons r rs ih => cases i <;> simp [updateAt, ih]

theorem getReq_updateAt (f : Request → Request) (l : List Request) (i j : Nat) :
    getReq (updateAt f l i) j
      = if j = i ∧ i < l.length then f (getReq l j) else getReq l j := by
  induction l generalizing i j with
  | nil => simp [updateAt, getReq]
  | cons r rs ih =>
    cases i with
    | zero =>
      cases j with
      | zero => simp [updateAt, getReq]
      | succ j => simp [updateAt, getReq]
    | succ i =>
      cases j with
      | zero => simp [updateAt, getReq]
      | succ j =>
        have := ih i j
        simp only [getReq, updateAt, List.getD_cons_succ, List.length_cons] at this ⊢
        rw [this]
        simp

theorem inputs_type {a b : Request} (h : a.inputs = b.inputs) : a.type = b.type := by
  simp only [Request.inputs, Prod.mk.injEq] at h; exact h.2.2.1

theorem inputs_timestamp {a b : Request} (h : a.inputs = b.inputs) :
    a.timestamp = b.timestamp := by
  simp only [Request.inputs, Prod.mk.injEq] at h; exact h.2.1

theorem inputs_size {a b : Request} (h : a.inputs = b.inputs) : a.size = b.size := by
  simp only [Request.inputs, Prod.mk.injEq] at h; exact h.2.2.2.2

theorem inputs_latency {a b : Request} (h : a.inputs = b.inputs) : latency a = latency b := by
  simp only [Request.inputs, Prod.mk.injEq] at h
  simp only [latency, h.2.2.1, h.2.2.2.2]

theorem inputs_overlap {a b c d : Request} (h : a.inputs = b.inputs) (k : c.inputs = d.inputs) :
    isRangesOverlap a c = isRangesOverlap b d := by
  simp only [Request.inputs, Prod.mk.injEq] at h k
  simp only [isRangesOverlap, h.2.2.2.1, h.2.2.2.2, k.2.2.2.1, k.2.2.2.2]

theorem length_setStart (l : List Request) (i : Nat) (t : Int) :
    (setStart l i t).length = l.length := length_updateAt _ l i

theorem length_setEnd (l : List Request) (i : Nat) (t : Int) :
    (setEnd l i t).length = l.length := length_updateAt _ l i

theorem inputs_setStart (l : List Request) (i : Nat) (t : Int) (j : Nat) :
    (getReq (setStart l i t) j).inputs = (getReq l j).inputs := by
  rw [setStart, getReq_updateAt]; split <;> rfl

theorem inputs_setEnd (l : List Request) (i : Nat) (t : Int) (j : Nat) :
    (getReq (setEnd l i t) j).inputs = (getReq l j).inputs := by
  rw [setEnd, getReq_updateAt]; split <;> rfl

theorem end_time_setStart (l : List Request) (i : Nat) (t : Int) (j : Nat) :
    (getReq (setStart l i t) j).end_time = (getReq l j).end_time := by
  rw [setStart, getReq_updateAt]; split <;> rfl

theorem start_time_setEnd (l : List Request) (i : Nat) (t : Int) (j : Nat) :
    (getReq (setEnd l i t) j).start_time = (getReq l j).start_time := by
  rw [setEnd, getReq_updateAt]; split <;> rfl

theorem start_time_setStart_self (l : List Request) (i : Nat) (t : Int) (h : i < l.length) :
    (getReq (setStart l i t) i).start_time = t := by
  rw [setStart, getReq_updateAt]; simp [h]

theorem start_time_setStart_ne (l : List Request) (i : Nat) (t : Int) (j : Nat) (h : j ≠ i) :
    (getReq (setStart l i t) j).start_time = (getReq l j).start_time := by
  rw [setStart, getReq_updateAt]; simp [h]

theorem end_time_setEnd_self (l : List Request) (i : Nat) (t : Int) (h : i < l.length) :
    (getReq (setEnd l i t) i).end_time = t := by
  rw [setEnd, getReq_updateAt]; simp [h]

theorem end_time_setEnd_ne (l : List Request) (i : Nat) (t : Int) (j : Nat) (h : j ≠ i) :
    (getReq (setEnd l i t) j).end_time = (getReq l j).end_time := by
  rw [setEnd, getReq_updateAt]; simp [h]

theorem arrivalReqs_arrivalEvents (i : Nat) (l : List Request) :
    arrivalReqs (arrivalEvents i l) = List.range' i l.length := by
  induction l generalizing i with
  | nil => rfl
  | cons r rs ih =>
    have := ih (i + 1)
    simp only [arrivalReqs] at this
    simp [arrivalEvents, arrivalReqs, List.range', this]

theorem completionReqs_arrivalEvents (i : Nat) (l : List Request) :
    completionReqs (arrivalEvents i l) = [] := by
  induction l generalizing i with
  | nil => rfl
  | cons r rs ih =>
    have := ih (i + 1)
    simp only [completionReqs] at this
    simp [arrivalEvents, completionReqs, this]

theorem mem_arrivalEvents (i : Nat) (l : List Request) (e : Event)
    (h : e ∈ arrivalEvents i l) :
    e.event_type = EventType.ARRIVAL ∧ i ≤ e.req ∧
      e.time = (getReq l (e.req - i)).timestamp := by
  induction l generalizing i with
  | nil => simp [arrivalEvents] at h
  | cons r rs ih =>
    simp only [arrivalEvents, List.mem_cons] at h
    rcases h with h | h
    · subst h; simp [getReq]
    · obtain ⟨h1, h2, h3⟩ := ih (i + 1) h
      refine ⟨h1, by omega, ?_⟩
      have : e.req - i = (e.req - (i + 1)) + 1 := by omega
      rw [h3, this]; simp [getReq]

theorem inv_init (N : Int) (reqs : List Request) : Inv N reqs [] (initState reqs) where
  len := rfl
  inputs := fun _ => rfl
  place := by
    simp [placed, initState, arrivalReqs_arrivalEvents, List.range_eq_range']
  running := by simp [initState, completionReqs_arrivalEvents]
  arrTime := fun e he _ => by
    have := (mem_arrivalEvents 0 reqs e he).2.2
    simpa using this
  compTime := fun e he hc => by
    have := (mem_arrivalEvents 0 reqs e he).1
    rw [this] at hc; cases hc
  doneTime := fun r hr => by simp [initState] at hr
  startFresh := fun _ _ => rfl
  endFresh := fun _ _ => rfl
  excl := List.Pairwise.nil
  slots := Nat.zero_le _

theorem inv_queue_perm {N : Int} {reqs : List Request} {hand : List Nat} {s : State}
    (h : Inv N reqs hand s) {q : List Event} (hq : s.event_queue.Perm q) :
    Inv N reqs hand { s with event_queue := q } where
  len := h.len
  inputs := h.inputs
  place := by
    have h1 : (arrivalReqs s.event_queue).Perm (arrivalReqs q) := (hq.filter _).map _
    refine List.Perm.trans ?_ h.place
    simp only [placed]
    exact (((h1.symm.append_right _).append_right _).append_right _).append_left _
  running := List.Perm.trans ((hq.symm.filter _).map _) h.running
  arrTime := fun e he => h.arrTime e (hq.mem_iff.mpr he)
  compTime := fun e he => h.compTime e (hq.mem_iff.mpr he)
  doneTime := h.doneTime
  startFresh := fun r hr => h.startFresh r (by
    rcases hr with hr | hr | hr
    · exact Or.inl hr
    · exact Or.inr (Or.inl ((((hq.filter _).map _).mem_iff).mpr hr))
    · exact Or.inr (Or.inr hr))
  endFresh := h.endFresh
  excl := h.excl
  slots := h.slots

theorem arrivalReqs_cons_arrival {e : Event} (q : List Event)
    (he : e.event_type = EventType.ARRIVAL) :
    arrivalReqs (e :: q) = e.req :: arrivalReqs q := by
  simp [arrivalReqs, he]

theorem arrivalReqs_cons_completion {e : Event} (q : List Event)
    (he : e.event_type = EventType.COMPLETION) :
    arrivalReqs (e :: q) = arrivalReqs q := by
  simp [arrivalReqs, he]

theorem completionReqs_cons_arrival {e : Event} (q : List Event)
    (he : e.event_type = EventType.ARRIVAL) :
    completionReqs (e :: q) = completionReqs q := by
  simp [completionReqs, he]

theorem completionReqs_cons_completion {e : Event} (q : List Event)
    (he : e.event_type = EventType.COMPLETION) :
    completionReqs (e :: q) = e.req :: completionReqs q := by
  simp [completionReqs, he]

theorem arrivalReqs_push_completion (q : List Event) (t : Int) (r : Nat) :
    arrivalReqs (q ++ [⟨t, EventType.COMPLETION, r⟩]) = arrivalReqs q := by
  simp [arrivalReqs]

theorem completionReqs_push_completion (q : List Event) (t : Int) (r : Nat) :
    completionReqs (q ++ [⟨t, EventType.COMPLETION, r⟩]) = completionReqs q ++ [r] := by
  simp [completionReqs]

theorem mem_completionReqs {q : List Event} {e : Event} (he : e ∈ q)
    (hc : e.event_type = EventType.COMPLETION) : e.req ∈ completionReqs q := by
  simp only [completionReqs, List.mem_map, List.mem_filter, decide_eq_true_eq]
  exact ⟨e, ⟨he, hc⟩, rfl⟩

theorem Inv.nodup {N : Int} {reqs : List Request} {hand : List Nat} {s : State}
    (h : Inv N reqs hand s) : (hand ++ placed s).Nodup :=
  (h.place.nodup_iff).mpr (List.nodup_range _)

theorem Inv.lt {N : Int} {reqs : List Request} {hand : List Nat} {s : State}
    (h : Inv N reqs hand s) {r : Nat} (hr : r ∈ hand ++ placed s) : r < reqs.length :=
  List.mem_range.mp ((h.place.mem_iff).mp hr)

theorem inv_take_arrival {N : Int} {reqs : List Request} {s : State} {e : Event}
    (h : Inv N reqs [] { s with event_queue := e :: s.event_queue })
    (he : e.event_type = EventType.ARRIVAL) : Inv N reqs [e.req] s where
  len := h.len
  inputs := h.inputs
  place := by
    have := h.place
    simpa [placed, arrivalReqs_cons_arrival _ he] using this
  running := by
    have := h.running
    simpa [completionReqs_cons_arrival _ he] using this
  arrTime := fun x hx => h.arrTime x (List.mem_cons_of_mem _ hx)
  compTime := fun x hx => h.compTime x (List.mem_cons_of_mem _ hx)
  doneTime := h.doneTime
  startFresh := fun r hr => h.startFresh r (by
    simp only [arrivalReqs_cons_arrival _ he, List.mem_cons]
    simp only [List.mem_singleton] at hr
    tauto)
  endFresh := h.endFresh
  excl := h.excl
  slots := h.slots

theorem overlapsActiveWrite_false {s : State} {reqs : List Request}
    (hin : ∀ i, (getReq s.requests i).inputs = (getReq reqs i).inputs) {r : Nat}
    (ho : overlapsActiveWrite (activeReqs s) (getReq s.requests r) = false) :
    ∀ a ∈ s.active_requests, (getReq reqs a).type = "WRITE" →
      isRangesOverlap (getReq reqs a) (getReq reqs r) = false := by
  intro a ha hw
  have h1 : ¬ overlapsActiveWrite (activeReqs s) (getReq s.requests r) = true := by
    rw [ho]; exact Bool.false_ne_true
  rw [overlapsActiveWrite, List.any_eq_true] at h1
  have h2 := fun hx => h1 ⟨getReq s.requests a, List.mem_map_of_mem _ ha, hx⟩
  rw [inputs_type (hin a), inputs_overlap (hin a) (hin r)] at h2
  simpa [hw] using h2

theorem inv_startRequest {N : Int} {reqs : List Request} {s : State} {r : Nat} (t : Int)
    (h : Inv N reqs [r] s) (hs : s.active_requests.length < sizeT N)
    (ho : overlapsActiveWrite (activeReqs s) (getReq s.requests r) = false) :
    Inv N reqs [] (startRequest s t r) := by
  have hnd := h.nodup
  have hr : r < s.requests.length := by
    rw [h.len]; exact h.lt (List.mem_append_left _ (List.mem_singleton_self r))
  simp only [placed, List.singleton_append, List.nodup_cons, List.mem_append, not_or] at hnd
  obtain ⟨⟨⟨⟨hra, hrp⟩, hract⟩, hrc⟩, -⟩ := hnd
  refine
    { len := ?_, inputs := ?_, place := ?_, running := ?_, arrTime := ?_, compTime := ?_,
      doneTime := ?_, startFresh := ?_, endFresh := ?_, excl := ?_, slots := ?_ }
  · simp [startRequest, length_setStart, h.len]
  · intro i; simp only [startRequest]; rw [inputs_setStart]; exact h.inputs i
  · refine List.Perm.trans ?_ h.place
    simp only [startRequest, placed, arrivalReqs_push_completion]
    rw [List.perm_iff_count]
    intro a
    simp [List.count_append, List.count_cons]
    omega
  · simp only [startRequest, completionReqs_push_completion]
    exact h.running.append_right _
  · intro e he ha
    simp only [startRequest, List.mem_append, List.mem_singleton] at he
    rcases he with he | he
    · exact h.arrTime e he ha
    · subst he; cases ha
  · intro e he hc
    simp only [startRequest, List.mem_append, List.mem_singleton] at he ⊢
    rcases he with he | he
    · have hne : e.req ≠ r := by
        intro heq
        exact hract (heq ▸ (h.running.mem_iff).mp (mem_completionReqs he hc))
      rw [start_time_setStart_ne _ _ _ _ hne]
      exact h.compTime e he hc
    · subst he
      simp only
      rw [start_time_setStart_self _ _ _ hr, inputs_latency (h.inputs r)]
  · intro x hx
    simp only [startRequest] at hx ⊢
    have hne : x ≠ r := fun heq => hrc (heq ▸ hx)
    rw [start_time_setStart_ne _ _ _ _ hne, end_time_setStart]
    exact h.doneTime x hx
  · intro x hx
    simp only [startRequest, arrivalReqs_push_completion, List.not_mem_nil, false_or] at hx ⊢
    have hne : x ≠ r := by
      rintro rfl
      rcases hx with hx | hx
      · exact hra hx
      · exact hrp hx
    rw [start_time_setStart_ne _ _ _ _ hne]
    exact h.startFresh x (Or.inr hx)
  · intro x hx
    simp only [startRequest] at hx ⊢
    rw [end_time_setStart]
    exact h.endFresh x hx
  · simp only [startRequest]
    rw [List.pairwise_append]
    refine ⟨h.excl, List.pairwise_singleton _ _, ?_⟩
    intro a ha b hb
    rw [List.mem_singleton] at hb
    subst hb
    exact overlapsActiveWrite_false h.inputs ho a ha
  · simp only [startRequest, List.length_append, List.length_singleton]
    omega

theorem inv_refuse {N : Int} {reqs : List Request} {s : State} {r : Nat}
    (h : Inv N reqs [r] s) :
    Inv N reqs [] { s with pending_queue := s.pending_queue ++ [r] } where
  len := h.len
  inputs := h.inputs
  place := by
    refine List.Perm.trans ?_ h.place
    simp only [placed]
    rw [List.perm_iff_count]
    intro a
    simp [List.count_append, List.count_cons]
    omega
  running := h.running
  arrTime := h.arrTime
  compTime := h.compTime
  doneTime := h.doneTime
  startFresh := fun x hx => h.startFresh x (by
    simp only [List.not_mem_nil, false_or, List.mem_append, List.mem_singleton] at hx
    simp only [List.mem_singleton]
    tauto)
  endFresh := h.endFresh
  excl := h.excl
  slots := h.slots

theorem can_start_eq_true {N : Int} {active : List Request} {cand : Request}
    (h : can_start N active cand = true) :
    active.length < sizeT N ∧ overlapsActiveWrite active cand = false := by
  simp only [can_start] at h
  split at h
  · cases h
  · rename_i hlt
    exact ⟨by omega, by simpa using h⟩

theorem inv_processArrival {N : Int} {reqs : List Request} {s : State} {e : Event}
    (h : Inv N reqs [] { s with event_queue := e :: s.event_queue })
    (he : e.event_type = EventType.ARRIVAL) : Inv N reqs [] (processArrival N s e) := by
  have h1 := inv_take_arrival h he
  unfold processArrival
  split
  · rename_i hc
    have hc2 := can_start_eq_true hc
    simp only [activeReqs, List.length_map] at hc2
    exact inv_startRequest e.time h1 hc2.1 hc2.2
  · exact inv_refuse h1

theorem filter_ne_eq_erase {l : List Nat} (hl : l.Nodup) (a : Nat) :
    l.filter (fun r => decide (r ≠ a)) = l.erase a := by
  rw [hl.erase_eq_filter]
  congr 1
  funext x
  by_cases hx : x = a <;> simp [hx]

theorem inv_complete {N : Int} {reqs : List Request} {s : State} {e : Event}
    (h : Inv N reqs [] { s with event_queue := e :: s.event_queue })
    (he : e.event_type = EventType.COMPLETION) : Inv N reqs [] (complete s e) := by
  have hnd := h.nodup
  have hrun := h.running
  simp only [completionReqs_cons_completion _ he] at hrun
  have hmem : e.req ∈ s.active_requests := (hrun.mem_iff).mp (List.mem_cons_self _ _)
  have hr : e.req < s.requests.length := by
    have := h.len
    simp only at this
    rw [this]
    refine h.lt ?_
    simp only [placed, List.nil_append, List.mem_append]
    exact Or.inl (Or.inr hmem)
  simp only [placed, List.nil_append, arrivalReqs_cons_completion _ he] at hnd
  have hact : s.active_requests.Nodup :=
    (List.nodup_append.mp (List.nodup_append.mp hnd).1).2.1
  have hrc : e.req ∉ s.completed_requests := fun hc =>
    (List.nodup_append.mp hnd).2.2 (List.mem_append_right _ hmem) hc
  have hfil := filter_ne_eq_erase hact e.req
  have hper : s.active_requests.Perm (e.req :: s.active_requests.erase e.req) :=
    List.perm_cons_erase hmem
  refine
    { len := ?_, inputs := ?_, place := ?_, running := ?_, arrTime := ?_, compTime := ?_,
      doneTime := ?_, startFresh := ?_, endFresh := ?_, excl := ?_, slots := ?_ }
  · simp only [complete, length_setEnd]; exact h.len
  · intro i; simp only [complete]; rw [inputs_setEnd]; exact h.inputs i
  · refine List.Perm.trans ?_ h.place
    simp only [complete, placed, hfil, arrivalReqs_cons_completion _ he]
    rw [List.perm_iff_count] at hper ⊢
    intro a
    have := hper a
    simp [List.count_append, List.count_cons] at this ⊢
    omega
  · simp only [complete, hfil]
    have := hrun.erase e.req
    simpa using this
  · intro x hx; exact h.arrTime x (List.mem_cons_of_mem _ hx)
  · intro x hx hc
    simp only [complete, start_time_setEnd]
    exact h.compTime x (List.mem_cons_of_mem _ hx) hc
  · intro x hx
    simp only [complete, List.mem_append, List.mem_singleton] at hx ⊢
    rw [start_time_setEnd]
    rcases hx with hx | hx
    · have hne : x ≠ e.req := fun heq => hrc (heq ▸ hx)
      rw [end_time_setEnd_ne _ _ _ _ hne]
      exact h.doneTime x hx
    · subst hx
      rw [end_time_setEnd_self _ _ _ hr]
      exact h.compTime e (List.mem_cons_self _ _) he
  · intro x hx
    simp only [complete, start_time_setEnd]
    refine h.startFresh x ?_
    simp only [arrivalReqs_cons_completion _ he]
    exact hx
  · intro x hx
    simp only [complete, List.mem_append, List.mem_singleton, not_or] at hx ⊢
    rw [end_time_setEnd_ne _ _ _ _ hx.2]
    exact h.endFresh x hx.1
  · simp only [complete]
    exact h.excl.filter _
  · simp only [complete]
    exact le_trans (List.length_filter_le _ _) h.slots

theorem inv_take_pending {N : Int} {reqs : List Request} {s : State} {r : Nat}
    {rest : List Nat} (h : Inv N reqs [] s) (hp : s.pending_queue = r :: rest) :
    Inv N reqs [r] { s with pending_queue := rest } where
  len := h.len
  inputs := h.inputs
  place := by
    refine List.Perm.trans ?_ h.place
    simp only [placed, hp]
    rw [List.perm_iff_count]
    intro a
    simp [List.count_append, List.count_cons]
    omega
  running := h.running
  arrTime := h.arrTime
  compTime := h.compTime
  doneTime := h.doneTime
  startFresh := fun x hx => h.startFresh x (by
    simp only [List.mem_singleton] at hx
    simp only [hp, List.mem_cons, List.not_mem_nil, false_or]
    tauto)
  endFresh := h.endFresh
  excl := h.excl
  slots := h.slots

/-- What a successful pass of the pending loop does. -/
theorem readmitBody_eq_some {N : Int} {t : Int} {s s1 : State}
    (h : readmitBody N t s = some s1) :
    ∃ r rest, s.pending_queue = r :: rest ∧ s.active_requests.length < sizeT N ∧
      overlapsActiveWrite (activeReqs s) (getReq s.requests r) = false ∧
      s1 = startRequest { s with pending_queue := rest } t r := by
  unfold readmitBody at h
  split at h
  · cases h
  · rename_i r rest hp
    split at h
    · rename_i hlt
      simp only at h
      split at h
      · rename_i ho
        refine ⟨r, rest, hp, hlt, by simpa using ho, ?_⟩
        simpa using h.symm
      · cases h
    · cases h

theorem inv_readmitBody {N : Int} {reqs : List Request} {t : Int} {s s1 : State}
    (h : Inv N reqs [] s) (hb : readmitBody N t s = some s1) : Inv N reqs [] s1 := by
  obtain ⟨r, rest, hp, hlt, ho, rfl⟩ := readmitBody_eq_some hb
  exact inv_startRequest t (inv_take_pending h hp) hlt ho

theorem inv_readmitLoop {N : Int} {reqs : List Request} (t : Int) (k : Nat) {s : State}
    (h : Inv N reqs [] s) : Inv N reqs [] (readmitLoop N t k s) := by
  induction k generalizing s with
  | zero => exact h
  | succ k ih =>
    unfold readmitLoop
    split
    · exact h
    · rename_i s1 hb
      exact ih (inv_readmitBody h hb)

theorem inv_processEvent {N : Int} {reqs : List Request} {s : State} {e : Event}
    (h : Inv N reqs [] { s with event_queue := e :: s.event_queue }) :
    Inv N reqs [] (processEvent N s e) := by
  unfold processEvent
  split
  · rename_i he; exact inv_processArrival h he
  · rename_i he; exact inv_readmitLoop _ _ (inv_complete h he)

theorem inv_pop {N : Int} {reqs : List Request} {s : State} {e : Event}
    (h : Inv N reqs [] s) (he : e ∈ s.event_queue) :
    Inv N reqs []
      { ({ s with event_queue := s.event_queue.erase e } : State) with
        event_queue := e :: ({ s with event_queue := s.event_queue.erase e } : State).event_queue } :=
  inv_queue_perm h (List.perm_cons_erase he)

/-- Every state at the loop test satisfies the invariant. -/
theorem reachable_inv {N : Int} {reqs : List Request} {s : State}
    (h : Reachable N reqs s) : Inv N reqs [] s := by
  induction h with
  | init => exact inv_init N reqs
  | step s e _ htop ih => exact inv_processEvent (inv_pop ih htop.1)

/-! ## The event queue -/

/-- The comparison `operator>` as the lexicographic order of (time, kind). -/
theorem gt_iff (a b : Event) :
    Event.gt a b = true ↔
      b.time < a.time ∨ (a.time = b.time ∧ b.event_type.toNat < a.event_type.toNat) := by
  unfold Event.gt
  split
  · rename_i h; simp [h]
  · rename_i h
    simp only [gt_iff_lt, decide_eq_true_eq]
    constructor
    · intro h1; exact Or.inl h1
    · rintro (h1 | h1)
      · exact h1
      · exact absurd h1.1 h

theorem gt_eq_false_iff (a b : Event) :
    Event.gt a b = false ↔
      a.time < b.time ∨ (a.time = b.time ∧ a.event_type.toNat ≤ b.event_type.toNat) := by
  rw [← Bool.not_eq_true, gt_iff]
  omega

theorem exists_isTop (q : List Event) (hq : q ≠ []) : ∃ e, IsTop e q := by
  induction q with
  | nil => exact absurd rfl hq
  | cons x q ih =>
    by_cases hq2 : q = []
    · subst hq2
      refine ⟨x, List.mem_singleton_self x, ?_⟩
      intro y hy
      rw [List.mem_singleton] at hy
      subst hy
      rw [gt_eq_false_iff]; omega
    · obtain ⟨m, hm, hmin⟩ := ih hq2
      by_cases hmx : Event.gt m x = false
      · refine ⟨m, List.mem_cons_of_mem _ hm, ?_⟩
        intro y hy
        rcases List.mem_cons.mp hy with rfl | hy
        · exact hmx
        · exact hmin y hy
      · refine ⟨x, List.mem_cons_self _ _, ?_⟩
        intro y hy
        rcases List.mem_cons.mp hy with rfl | hy
        · rw [gt_eq_false_iff]; omega
        · have h1 := hmin y hy
          rw [gt_eq_false_iff] at h1 hmx ⊢
          omega

theorem topEvent_isTop {q : List Event} {e : Event} (h : topEvent q = some e) :
    IsTop e q := by
  unfold topEvent at h
  refine ⟨List.mem_of_find?_eq_some h, ?_⟩
  have := List.find?_some h
  simpa using this

theorem topEvent_eq_none {q : List Event} (h : topEvent q = none) : q = [] := by
  by_contra hq
  obtain ⟨e, he, hmin⟩ := exists_isTop q hq
  unfold topEvent at h
  rw [List.find?_eq_none] at h
  exact h e he (by simpa using hmin)

theorem step_eq_none {N : Int} {s : State} (h : step N s = none) : s.event_queue = [] := by
  unfold step popEvent at h
  split at h
  · rename_i hp
    split at hp
    · rename_i ht; exact topEvent_eq_none ht
    · cases hp
  · cases h

theorem step_eq_some {N : Int} {s s1 : State} (h : step N s = some s1) :
    ∃ e, IsTop e s.event_queue ∧
      s1 = processEvent N { s with event_queue := s.event_queue.erase e } e := by
  unfold step popEvent at h
  split at h
  · cases h
  · rename_i e q hp
    split at hp
    · cases hp
    · rename_i e1 ht
      simp only [Option.some.injEq, Prod.mk.injEq] at hp
      obtain ⟨rfl, rfl⟩ := hp
      exact ⟨e1, topEvent_isTop ht, by simpa using h.symm⟩

theorem reachable_step {N : Int} {reqs : List Request} {s s1 : State}
    (h : Reachable N reqs s) (hs : step N s = some s1) : Reachable N reqs s1 := by
  obtain ⟨e, he, rfl⟩ := step_eq_some hs
  exact Reachable.step s e h he

theorem reachable_eventLoop {N : Int} {reqs : List Request} (k : Nat) {s : State}
    (h : Reachable N reqs s) : Reachable N reqs (eventLoop N k s) := by
  induction k generalizing s with
  | zero => exact h
  | succ k ih =>
    unfold eventLoop
    split
    · exact h
    · rename_i s1 hs; exact ih (reachable_step h hs)

/-- The state left by `simulateServer` is one of the reachable states. -/
theorem reachable_simulateServer (requests : List Request) (N : Int) :
    Reachable N (sortRequests requests) (simulateServer requests N) :=
  reachable_eventLoop _ Reachable.init

theorem length_arrival_add_completion (q : List Event) :
    (arrivalReqs q).length + (completionReqs q).length = q.length := by
  induction q with
  | nil => rfl
  | cons e q ih =>
    cases he : e.event_type
    · rw [arrivalReqs_cons_completion _ he, completionReqs_cons_completion _ he]
      simp only [List.length_cons]; omega
    · rw [arrivalReqs_cons_arrival _ he, completionReqs_cons_arrival _ he]
      simp only [List.length_cons]; omega

theorem work_startRequest (s : State) (t : Int) (r : Nat) : work (startRequest s t r) = work s + 1 := by
  simp only [work, startRequest, arrivalReqs_push_completion, completionReqs_push_completion,
    List.length_append, List.length_singleton]
  omega

theorem work_readmitLoop (N : Int) (t : Int) (k : Nat) (s : State) :
    work (readmitLoop N t k s) = work s := by
  induction k generalizing s with
  | zero => rfl
  | succ k ih =>
    unfold readmitLoop
    split
    · rfl
    · rename_i s1 hb
      obtain ⟨r, rest, hp, -, -, rfl⟩ := readmitBody_eq_some hb
      rw [ih, work_startRequest]
      simp only [work, hp, List.length_cons]
      omega

theorem work_processEvent (N : Int) (s : State) (e : Event) :
    work (processEvent N s e) + 1 = work { s with event_queue := e :: s.event_queue } := by
  unfold processEvent
  split
  · rename_i he
    unfold processArrival
    split
    · rw [work_startRequest]
      simp only [work, arrivalReqs_cons_arrival _ he, completionReqs_cons_arrival _ he,
        List.length_cons]
      omega
    · simp only [work, arrivalReqs_cons_arrival _ he, completionReqs_cons_arrival _ he,
        List.length_cons, List.length_append, List.length_singleton, List.length_nil]
      omega
  · rename_i he
    unfold processCompletion
    simp only [work_readmitLoop]
    simp only [work, complete, arrivalReqs_cons_completion _ he,
      completionReqs_cons_completion _ he, List.length_cons]
    omega

theorem work_step {N : Int} {s s1 : State} (h : step N s = some s1) :
    work s1 + 1 = work s := by
  obtain ⟨e, he, rfl⟩ := step_eq_some h
  rw [work_processEvent]
  have hp : s.event_queue.Perm (e :: s.event_queue.erase e) := List.perm_cons_erase he.1
  have h1 := ((hp.filter (fun e => decide (e.event_type = EventType.ARRIVAL))).map
    Event.req).length_eq
  have h2 := ((hp.filter (fun e => decide (e.event_type = EventType.COMPLETION))).map
    Event.req).length_eq
  simp only [work, arrivalReqs, completionReqs] at h1 h2 ⊢
  omega

/-- With fuel for the work left, the event loop stops on an empty queue. -/
theorem eventLoop_queue_empty (N : Int) (k : Nat) (s : State) (h : work s ≤ k) :
    (eventLoop N k s).event_queue = [] := by
  induction k generalizing s with
  | zero =>
    have h0 := length_arrival_add_completion s.event_queue
    simp only [work] at h
    show s.event_queue = []
    exact List.length_eq_zero.mp (by omega)
  | succ k ih =>
    unfold eventLoop
    split
    · rename_i hs; exact step_eq_none hs
    · rename_i s1 hs
      have := work_step hs
      exact ih s1 (by omega)

theorem work_initState (reqs : List Request) : work (initState reqs) = 2 * reqs.length := by
  simp [work, initState, arrivalReqs_arrivalEvents, completionReqs_arrivalEvents]

theorem length_sortRequests (requests : List Request) :
    (sortRequests requests).length = requests.length :=
  List.length_insertionSort _ _

/-- The event loop of `simulateServer` ends: its queue is empty. -/
theorem simulateServer_queue_empty (requests : List Request) (N : Int) :
    (simulateServer requests N).event_queue = [] :=
  eventLoop_queue_empty _ _ _ (by rw [work_initState, length_sortRequests])

/-- Once the loop has stopped, more fuel changes nothing. -/
theorem step_simulateServer (requests : List Request) (N : Int) :
    step N (simulateServer requests N) = none := by
  have h := simulateServer_queue_empty requests N
  unfold step popEvent topEvent
  rw [h]
  rfl

theorem visited_inv {N : Int} {reqs : List Request} {s : State}
    (h : Visited N reqs s) : Inv N reqs [] s := by
  cases h with
  | top _ hr => exact reachable_inv hr
  | inner s e k hr htop he =>
    exact inv_readmitLoop _ _ (inv_complete (inv_pop (reachable_inv hr) htop.1) he)

/-! ## No request is left behind -/

/-- When the pending loop is left, this is why. -/
theorem readmitBody_eq_none {N : Int} {t : Int} {s : State} (h : readmitBody N t s = none) :
    s.pending_queue = [] ∨ sizeT N ≤ s.active_requests.length ∨
      ∃ r rest, s.pending_queue = r :: rest ∧
        overlapsActiveWrite (activeReqs s) (getReq s.requests r) = true := by
  unfold readmitBody at h
  split at h
  · rename_i hp; exact Or.inl hp
  · rename_i r rest hp
    split at h
    · simp only at h
      split at h
      · cases h
      · rename_i ho
        exact Or.inr (Or.inr ⟨r, rest, hp, by simpa using ho⟩)
    · rename_i hlt
      exact Or.inr (Or.inl (by omega))

/-- The fuel of `processCompletion` is enough: the pending loop is left
because its guard is false or its `break` is taken. -/
theorem readmitBody_readmitLoop (N : Int) (t : Int) (k : Nat) (s : State)
    (hk : s.pending_queue.length ≤ k) :
    readmitBody N t (readmitLoop N t k s) = none := by
  induction k generalizing s with
  | zero =>
    have : s.pending_queue = [] := List.length_eq_zero.mp (by omega)
    simp [readmitLoop, readmitBody, this]
  | succ k ih =>
    unfold readmitLoop
    split
    · rename_i hb; exact hb
    · rename_i s1 hb
      obtain ⟨r, rest, hp, -, -, rfl⟩ := readmitBody_eq_some hb
      refine ih _ ?_
      simp only [startRequest]
      rw [hp] at hk
      simp only [List.length_cons] at hk
      omega

theorem overlapsActiveWrite_ne_nil {s : State} {c : Request}
    (h : overlapsActiveWrite (activeReqs s) c = true) : s.active_requests ≠ [] := by
  intro h0
  simp [overlapsActiveWrite, activeReqs, h0] at h

/-- At the loop test a request is pending only while some request is active
(when the limit is not zero). -/
theorem reachable_pending {N : Int} {reqs : List Request} {s : State}
    (h : Reachable N reqs s) (hN : sizeT N ≠ 0) (hp : s.pending_queue ≠ []) :
    s.active_requests ≠ [] := by
  cases h with
  | init => simp [initState] at hp
  | step s0 e _ htop =>
    revert hp
    unfold processEvent
    split
    · unfold processArrival
      split
      · intro _; simp [startRequest]
      · rename_i hc
        intro _
        simp only [can_start, Bool.not_eq_true] at hc
        split at hc
        · rename_i hge
          simp only [activeReqs, List.length_map] at hge
          intro h0
          simp only at h0
          rw [h0] at hge
          simp only [List.length_nil] at hge
          omega
        · have := overlapsActiveWrite_ne_nil (by simpa using hc)
          simpa using this
    · intro hp
      unfold processCompletion at hp ⊢
      simp only at hp ⊢
      have hb := readmitBody_readmitLoop N e.time _
        (complete { s0 with event_queue := s0.event_queue.erase e } e) (le_refl _)
      rcases readmitBody_eq_none hb with h1 | h1 | ⟨r, rest, -, h1⟩
      · exact absurd h1 hp
      · intro h0
        rw [h0] at h1
        simp only [List.length_nil] at h1
        omega
      · exact overlapsActiveWrite_ne_nil h1

/-- At the loop test with an empty event queue nothing is active or pending
(when the limit is not zero) and every request is completed once. -/
theorem reachable_done {N : Int} {reqs : List Request} {s : State}
    (h : Reachable N reqs s) (hN : sizeT N ≠ 0) (hq : s.event_queue = []) :
    s.active_requests = [] ∧ s.pending_queue = [] ∧
      s.completed_requests.Perm (List.range reqs.length) := by
  have hi := reachable_inv h
  have ha : s.active_requests = [] := by
    have := hi.running
    rw [hq] at this
    exact List.perm_nil.mp this.symm
  have hp : s.pending_queue = [] := by
    by_contra hp
    exact reachable_pending h hN hp ha
  refine ⟨ha, hp, ?_⟩
  have := hi.place
  simpa [placed, hq, ha, hp, arrivalReqs] using this

theorem sizeT_of_nonneg {N : Int} (hN : 0 ≤ N) : (sizeT N : Int) = N := by
  simp [sizeT, hN]

theorem sizeT_ne_zero {N : Int} (hN : 1 ≤ N) : sizeT N ≠ 0 := by
  have := sizeT_of_nonneg (by omega : 0 ≤ N)
  omega

theorem getReq_mem {l : List Request} {i : Nat} (h : i < l.length) : getReq l i ∈ l := by
  unfold getReq
  rw [List.getD_eq_getElem l default h]
  exact List.getElem_mem h

theorem latency_nonneg {r : Request} (h : 0 ≤ r.size) : 0 ≤ latency r := by
  unfold latency
  split
  · omega
  · omega

theorem bounded_init {c : Int} {reqs : List Request} (h : TraceFrom c reqs) :
    Bounded c (initState reqs) where
  queue := by
    intro e he
    have h1 := mem_arrivalEvents 0 reqs e he
    have h2 : e.req < reqs.length := by
      have : e.req ∈ arrivalReqs (arrivalEvents 0 reqs) := by
        simp only [arrivalReqs, List.mem_map, List.mem_filter, decide_eq_true_eq]
        exact ⟨e, ⟨he, h1.1⟩, rfl⟩
      rw [arrivalReqs_arrivalEvents] at this
      simpa using this
    rw [h1.2.2]
    exact (h _ (getReq_mem h2)).1
  started := by intro r hr; simp [initState] at hr
  ended := by intro r hr; simp [initState] at hr

theorem bounded_startRequest {c : Int} {s : State} {t : Int} {r : Nat}
    (h : Bounded c s) (ht : c ≤ t) (hl : 0 ≤ latency (getReq s.requests r))
    (hr : r < s.requests.length) : Bounded c (startRequest s t r) where
  queue := by
    intro e he
    simp only [startRequest, List.mem_append, List.mem_singleton] at he
    rcases he with he | he
    · exact h.queue e he
    · subst he; simp only; omega
  started := by
    intro x hx
    simp only [startRequest, List.mem_append, List.mem_singleton] at hx ⊢
    by_cases hxr : x = r
    · subst hxr
      rw [start_time_setStart_self _ _ _ hr]; exact ht
    · rw [start_time_setStart_ne _ _ _ _ hxr]
      rcases hx with (hx | hx) | hx
      · exact h.started x (Or.inl hx)
      · exact absurd hx hxr
      · exact h.started x (Or.inr hx)
  ended := by
    intro x hx
    simp only [startRequest] at hx ⊢
    rw [end_time_setStart]
    exact h.ended x hx

theorem bounded_readmitLoop {N : Int} {reqs : List Request} {c : Int}
    (htr : TraceFrom c reqs) (t : Int) (ht : c ≤ t) (k : Nat) {s : State}
    (hi : Inv N reqs [] s) (h : Bounded c s) : Bounded c (readmitLoop N t k s) := by
  induction k generalizing s with
  | zero => exact h
  | succ k ih =>
    unfold readmitLoop
    split
    · exact h
    · rename_i s1 hb
      have hi1 := inv_readmitBody hi hb
      obtain ⟨r, rest, hp, -, -, rfl⟩ := readmitBody_eq_some hb
      refine ih hi1 ?_
      have hr : r < reqs.length := by
        refine hi.lt ?_
        simp only [placed, hp, List.nil_append, List.mem_append, List.mem_cons]
        tauto
      refine bounded_startRequest ⟨h.queue, h.started, h.ended⟩ ht ?_ (by
        have := hi.len
        simp only
        omega)
      simp only
      rw [inputs_latency (hi.inputs r)]
      exact latency_nonneg (htr _ (getReq_mem hr)).2

theorem bounded_processEvent {N : Int} {reqs : List Request} {c : Int}
    (htr : TraceFrom c reqs) {s : State} {e : Event}
    (hi : Inv N reqs [] { s with event_queue := e :: s.event_queue })
    (h : Bounded c { s with event_queue := e :: s.event_queue }) :
    Bounded c (processEvent N s e) := by
  have hte : c ≤ e.time := h.queue e (List.mem_cons_self _ _)
  have hq : ∀ x ∈ s.event_queue, c ≤ x.time := fun x hx =>
    h.queue x (List.mem_cons_of_mem _ hx)
  unfold processEvent
  split
  · rename_i he
    have hi1 := inv_take_arrival hi he
    have hr : e.req < reqs.length :=
      hi1.lt (List.mem_append_left _ (List.mem_singleton_self _))
    unfold processArrival
    split
    · refine bounded_startRequest ⟨hq, h.started, h.ended⟩ hte ?_ (by
        have := hi1.len
        omega)
      rw [inputs_latency (hi.inputs e.req)]
      exact latency_nonneg (htr _ (getReq_mem hr)).2
    · exact ⟨hq, h.started, h.ended⟩
  · rename_i he
    have hi1 := inv_complete hi he
    refine bounded_readmitLoop htr e.time hte _ hi1 ?_
    have hmem : e.req ∈ s.active_requests := by
      have := hi.running
      simp only [completionReqs_cons_completion _ he] at this
      exact (this.mem_iff).mp (List.mem_cons_self _ _)
    have hr : e.req < s.requests.length := by
      have := hi.len
      simp only at this
      rw [this]
      refine hi.lt ?_
      simp only [placed, List.nil_append, List.mem_append]
      exact Or.inl (Or.inr hmem)
    refine ⟨hq, ?_, ?_⟩
    · intro x hx
      simp only [complete, List.mem_filter, List.mem_append, List.mem_singleton,
        decide_eq_true_eq] at hx ⊢
      rw [start_time_setEnd]
      rcases hx with hx | hx | hx
      · exact h.started x (Or.inl hx.1)
      · exact h.started x (Or.inr hx)
      · subst hx; exact h.started _ (Or.inl hmem)
    · intro x hx
      simp only [complete, List.mem_append, List.mem_singleton] at hx ⊢
      by_cases hxe : x = e.req
      · subst hxe
        rw [end_time_setEnd_self _ _ _ hr]; exact hte
      · rw [end_time_setEnd_ne _ _ _ _ hxe]
        rcases hx with hx | hx
        · exact h.ended x hx
        · exact absurd hx hxe

/-- In a trace with timestamps from `c` on and sizes that are not negative,
no time written by the engine is below `c`. -/
theorem reachable_bounded {N : Int} {reqs : List Request} {c : Int}
    (htr : TraceFrom c reqs) {s : State} (h : Reachable N reqs s) : Bounded c s := by
  induction h with
  | init => exact bounded_init htr
  | step s e hr htop ih =>
    refine bounded_processEvent htr (inv_pop (reachable_inv hr) htop.1) ?_
    refine ⟨?_, ih.started, ih.ended⟩
    intro x hx
    simp only [List.mem_cons] at hx
    rcases hx with rfl | hx
    · exact ih.queue _ htop.1
    · exact ih.queue x (List.mem_of_mem_erase hx)

theorem sortRequests_sortResult (requests : List Request) :
    SortResult requests (sortRequests requests) := by
  refine ⟨List.perm_insertionSort _ _, ?_⟩
  have : IsTotal Request (fun a b => byTimestamp b a = false) :=
    ⟨fun a b => by simp only [byTimestamp, decide_eq_false_iff_not]; omega⟩
  have : IsTrans Request (fun a b => byTimestamp b a = false) :=
    ⟨fun a b c => by simp only [byTimestamp, decide_eq_false_iff_not]; omega⟩
  exact List.sorted_insertionSort (fun a b => byTimestamp b a = false) requests

theorem mem_successors {N : Int} {s s1 : State} :
    s1 ∈ successors N s ↔
      ∃ e, IsTop e s.event_queue ∧
        s1 = processEvent N { s with event_queue := s.event_queue.erase e } e := by
  simp only [successors, List.mem_map, List.mem_filter, decide_eq_true_eq]
  constructor
  · rintro ⟨e, ⟨-, he⟩, rfl⟩; exact ⟨e, he, rfl⟩
  · rintro ⟨e, he, rfl⟩; exact ⟨e, ⟨he.1, he⟩, rfl⟩

theorem reachable_of_mem_level {N : Int} {reqs : List Request} (k : Nat) {s : State}
    (h : s ∈ level N reqs k) : Reachable N reqs s := by
  induction k generalizing s with
  | zero =>
    simp only [level, List.mem_singleton] at h
    subst h; exact Reachable.init
  | succ k ih =>
    simp only [level, List.mem_flatMap] at h
    obtain ⟨s0, hs0, hs⟩ := h
    obtain ⟨e, he, rfl⟩ := mem_successors.mp hs
    exact Reachable.step s0 e (ih hs0) he

theorem work_of_mem_level {N : Int} {reqs : List Request} (k : Nat) {s : State}
    (h : s ∈ level N reqs k) : work s + k = 2 * reqs.length := by
  induction k generalizing s with
  | zero =>
    simp only [level, List.mem_singleton] at h
    subst h; rw [work_initState]; rfl
  | succ k ih =>
    simp only [level, List.mem_flatMap] at h
    obtain ⟨s0, hs0, hs⟩ := h
    obtain ⟨e, he, rfl⟩ := mem_successors.mp hs
    have h1 := ih hs0
    have h2 := work_processEvent N { s0 with event_queue := s0.event_queue.erase e } e
    have hp : s0.event_queue.Perm (e :: s0.event_queue.erase e) := List.perm_cons_erase he.1
    have h3 := ((hp.filter (fun e => decide (e.event_type = EventType.ARRIVAL))).map
      Event.req).length_eq
    have h4 := ((hp.filter (fun e => decide (e.event_type = EventType.COMPLETION))).map
      Event.req).length_eq
    simp only [work, arrivalReqs, completionReqs] at h1 h2 h3 h4 ⊢
    omega

theorem exists_level_of_reachable {N : Int} {reqs : List Request} {s : State}
    (h : Reachable N reqs s) : ∃ k, s ∈ level N reqs k := by
  induction h with
  | init => exact ⟨0, List.mem_singleton_self _⟩
  | step s e _ htop ih =>
    obtain ⟨k, hk⟩ := ih
    refine ⟨k + 1, ?_⟩
    simp only [level, List.mem_flatMap]
    exact ⟨s, hk, mem_successors.mpr ⟨e, htop, rfl⟩⟩

/-- The list `runs` holds exactly the reachable states: no run has more
than `2 * reqs.length` passes. -/
theorem mem_runs_iff {N : Int} {reqs : List Request} {s : State} :
    s ∈ runs N reqs ↔ Reachable N reqs s := by
  simp only [runs, List.mem_flatMap, List.mem_range]
  constructor
  · rintro ⟨k, -, hk⟩; exact reachable_of_mem_level k hk
  · intro h
    obtain ⟨k, hk⟩ := exists_level_of_reachable h
    have := work_of_mem_level k hk
    exact ⟨k, by omega, hk⟩

/-! ## The claims -/

/-- C1, slot limit: for every limit `N ≥ 1` and every request vector, at
every point of the run (at the loop test after each processed event, and
after each pass of the pending re-admission loop) the active set holds at
most `N` requests. -/
theorem slot_limit (N : Int) (hN : 1 ≤ N) (reqs : List Request) (s : State)
    (h : Visited N reqs s) : (s.active_requests.length : Int) ≤ N := by
  have h1 := (visited_inv h).slots
  have h2 := sizeT_of_nonneg (by omega : 0 ≤ N)
  omega

/-- The slot limit after the first two events of the head-of-line trace with
`N = 2`, where both slots are taken. -/
theorem slot_limit_witness :
    (1 : Int) ≤ 2 ∧
      (eventLoop 2 2 (initState (sortRequests holTrace))).active_requests = [0, 1] ∧
      ((eventLoop 2 2 (initState (sortRequests holTrace))).active_requests.length : Int) ≤ 2 :=
  ⟨by decide, by decide,
    slot_limit 2 (by decide) (sortRequests holTrace) _
      (Visited.top _ (reachable_eventLoop 2 Reachable.init))⟩

/-- C2 as stated fails: with `N = 2`, after the two ARRIVAL events of a READ
(t=0, addr=0, size=10) and a WRITE (t=1, addr=5, size=1), both are active
and the active WRITE overlaps the active READ; so the exclusion does not
hold at every point of every run. -/
theorem write_exclusive_counterexample :
    (eventLoop 2 2 (initState (sortRequests readThenWrite))).active_requests = [0, 1] ∧
      ¬ WriteExclusive (eventLoop 2 2 (initState (sortRequests readThenWrite))) ∧
      ¬ (∀ (N : Int) (reqs : List Request) (s : State),
          Visited N reqs s → WriteExclusive s) :=
  ⟨by decide, by decide, fun h =>
    absurd (h 2 (sortRequests readThenWrite) _
      (Visited.top _ (reachable_eventLoop 2 Reachable.init))) (by decide)⟩

/-- C2, amended: at every point of the run, for every limit `N`, an active
WRITE overlaps no active request admitted after it (`active_requests` keeps
the order of admission). -/
theorem write_exclusive_later (N : Int) (reqs : List Request) (s : State)
    (h : Visited N reqs s) : WriteExclusiveLater s := by
  have hi := visited_inv h
  refine hi.excl.imp ?_
  intro a b hab hw
  rw [inputs_type (hi.inputs a)] at hw
  rw [inputs_overlap (hi.inputs a) (hi.inputs b)]
  exact hab hw

/-- The amended exclusion at the state of the counterexample. -/
theorem write_exclusive_later_witness :
    WriteExclusiveLater (eventLoop 2 2 (initState (sortRequests readThenWrite))) :=
  write_exclusive_later 2 (sortRequests readThenWrite) _
    (Visited.top _ (reachable_eventLoop 2 Reachable.init))

theorem overlapsActiveWrite_eq_false_iff (s : State) (cand : Request) :
    overlapsActiveWrite (activeReqs s) cand = false ↔
      ∀ a ∈ s.active_requests, (getReq s.requests a).type = "WRITE" →
        isRangesOverlap (getReq s.requests a) cand = false := by
  simp [overlapsActiveWrite, activeReqs]

theorem can_start_iff {N : Int} (hN : 0 ≤ N) (s : State) (cand : Nat) :
    can_start N (activeReqs s) (getReq s.requests cand) = true ↔ SpecAdmits N s cand := by
  have h0 := sizeT_of_nonneg hN
  unfold can_start SpecAdmits
  simp only [activeReqs, List.length_map]
  split
  · rename_i hge
    constructor
    · intro h; cases h
    · intro h; omega
  · rename_i hlt
    rw [Bool.not_eq_true', ← activeReqs, overlapsActiveWrite_eq_false_iff]
    constructor
    · intro h; exact ⟨by omega, h⟩
    · intro h; exact h.2

theorem startRequest_active (s : State) (t : Int) (r : Nat) :
    (startRequest s t r).active_requests = s.active_requests ++ [r] := rfl

/-- C3, admission decision: for every limit `N ≥ 0`, the ARRIVAL branch and
the pending re-admission loop admit the candidate exactly when fewer than
`N` requests are active and no active WRITE overlaps the candidate;
otherwise the arrival is appended to the pending queue and the pending loop
is left.  The type of the candidate plays no part, and active requests that
are not WRITE never block. -/
theorem admission_decision (N : Int) (hN : 0 ≤ N) (s : State) :
    (∀ e : Event,
      (processArrival N s e = startRequest s e.time e.req ↔ SpecAdmits N s e.req) ∧
      (¬ SpecAdmits N s e.req →
        processArrival N s e = { s with pending_queue := s.pending_queue ++ [e.req] })) ∧
    (∀ (t : Int) (r : Nat) (rest : List Nat), s.pending_queue = r :: rest →
      (readmitBody N t s = some (startRequest { s with pending_queue := rest } t r)
        ↔ SpecAdmits N s r) ∧
      (¬ SpecAdmits N s r → readmitBody N t s = none)) ∧
    (∀ (active : List Request) (cand : Request) (ty : String),
      can_start N active { cand with type := ty } = can_start N active cand) ∧
    (∀ (active : List Request) (cand : Request), (∀ a ∈ active, a.type ≠ "WRITE") →
      can_start N active cand = decide ((active.length : Int) < N)) := by
  have h0 := sizeT_of_nonneg hN
  refine ⟨?_, ?_, ?_, ?_⟩
  · intro e
    have hc := can_start_iff hN s e.req
    by_cases hs : SpecAdmits N s e.req
    · have := hc.mpr hs
      simp [processArrival, this, hs]
    · have hf : can_start N (activeReqs s) (getReq s.requests e.req) = false := by
        rw [← Bool.not_eq_true, hc]; exact hs
      refine ⟨?_, ?_⟩
      · simp only [processArrival, hf, Bool.false_eq_true, if_false, hs, iff_false]
        intro heq
        have := congrArg (fun x => x.active_requests.length) heq
        simp [startRequest] at this
      · intro _
        simp [processArrival, hf]
  · intro t r rest hp
    have hc := can_start_iff hN s r
    by_cases hs : SpecAdmits N s r
    · have h1 := hs
      obtain ⟨hlt, ho⟩ := h1
      rw [← overlapsActiveWrite_eq_false_iff] at ho
      have hlt2 : s.active_requests.length < sizeT N := by omega
      simp [readmitBody, hp, hlt2, ho, hs]
    · have hnone : readmitBody N t s = none := by
        unfold readmitBody
        rw [hp]
        simp only
        split
        · rename_i hlt
          split
          · rename_i ho
            exfalso
            apply hs
            refine ⟨by omega, ?_⟩
            rw [← overlapsActiveWrite_eq_false_iff]
            simpa using ho
          · rfl
        · rfl
      simp [hnone, hs]
  · intro active cand ty
    simp [can_start, overlapsActiveWrite, isRangesOverlap]
  · intro active cand hw
    have : overlapsActiveWrite active cand = false := by
      simp only [overlapsActiveWrite, List.any_eq_false, Bool.and_eq_true, decide_eq_true_eq,
        not_and]
      intro a ha hty
      exact absurd hty (hw a ha)
    simp only [can_start, this, Bool.not_false]
    by_cases hlt : (active.length : Int) < N
    · have : ¬ active.length ≥ sizeT N := by omega
      simp [this, hlt]
    · have : active.length ≥ sizeT N := by omega
      simp [this, hlt]

/-- The decision at the arrival of the WRITE of `readThenWrite` with `N = 2`,
while the overlapping READ is active: the WRITE is admitted. -/
theorem admission_decision_witness :
    (0 : Int) ≤ 2 ∧
      popEvent (eventLoop 2 1 (initState (sortRequests readThenWrite))).event_queue
        = some (⟨1, EventType.ARRIVAL, 1⟩, writeArrives.event_queue) ∧
      writeArrives.active_requests = [0] ∧
      SpecAdmits 2 writeArrives 1 ∧
      processArrival 2 writeArrives ⟨1, EventType.ARRIVAL, 1⟩ = startRequest writeArrives 1 1 :=
  ⟨by decide, by decide, by decide, by decide,
    ((admission_decision 2 (by decide) writeArrives).1
        ⟨1, EventType.ARRIVAL, 1⟩).1.mpr (by decide)⟩

/-- C4, event queue order: `operator>` is the strict lexicographic order of
(time, kind) with COMPLETION below ARRIVAL; an event that the queue hands
out has the smallest time of all queued events, and it is not an ARRIVAL
while a COMPLETION of that time is queued; a queue that is not empty hands
out such an event. -/
theorem event_queue_order :
    (∀ a b : Event, Event.gt a b = true ↔
      (b.time < a.time ∨
        (a.time = b.time ∧ a.event_type = EventType.ARRIVAL ∧
          b.event_type = EventType.COMPLETION))) ∧
    (∀ a : Event, Event.gt a a = false) ∧
    (∀ a b c : Event, Event.gt a b = true → Event.gt b c = true → Event.gt a c = true) ∧
    (∀ a b c : Event, Event.gt a b = false → Event.gt b c = false → Event.gt a c = false) ∧
    (∀ (q : List Event) (e : Event), IsTop e q →
      (∀ x ∈ q, e.time ≤ x.time) ∧
      (∀ x ∈ q, x.time = e.time → x.event_type = EventType.COMPLETION →
        e.event_type = EventType.COMPLETION)) ∧
    (∀ q : List Event, q ≠ [] →
      ∃ e, popEvent q = some (e, q.erase e) ∧ IsTop e q) := by
  have hrank : ∀ a b : EventType, b.toNat < a.toNat ↔
      (a = EventType.ARRIVAL ∧ b = EventType.COMPLETION) := by
    intro a b; cases a <;> cases b <;> simp [EventType.toNat]
  have hle : ∀ a b : EventType, a.toNat ≤ b.toNat ↔
      ¬ (a = EventType.ARRIVAL ∧ b = EventType.COMPLETION) := by
    intro a b; cases a <;> cases b <;> simp [EventType.toNat]
  refine ⟨?_, ?_, ?_, ?_, ?_, ?_⟩
  · intro a b
    rw [gt_iff, hrank]
  · intro a
    rw [gt_eq_false_iff]; omega
  · intro a b c hab hbc
    rw [gt_iff] at hab hbc ⊢
    omega
  · intro a b c hab hbc
    rw [gt_eq_false_iff] at hab hbc ⊢
    omega
  · intro q e he
    refine ⟨?_, ?_⟩
    · intro x hx
      have := he.2 x hx
      rw [gt_eq_false_iff] at this
      omega
    · intro x hx ht hc
      have := he.2 x hx
      rw [gt_eq_false_iff, hle] at this
      rcases this with h1 | ⟨-, h1⟩
      · omega
      · cases hk : e.event_type
        · rfl
        · exact absurd ⟨hk, hc⟩ h1
  · intro q hq
    cases ht : topEvent q with
    | none => exact absurd (topEvent_eq_none ht) hq
    | some e => exact ⟨e, by simp [popEvent, ht], topEvent_isTop ht⟩

/-- The order at `tieQueue`: the COMPLETION of time 3 is popped, its time is
the smallest, and the ARRIVAL of time 3 cannot be popped. -/
theorem event_queue_order_witness :
    IsTop ⟨3, EventType.COMPLETION, 1⟩ tieQueue ∧
      popEvent tieQueue
        = some (⟨3, EventType.COMPLETION, 1⟩,
            [⟨3, EventType.ARRIVAL, 2⟩, ⟨10, EventType.COMPLETION, 0⟩]) ∧
      (⟨3, EventType.COMPLETION, 1⟩ : Event).time
        ≤ (⟨10, EventType.COMPLETION, 0⟩ : Event).time ∧
      ¬ IsTop ⟨3, EventType.ARRIVAL, 2⟩ tieQueue :=
  ⟨by decide, by decide,
    (event_queue_order.2.2.2.2.1 tieQueue ⟨3, EventType.COMPLETION, 1⟩ (by decide)).1
      ⟨10, EventType.COMPLETION, 0⟩ (by decide),
    fun h => absurd
      ((event_queue_order.2.2.2.2.1 tieQueue ⟨3, EventType.ARRIVAL, 2⟩ h).2
        ⟨3, EventType.COMPLETION, 1⟩ (by decide) rfl rfl) (by decide)⟩

theorem hol_runs :
    ∀ reqs ∈ List.permutations' holTrace,
      reqs.Pairwise (fun a b => byTimestamp b a = false) →
      ∀ s ∈ runs 2 reqs,
        HolBlocked s ∧
        (s.event_queue = [] → ∀ r ∈ s.requests, r.id = 4 → r.start_time = 10) := by
  decide

/-- C5, head-of-line blocking: in a COMPLETION step, when the head of the
pending queue overlaps an active WRITE once the completed request is
removed, the step ends there: nothing is admitted and the pending queue is
unchanged, whatever stands behind the head.  In every run of the
head-of-line trace with `N = 2` (every result of the initial sort, every
order of the queue), when B completes at time 3 the head C is blocked by A,
D stands behind C and would pass the admission test, nothing is admitted,
and at the end D has `start_time = 10`; `simulateServer` pops the
COMPLETION of B after four passes. -/
theorem head_of_line_blocking :
    (∀ (N : Int) (s : State) (e : Event) (head : Nat) (rest : List Nat),
      (complete s e).pending_queue = head :: rest →
      (∃ a ∈ (complete s e).active_requests,
        (getReq (complete s e).requests a).type = "WRITE" ∧
        isRangesOverlap (getReq (complete s e).requests a)
          (getReq (complete s e).requests head) = true) →
      processCompletion N s e = complete s e) ∧
    (∀ (reqs : List Request) (s : State), SortResult holTrace reqs → Reachable 2 reqs s →
      HolBlocked s ∧
      (s.event_queue = [] → ∀ r ∈ s.requests, r.id = 4 → r.start_time = 10)) ∧
    (popEvent (eventLoop 2 4 (initState (sortRequests holTrace))).event_queue
        = some (⟨3, EventType.COMPLETION, 1⟩, holAtThree.event_queue) ∧
      (processCompletion 2 holAtThree ⟨3, EventType.COMPLETION, 1⟩).pending_queue = [2, 3] ∧
      (getReq (simulateServer holTrace 2).requests 3).id = 4 ∧
      (getReq (simulateServer holTrace 2).requests 3).start_time = 10) := by
  refine ⟨?_, ?_, by decide⟩
  · intro N s e head rest hp hb
    obtain ⟨a, ha, hw, ho⟩ := hb
    have hov : overlapsActiveWrite (activeReqs (complete s e))
        (getReq (complete s e).requests head) = true := by
      simp only [overlapsActiveWrite, activeReqs, List.any_eq_true]
      exact ⟨_, List.mem_map_of_mem _ ha, by simp [hw, ho]⟩
    have hb2 : readmitBody N e.time (complete s e) = none := by
      unfold readmitBody
      rw [hp]
      simp [hov]
    unfold processCompletion
    simp only
    cases hk : (complete s e).pending_queue.length with
    | zero => rfl
    | succ k => simp [readmitLoop, hb2]
  · intro reqs s hsr hr
    exact hol_runs reqs (List.mem_permutations'.mpr hsr.1) hsr.2 s (mem_runs_iff.mpr hr)

/-- Head-of-line blocking at the COMPLETION of B in the head-of-line trace:
C (index 2) is the blocked head, D (index 3) stands behind it. -/
theorem head_of_line_blocking_witness :
    (complete holAtThree ⟨3, EventType.COMPLETION, 1⟩).pending_queue = [2, 3] ∧
      SpecAdmits 2 (complete holAtThree ⟨3, EventType.COMPLETION, 1⟩) 3 ∧
      processCompletion 2 holAtThree ⟨3, EventType.COMPLETION, 1⟩
        = complete holAtThree ⟨3, EventType.COMPLETION, 1⟩ :=
  ⟨by decide, by decide,
    head_of_line_blocking.1 2 holAtThree ⟨3, EventType.COMPLETION, 1⟩ 2 [3] (by decide)
      ⟨0, by decide, by decide, by decide⟩⟩

theorem map_inputs_eq (l1 l2 : List Request) (hl : l1.length = l2.length)
    (h : ∀ i, (getReq l1 i).inputs = (getReq l2 i).inputs) :
    l1.map Request.inputs = l2.map Request.inputs := by
  induction l1 generalizing l2 with
  | nil =>
    cases l2 with
    | nil => rfl
    | cons b l2 => simp at hl
  | cons a l1 ih =>
    cases l2 with
    | nil => simp at hl
    | cons b l2 =>
      have h0 := h 0
      simp only [getReq, List.getD_cons_zero] at h0
      simp only [List.map_cons, h0, List.cons.injEq, true_and]
      refine ih l2 (by simpa using hl) ?_
      intro i
      have := h (i + 1)
      simpa [getReq] using this

/-- C7, no request is left unresolved: for every limit `N ≥ 1` and every
request vector, a state of the run with an empty event queue has an empty
pending queue and an empty active set, its completed list holds every
request exactly once, the vector still holds the requests of the trace, and
every request has `end_time = start_time + latency`; when the trace has no
timestamp below `c` and no negative size, every `start_time` and `end_time`
is at least `c` (with `c = 0`: none is left at `-1`).  The event loop of
`simulateServer` reaches such a state for every trace, and no run has more
than two passes for each request. -/
theorem no_request_left (N : Int) (hN : 1 ≤ N) :
    (∀ (reqs : List Request) (s : State), Reachable N reqs s → s.event_queue = [] →
      s.pending_queue = [] ∧ s.active_requests = [] ∧
      s.completed_requests.Perm (List.range reqs.length) ∧
      s.requests.map Request.inputs = reqs.map Request.inputs ∧
      (∀ i, i < reqs.length →
        (getReq s.requests i).end_time
          = (getReq s.requests i).start_time + latency (getReq s.requests i)) ∧
      (∀ c, TraceFrom c reqs → ∀ i, i < reqs.length →
        c ≤ (getReq s.requests i).start_time ∧ c ≤ (getReq s.requests i).end_time)) ∧
    (∀ requests : List Request,
      (simulateServer requests N).event_queue = [] ∧
      Reachable N (sortRequests requests) (simulateServer requests N) ∧
      (sortRequests requests).Perm requests) ∧
    (∀ (reqs : List Request) (k : Nat) (s : State),
      s ∈ level N reqs k → k ≤ 2 * reqs.length) := by
  refine ⟨?_, ?_, ?_⟩
  · intro reqs s hr hq
    have hi := reachable_inv hr
    obtain ⟨ha, hp, hc⟩ := reachable_done hr (sizeT_ne_zero hN) hq
    have hmem : ∀ i, i < reqs.length → i ∈ s.completed_requests := fun i hi =>
      (hc.mem_iff).mpr (List.mem_range.mpr hi)
    refine ⟨hp, ha, hc, map_inputs_eq _ _ hi.len hi.inputs, ?_, ?_⟩
    · intro i hlt
      rw [inputs_latency (hi.inputs i)]
      exact hi.doneTime i (hmem i hlt)
    · intro c htr i hlt
      have hb := reachable_bounded htr hr
      exact ⟨hb.started i (Or.inr (hmem i hlt)), hb.ended i (hmem i hlt)⟩
  · intro requests
    exact ⟨simulateServer_queue_empty requests N, reachable_simulateServer requests N,
      List.perm_insertionSort _ _⟩
  · intro reqs k s hs
    have := work_of_mem_level k hs
    omega

/-- The end of the run of the head-of-line trace with `N = 2`. -/
theorem no_request_left_witness :
    (1 : Int) ≤ 2 ∧
      (simulateServer holTrace 2).completed_requests = [1, 0, 2, 3] ∧
      (simulateServer holTrace 2).pending_queue = [] ∧
      (simulateServer holTrace 2).active_requests = [] ∧
      (simulateServer holTrace 2).completed_requests.Perm (List.range 4) := by
  have h := (no_request_left 2 (by decide)).1 (sortRequests holTrace)
    (simulateServer holTrace 2) (reachable_simulateServer holTrace 2) (by decide)
  exact ⟨by decide, by decide, h.1, h.2.1, h.2.2.1⟩

theorem reachable_nil {N : Int} {s : State} (h : Reachable N [] s) : s = initState [] := by
  induction h with
  | init => rfl
  | step s e _ htop ih =>
    subst ih
    exact absurd htop.1 (by simp [initState, arrivalEvents])

theorem reachable_zero {reqs : List Request} {s : State} (h : Reachable 0 reqs s) :
    s.requests = reqs ∧ s.active_requests = [] ∧ s.completed_requests = [] ∧
      ∀ e ∈ s.event_queue, e.event_type = EventType.ARRIVAL := by
  induction h with
  | init =>
    refine ⟨rfl, rfl, rfl, ?_⟩
    intro e he
    exact (mem_arrivalEvents 0 reqs e he).1
  | step s e _ htop ih =>
    obtain ⟨h1, h2, h3, h4⟩ := ih
    have he := h4 e htop.1
    have hc : ∀ (a : List Request) (c : Request), can_start 0 a c = false := by
      intro a c; simp [can_start, sizeT]
    simp only [processEvent, he, processArrival, hc, Bool.false_eq_true, if_false]
    refine ⟨h1, h2, h3, ?_⟩
    intro x hx
    exact h4 x (List.mem_of_mem_erase hx)

/-- C8, degenerate inputs: with an empty request sequence (any `N`) the only
state of the run is the initial one, with every container empty; with
`N = 0` (any request vector) no state of the run has an active or a
completed request and the vector is as it was, so no `start_time` or
`end_time` is written; in both cases the event loop of `simulateServer`
ends with an empty completed list and `compute_stats` reports nothing for
the READ and for the WRITE latencies. -/
theorem degenerate_inputs :
    (∀ (N : Int) (s : State), Reachable N [] s → s = initState []) ∧
    (∀ N : Int, simulateServer [] N = initState [] ∧
      (simulateServer [] N).completed_requests = [] ∧
      report (simulateServer [] N) = (none, none)) ∧
    (∀ (reqs : List Request) (s : State), Reachable 0 reqs s →
      s.requests = reqs ∧ s.active_requests = [] ∧ s.completed_requests = []) ∧
    (∀ requests : List Request,
      (simulateServer requests 0).event_queue = [] ∧
      (simulateServer requests 0).completed_requests = [] ∧
      (simulateServer requests 0).requests = sortRequests requests ∧
      report (simulateServer requests 0) = (none, none)) := by
  refine ⟨fun N s h => reachable_nil h, ?_, ?_, ?_⟩
  · intro N
    have h : simulateServer [] N = initState [] := rfl
    rw [h]
    exact ⟨rfl, rfl, rfl⟩
  · intro reqs s h
    have := reachable_zero h
    exact ⟨this.1, this.2.1, this.2.2.1⟩
  · intro requests
    have h := reachable_zero (reachable_simulateServer requests 0)
    refine ⟨simulateServer_queue_empty requests 0, h.2.2.1, h.1, ?_⟩
    simp only [report, h.2.2.1, partitionLatencies]
    rfl

/-- The run of the head-of-line trace with `N = 0`: all four requests end
in the pending queue and keep `start_time = end_time = -1`. -/
theorem degenerate_inputs_witness :
    (simulateServer holTrace 0).pending_queue = [0, 1, 2, 3] ∧
      (simulateServer holTrace 0).requests = holTrace ∧
      (simulateServer holTrace 0).active_requests = [] ∧
      (simulateServer holTrace 0).completed_requests = [] := by
  have h := degenerate_inputs.2.2.1 (sortRequests holTrace) (simulateServer holTrace 0)
    (reachable_simulateServer holTrace 0)
  exact ⟨by decide, by decide, h.2.1, h.2.2⟩

theorem foldl_add_cast (l : List Int) (a : ℚ) :
    l.foldl (fun (acc : ℚ) (x : Int) => acc + (x : ℚ)) a = a + ((l.sum : Int) : ℚ) := by
  induction l generalizing a with
  | nil => simp
  | cons x l ih =>
    simp only [List.foldl_cons, List.sum_cons, ih]
    push_cast
    ring

theorem sorted_headD_le {l : List Int} (hs : l.Sorted (fun a b => a ≤ b)) (hne : l ≠ []) :
    l.headD 0 ∈ l ∧ ∀ x ∈ l, l.headD 0 ≤ x := by
  cases l with
  | nil => exact absurd rfl hne
  | cons a t =>
    simp only [List.headD_cons, List.mem_cons, true_or, true_and]
    intro x hx
    rcases hx with rfl | hx
    · exact le_refl _
    · exact List.rel_of_sorted_cons hs x hx

theorem sorted_le_getLastD {l : List Int} (hs : l.Sorted (fun a b => a ≤ b)) (hne : l ≠ []) :
    l.getLastD 0 ∈ l ∧ ∀ x ∈ l, x ≤ l.getLastD 0 := by
  have hlast : l.getLastD 0 = l.getLast hne := by
    cases l with
    | nil => exact absurd rfl hne
    | cons a t => rw [List.getLastD_cons, List.getLast_eq_getLastD]
  rw [hlast]
  refine ⟨List.getLast_mem hne, ?_⟩
  intro x hx
  have hsplit := List.dropLast_append_getLast hne
  rw [← hsplit] at hs hx
  have hp := List.pairwise_append.mp hs
  rcases List.mem_append.mp hx with hx | hx
  · exact hp.2.2 x hx _ (List.mem_singleton_self _)
  · rw [List.mem_singleton] at hx
    rw [hx]

theorem wrapInt_of_range {x : Int} (h : IntRange x) : wrapInt x = x := by
  unfold IntRange at h
  unfold wrapInt
  omega

/-- C9 as stated fails: for the latencies 2147483646 and 2147483646 the mean
of the two middle values is 2147483646, but line 125 adds them as `int`, the
sum 4294967292 wraps to -4, and the median reported is -2.  The run of
`largeReads` with `N = 2` on 32-bit `int`s hands these latencies to
`compute_stats` without any earlier overflow. -/
theorem statistics_counterexample :
    (compute_stats [2147483646, 2147483646]).map Stats.median = some (-2) ∧
      specMedian [2147483646, 2147483646] = 2147483646 ∧
      ((simulate32 largeReads 2).state.event_queue = [] ∧
        (simulate32 largeReads 2).overflow = false ∧
        latencyOverflow (simulate32 largeReads 2).state.requests
          (simulate32 largeReads 2).state.completed_requests = false ∧
        partitionLatencies32 (simulate32 largeReads 2).state.requests
          (simulate32 largeReads 2).state.completed_requests
        = ([2147483646, 2147483646], [])) ∧
      ¬ (∀ (data : List Int) (st : Stats), compute_stats data = some st →
          st.median = specMedian data) := by
  have h1 : (compute_stats [2147483646, 2147483646]).map Stats.median = some (-2) := by
    rw [compute_stats, if_neg (by decide)]
    norm_num [List.insertionSort, List.orderedInsert, List.getD, wrapInt]
  have h2 : specMedian [2147483646, 2147483646] = 2147483646 := by
    norm_num [specMedian, List.insertionSort, List.orderedInsert, List.getD]
  refine ⟨h1, h2, by decide, ?_⟩
  intro h
  cases hc : compute_stats [2147483646, 2147483646] with
  | none => rw [hc] at h1; simp at h1
  | some st =>
    have h3 := h _ st hc
    rw [hc, Option.map_some', Option.some.injEq] at h1
    rw [h1, h2] at h3
    norm_num at h3

/-- C9, amended: for a list of latencies that is not empty, `compute_stats`
reports the sum divided by the count as average, the smallest and the
largest value as minimum and maximum, and as median the middle value of the
ascending list for an odd count, and for an even count the mean of the two
middle values when their sum is in the range of a 32-bit `int` (in every
case half of that sum wrapped to 32 bits), as exact rationals; the
latencies 2, 4, 4, 8 give average 9/2, median 4, minimum 2, maximum 8;
nothing is reported for the empty list. -/
theorem statistics :
    (∀ data : List Int, data ≠ [] →
      ∃ st, compute_stats data = some st ∧
        st.avg = ((data.sum : Int) : ℚ) / (data.length : ℚ) ∧
        (st.min_val ∈ data ∧ ∀ x ∈ data, st.min_val ≤ x) ∧
        (st.max_val ∈ data ∧ ∀ x ∈ data, x ≤ st.max_val) ∧
        (∀ sorted : List Int, sorted.Perm data → sorted.Sorted (fun a b => a ≤ b) →
          (data.length % 2 = 1 → st.median = ((sorted.getD (data.length / 2) 0 : Int) : ℚ)) ∧
          (data.length % 2 = 0 →
            IntRange (sorted.getD (data.length / 2 - 1) 0 + sorted.getD (data.length / 2) 0) →
            st.median = (((sorted.getD (data.length / 2 - 1) 0 : Int) : ℚ)
              + ((sorted.getD (data.length / 2) 0 : Int) : ℚ)) / 2) ∧
          (data.length % 2 = 0 →
            st.median = ((wrapInt (sorted.getD (data.length / 2 - 1) 0
              + sorted.getD (data.length / 2) 0) : Int) : ℚ) / 2))) ∧
    compute_stats [2, 4, 4, 8]
      = some { avg := 9 / 2, median := 4, min_val := 2, max_val := 8 } ∧
    compute_stats [] = none := by
  refine ⟨?_, ?_, rfl⟩
  · intro data hne
    have hperm : (data.insertionSort (fun a b => a ≤ b)).Perm data :=
      List.perm_insertionSort _ _
    have hsorted : (data.insertionSort (fun a b => a ≤ b)).Sorted (fun a b => a ≤ b) :=
      List.sorted_insertionSort _ _
    have hne2 : data.insertionSort (fun a b => a ≤ b) ≠ [] := by
      intro h0
      rw [h0] at hperm
      exact hne (List.perm_nil.mp hperm.symm)
    have hlen : (data.insertionSort (fun a b => a ≤ b)).length = data.length :=
      hperm.length_eq
    refine ⟨_, if_neg hne, ?_, ?_, ?_, ?_⟩
    · simp only [foldl_add_cast, zero_add, hperm.sum_eq, hlen]
    · have := sorted_headD_le hsorted hne2
      exact ⟨(hperm.mem_iff).mp this.1, fun x hx => this.2 x ((hperm.mem_iff).mpr hx)⟩
    · have := sorted_le_getLastD hsorted hne2
      exact ⟨(hperm.mem_iff).mp this.1, fun x hx => this.2 x ((hperm.mem_iff).mpr hx)⟩
    · intro sorted hp hs
      have heq : sorted = data.insertionSort (fun a b => a ≤ b) :=
        List.eq_of_perm_of_sorted (hp.trans hperm.symm) hs hsorted
      subst heq
      simp only [hlen]
      refine ⟨?_, ?_, ?_⟩
      · intro hodd
        have : data.length % 2 ≠ 0 := by omega
        simp only [ne_eq, this, not_false_eq_true, if_true]
      · intro heven hr
        simp only [ne_eq, heven, not_true_eq_false, if_false, wrapInt_of_range hr]
        push_cast
        rfl
      · intro heven
        simp only [ne_eq, heven, not_true_eq_false, if_false]
  · rw [compute_stats, if_neg (by decide)]
    norm_num [List.insertionSort, List.orderedInsert, List.getD, wrapInt]

/-- The statistics of the latencies 8, 2, 4, 4, given out of order. -/
theorem statistics_witness :
    ∃ st, compute_stats [8, 2, 4, 4] = some st ∧
      st.avg = (((18 : Int) : ℚ)) / ((4 : Nat) : ℚ) ∧
      st.min_val = 2 ∧ st.max_val = 8 ∧ st.median = (((4 : Int) : ℚ) + ((4 : Int) : ℚ)) / 2 := by
  obtain ⟨st, h1, h2, h3, h4, h5⟩ := statistics.1 [8, 2, 4, 4] (by decide)
  have h6 := (h5 [2, 4, 4, 8] (by decide) (by decide)).2.1 (by decide) (by decide)
  refine ⟨st, h1, h2, ?_, ?_, h6⟩
  · have ha := h3.1
    have hb := h3.2 2 (by decide)
    simp only [List.mem_cons, List.mem_singleton, List.not_mem_nil, or_false] at ha
    omega
  · have ha := h4.1
    have hb := h4.2 8 (by decide)
    simp only [List.mem_cons, List.mem_singleton, List.not_mem_nil, or_false] at ha
    omega

/-- C10, overlap tester: for requests of size at least 1, `isRangesOverlap`
holds exactly when the inclusive ranges `[address, address + size - 1]`
share an address, which is the condition `a.address ≤ b.address + b.size - 1`
and `b.address ≤ a.address + a.size - 1`; a range that begins where the
other ends (`b.address = a.address + a.size`) does not overlap it. -/
theorem ranges_overlap (a b : Request) (ha : 1 ≤ a.size) (hb : 1 ≤ b.size) :
    (isRangesOverlap a b = true ↔
      ∃ x : Int, (a.address ≤ x ∧ x ≤ a.address + a.size - 1) ∧
        (b.address ≤ x ∧ x ≤ b.address + b.size - 1)) ∧
    (isRangesOverlap a b = true ↔
      (a.address ≤ b.address + b.size - 1 ∧ b.address ≤ a.address + a.size - 1)) ∧
    (b.address = a.address + a.size → isRangesOverlap a b = false) := by
  have hcond : isRangesOverlap a b = true ↔
      (a.address ≤ b.address + b.size - 1 ∧ b.address ≤ a.address + a.size - 1) := by
    simp [isRangesOverlap]
  refine ⟨?_, hcond, ?_⟩
  · rw [hcond]
    constructor
    · rintro ⟨h1, h2⟩
      by_cases h : a.address ≤ b.address
      · exact ⟨b.address, ⟨h, h2⟩, ⟨le_refl _, by omega⟩⟩
      · exact ⟨a.address, ⟨le_refl _, by omega⟩, ⟨by omega, h1⟩⟩
    · rintro ⟨x, ⟨h1, h2⟩, ⟨h3, h4⟩⟩
      exact ⟨by omega, by omega⟩
  · intro hadj
    rw [← Bool.not_eq_true, hcond]
    omega

/-- The overlap of A (addr=0, size=10) and C (addr=5, size=1) of the
head-of-line trace, which share the address 5. -/
theorem ranges_overlap_witness :
    isRangesOverlap (getReq holTrace 0) (getReq holTrace 2) = true :=
  (ranges_overlap (getReq holTrace 0) (getReq holTrace 2) (by decide) (by decide)).1.mpr
    ⟨5, by decide, by decide⟩

/-! ## Runs followed state by state -/

/-- A list of states that holds the initial state and every state that a
pass of the event loop leads to from one of its states holds all reachable
states. -/
theorem reachable_mem_of_closed {N : Int} {reqs : List Request} (states : List State)
    (h0 : initState reqs ∈ states)
    (hclosed : ∀ s ∈ states, ∀ e, IsTop e s.event_queue →
      processEvent N { s with event_queue := s.event_queue.erase e } e ∈ states)
    {s : State} (h : Reachable N reqs s) : s ∈ states := by
  induction h with
  | init => exact h0
  | step s e _ htop ih => exact hclosed s ih e htop

theorem isTop_pair_lt {a b e : Event} (hab : a.time < b.time) (h : IsTop e [a, b]) :
    e = a := by
  obtain ⟨hm, hmin⟩ := h
  simp only [List.mem_cons, List.mem_singleton, List.not_mem_nil, or_false] at hm
  rcases hm with rfl | rfl
  · rfl
  · have := hmin a (List.mem_cons_self _ _)
    rw [gt_eq_false_iff] at this
    omega

theorem isTop_pair_gt {a b e : Event} (hab : b.time < a.time) (h : IsTop e [a, b]) :
    e = b := by
  obtain ⟨hm, hmin⟩ := h
  simp only [List.mem_cons, List.mem_singleton, List.not_mem_nil, or_false] at hm
  rcases hm with rfl | rfl
  · have := hmin b (by simp)
    rw [gt_eq_false_iff] at this
    omega
  · rfl

theorem isTop_single {a e : Event} (h : IsTop e [a]) : e = a := by
  simpa using h.1

theorem sortResult_pair {a b : Request} {requests reqs : List Request}
    (hab : a.timestamp < b.timestamp) (hp : requests.Perm [a, b])
    (h : SortResult requests reqs) : reqs = [a, b] := by
  obtain ⟨h1, h2⟩ := h
  have hperm : reqs.Perm [a, b] := h1.trans hp
  have hlen := hperm.length_eq
  match reqs, hlen with
  | [x, y], _ =>
    have hx : x ∈ [a, b] := (hperm.mem_iff).mp (List.mem_cons_self _ _)
    simp only [List.mem_cons, List.mem_singleton, List.not_mem_nil, or_false] at hx
    rcases hx with rfl | rfl
    · have := (List.perm_cons x).mp hperm
      rw [List.perm_singleton.mp this]
    · exfalso
      have h3 : [y].Perm [a] := (List.perm_cons x).mp (hperm.trans (List.Perm.swap _ _ _))
      have hy := List.perm_singleton.mp h3
      simp only [List.singleton_inj] at hy
      subst hy
      simp only [List.pairwise_cons, List.mem_singleton, forall_eq, byTimestamp,
        decide_eq_false_iff_not, List.not_mem_nil, IsEmpty.forall_iff, implies_true,
        List.Pairwise.nil, and_true] at h2
      omega

theorem blockedStates_closed {N : Int} (hN : 1 ≤ N) {W R : Request}
    (hW : W.type = "WRITE") (h01 : W.timestamp < R.timestamp)
    (h1s : R.timestamp < W.timestamp + W.size) (hov : isRangesOverlap W R = true) :
    ∀ s ∈ blockedStates W R, ∀ e, IsTop e s.event_queue →
      processEvent N { s with event_queue := s.event_queue.erase e } e
        ∈ blockedStates W R := by
  have hs : sizeT N ≠ 0 := sizeT_ne_zero hN
  intro s hs0 e he
  simp only [blockedStates, List.map_cons, List.map_nil, List.mem_cons, List.mem_singleton,
    List.not_mem_nil, or_false] at hs0
  rcases hs0 with rfl | rfl | rfl | rfl | rfl
  · have := isTop_pair_lt (by simpa using h01) he
    subst this
    refine List.mem_map.mpr ⟨1, by decide, ?_⟩
    simp [blockedState, processEvent, processArrival, can_start, activeReqs,
      overlapsActiveWrite, startRequest, getReq, setStart, updateAt, latency, hW, hs]
  · have := isTop_pair_lt (by simpa using h1s) he
    subst this
    refine List.mem_map.mpr ⟨2, by decide, ?_⟩
    have hov2 : ∀ x y : Int, isRangesOverlap
        { id := W.id, timestamp := W.timestamp, type := "WRITE", address := W.address,
          size := W.size, start_time := x, end_time := y } R = true := by
      intro x y
      simpa [isRangesOverlap] using hov
    simp [blockedState, processEvent, processArrival, can_start, activeReqs,
      overlapsActiveWrite, startRequest, getReq, setStart, updateAt, latency, hW, hs, hov2]
  · have := isTop_single he
    subst this
    refine List.mem_map.mpr ⟨3, by decide, ?_⟩
    simp [blockedState, processEvent, processCompletion, complete, readmitLoop, readmitBody,
      activeReqs, overlapsActiveWrite, startRequest, getReq, setStart, setEnd, updateAt,
      latency, hW, hs, Nat.pos_of_ne_zero hs]
  · have := isTop_single he
    subst this
    refine List.mem_map.mpr ⟨4, by decide, ?_⟩
    simp [blockedState, processEvent, processCompletion, complete, readmitLoop, readmitBody,
      activeReqs, overlapsActiveWrite, startRequest, getReq, setStart, setEnd, updateAt,
      latency, hW, hs]
  · exact absurd he.1 (by simp [blockedState])

theorem blocked_final {N : Int} (hN : 1 ≤ N) {W R : Request}
    (hW : W.type = "WRITE") (h01 : W.timestamp < R.timestamp)
    (h1s : R.timestamp < W.timestamp + W.size) (hov : isRangesOverlap W R = true)
    {s : State} (h : Reachable N [W, R] s) (hq : s.event_queue = []) :
    s = blockedState W R 4 := by
  have hmem := reachable_mem_of_closed (blockedStates W R)
    (by simp [blockedStates, blockedState, initState, arrivalEvents])
    (blockedStates_closed hN hW h01 h1s hov) h
  simp only [blockedStates, List.map_cons, List.map_nil, List.mem_cons, List.mem_singleton,
    List.not_mem_nil, or_false] at hmem
  rcases hmem with rfl | rfl | rfl | rfl | rfl
  · simp [blockedState] at hq
  · simp [blockedState] at hq
  · simp [blockedState] at hq
  · simp [blockedState] at hq
  · rfl

theorem getReq_eq_getElem {l : List Request} {i : Nat} (h : i < l.length) :
    getReq l i = l[i] := by
  unfold getReq
  exact List.getD_eq_getElem l default h

theorem uncontended_index {reqs : List Request} (h : Uncontended reqs) {i j : Nat}
    (hi : i < reqs.length) (hj : j < reqs.length) (hij : i ≠ j)
    (hw : (getReq reqs i).type = "WRITE") :
    isRangesOverlap (getReq reqs i) (getReq reqs j) = false := by
  rw [getReq_eq_getElem hi] at hw ⊢
  rw [getReq_eq_getElem hj]
  rw [Uncontended, List.pairwise_iff_getElem] at h
  rcases Nat.lt_or_gt_of_ne hij with hlt | hgt
  · exact (h i j hi hj hlt).1 hw
  · exact (h j i hj hi hgt).2 hw

theorem overlap_shares {a b : Request} (ha : 1 ≤ a.size) (hb : 1 ≤ b.size)
    (h : isRangesOverlap a b = true) : SharesAddress a b := by
  simp only [isRangesOverlap, Bool.and_eq_true, decide_eq_true_eq] at h
  by_cases hab : a.address ≤ b.address
  · exact ⟨b.address, ⟨hab, h.2⟩, ⟨le_refl _, by omega⟩⟩
  · exact ⟨a.address, ⟨le_refl _, by omega⟩, ⟨by omega, h.1⟩⟩

theorem sharesAddress_symm {a b : Request} (h : SharesAddress a b) : SharesAddress b a := by
  obtain ⟨x, h1, h2⟩ := h
  exact ⟨x, h2, h1⟩

theorem uncontended_of_disjointWrites {reqs : List Request}
    (hsize : ∀ r ∈ reqs, 1 ≤ r.size) (h : DisjointWrites reqs) : Uncontended reqs := by
  unfold Uncontended
  unfold DisjointWrites at h
  rw [List.pairwise_iff_getElem] at h ⊢
  intro i j hi hj hij
  have h1 := h i j hi hj hij
  have hsi := hsize _ (List.getElem_mem hi)
  have hsj := hsize _ (List.getElem_mem hj)
  constructor
  · intro hw
    by_contra ho
    rw [Bool.not_eq_false] at ho
    exact h1 (Or.inl hw) (overlap_shares hsi hsj ho)
  · intro hw
    by_contra ho
    rw [Bool.not_eq_false] at ho
    exact h1 (Or.inr hw) (sharesAddress_symm (overlap_shares hsj hsi ho))

theorem uncontended_perm {l1 l2 : List Request} (hp : l1.Perm l2) (h : Uncontended l2) :
    Uncontended l1 :=
  (hp.pairwise_iff (fun hxy => ⟨hxy.2, hxy.1⟩)).mpr h

/-- In a run without contention nothing is pending and every request that
has started did so at its timestamp. -/
theorem reachable_uncontended {N : Int} {reqs : List Request}
    (hlen : reqs.length ≤ sizeT N) (hun : Uncontended reqs) {s : State}
    (h : Reachable N reqs s) :
    s.pending_queue = [] ∧
      ∀ r, r ∈ s.active_requests ∨ r ∈ s.completed_requests →
        (getReq s.requests r).start_time = (getReq reqs r).timestamp := by
  induction h with
  | init =>
    refine ⟨rfl, ?_⟩
    intro r hr
    simp [initState] at hr
  | step s e hr htop ih =>
    have hi := inv_pop (reachable_inv hr) htop.1
    obtain ⟨hp, hst⟩ := ih
    unfold processEvent
    split
    · rename_i he
      have h1 := inv_take_arrival hi he
      have hnd := h1.nodup
      have hlen1 := h1.place.length_eq
      simp only [placed, List.length_append, List.length_singleton, List.length_range,
        List.length_cons, List.length_nil] at hlen1
      have hreq : e.req < reqs.length :=
        h1.lt (List.mem_append_left _ (List.mem_singleton_self _))
      have hcan : can_start N (activeReqs { s with event_queue := s.event_queue.erase e })
          (getReq s.requests e.req) = true := by
        simp only [can_start, activeReqs, List.length_map]
        rw [if_neg (by omega)]
        rw [Bool.not_eq_true', ← activeReqs, overlapsActiveWrite_eq_false_iff]
        intro a ha hw
        have hane : a ≠ e.req := by
          rintro rfl
          simp only [placed, List.singleton_append, List.nodup_cons, List.mem_append,
            not_or] at hnd
          exact hnd.1.1.2 ha
        have halt : a < reqs.length := by
          refine h1.lt ?_
          simp only [placed, List.mem_append]
          exact Or.inr (Or.inl (Or.inr ha))
        rw [inputs_type (h1.inputs a)] at hw
        have := inputs_overlap (h1.inputs a) (h1.inputs e.req)
        simp only at this
        rw [this]
        exact uncontended_index hun halt hreq hane hw
      simp only [processArrival, hcan, if_true]
      refine ⟨hp, ?_⟩
      intro r hrm
      simp only [startRequest, List.mem_append, List.mem_singleton] at hrm ⊢
      by_cases hre : r = e.req
      · subst hre
        rw [start_time_setStart_self _ _ _ (by rw [h1.len]; exact hreq)]
        exact hi.arrTime e (List.mem_cons_self _ _) he
      · rw [start_time_setStart_ne _ _ _ _ hre]
        rcases hrm with (hrm | hrm) | hrm
        · exact hst r (Or.inl hrm)
        · exact absurd hrm hre
        · exact hst r (Or.inr hrm)
    · rename_i he
      have h1 := inv_complete hi he
      have hmem : e.req ∈ s.active_requests := by
        have := hi.running
        simp only [completionReqs_cons_completion _ he] at this
        exact (this.mem_iff).mp (List.mem_cons_self _ _)
      have hloop : processCompletion N { s with event_queue := s.event_queue.erase e } e
          = complete { s with event_queue := s.event_queue.erase e } e := by
        simp only [processCompletion, complete, hp, List.length_nil, readmitLoop]
      rw [hloop]
      refine ⟨hp, ?_⟩
      intro r hrm
      simp only [complete, List.mem_filter, List.mem_append, List.mem_singleton,
        decide_eq_true_eq] at hrm ⊢
      rw [start_time_setEnd]
      rcases hrm with hrm | hrm | hrm
      · exact hst r (Or.inl hrm.1)
      · exact hst r (Or.inr hrm)
      · subst hrm; exact hst _ (Or.inl hmem)

theorem exists_index_of_mem {l : List Request} {r : Request} (h : r ∈ l) :
    ∃ i, i < l.length ∧ getReq l i = r := by
  obtain ⟨i, hi, rfl⟩ := List.mem_iff_getElem.mp h
  exact ⟨i, hi, getReq_eq_getElem hi⟩

theorem isTop_tie {a b e : Event} (hab : a.time = b.time)
    (ha : a.event_type = EventType.ARRIVAL) (hb : b.event_type = EventType.COMPLETION)
    (h : IsTop e [a, b]) : e = b := by
  obtain ⟨hm, hmin⟩ := h
  simp only [List.mem_cons, List.mem_singleton, List.not_mem_nil, or_false] at hm
  rcases hm with rfl | rfl
  · have := hmin b (by simp)
    rw [gt_eq_false_iff, ha, hb] at this
    simp only [EventType.toNat] at this
    omega
  · rfl

theorem reuse_step {N : Int} (hN : 1 ≤ N) {A B : Request} (hL : 0 < latency A)
    (hB : B.timestamp = A.timestamp + latency A) :
    ∀ k ∈ [0, 1, 2, 3], ∀ e, IsTop e (reuseState A B k).event_queue →
      processEvent N
          { (reuseState A B k) with event_queue := (reuseState A B k).event_queue.erase e } e
        = reuseState A B (k + 1) ∧
      (e.event_type = EventType.ARRIVAL → e.req = 1 → k = 2) := by
  have hs : sizeT N ≠ 0 := sizeT_ne_zero hN
  intro k hk e he
  simp only [List.mem_cons, List.mem_singleton, List.not_mem_nil, or_false] at hk
  rcases hk with rfl | rfl | rfl | rfl
  · have := isTop_pair_lt (a := ⟨A.timestamp, EventType.ARRIVAL, 0⟩)
      (b := ⟨B.timestamp, EventType.ARRIVAL, 1⟩) (by simp only; omega) he
    subst this
    refine ⟨?_, by simp⟩
    simp [reuseState, processEvent, processArrival, can_start, activeReqs,
      overlapsActiveWrite, startRequest, getReq, setStart, updateAt, hs]
  · have := isTop_tie (a := ⟨B.timestamp, EventType.ARRIVAL, 1⟩)
      (b := ⟨A.timestamp + latency A, EventType.COMPLETION, 0⟩) hB rfl rfl he
    subst this
    refine ⟨?_, by simp⟩
    simp [reuseState, processEvent, processCompletion, complete, readmitLoop, readmitBody,
      getReq, setEnd, updateAt, List.erase_cons]
  · have := isTop_single he
    subst this
    refine ⟨?_, by simp⟩
    simp [reuseState, processEvent, processArrival, can_start, activeReqs,
      overlapsActiveWrite, startRequest, getReq, setStart, updateAt, hs]
  · have := isTop_single he
    subst this
    refine ⟨?_, by simp⟩
    simp [reuseState, processEvent, processCompletion, complete, readmitLoop, readmitBody,
      getReq, setEnd, updateAt]

theorem reuse_mem {N : Int} (hN : 1 ≤ N) {A B : Request} (hL : 0 < latency A)
    (hB : B.timestamp = A.timestamp + latency A) {s : State}
    (h : Reachable N [A, B] s) : ∃ k ∈ [0, 1, 2, 3, 4], s = reuseState A B k := by
  have hmem := reachable_mem_of_closed (N := N) (reuseStates A B)
    (by simp [reuseStates, reuseState, initState, arrivalEvents])
    (by
      intro s hs e he
      obtain ⟨k, hk, rfl⟩ := List.mem_map.mp hs
      simp only [List.mem_cons, List.mem_singleton, List.not_mem_nil, or_false] at hk
      rcases hk with rfl | rfl | rfl | rfl | rfl
      · exact List.mem_map.mpr ⟨1, by decide, ((reuse_step hN hL hB 0 (by decide) e he).1).symm⟩
      · exact List.mem_map.mpr ⟨2, by decide, ((reuse_step hN hL hB 1 (by decide) e he).1).symm⟩
      · exact List.mem_map.mpr ⟨3, by decide, ((reuse_step hN hL hB 2 (by decide) e he).1).symm⟩
      · exact List.mem_map.mpr ⟨4, by decide, ((reuse_step hN hL hB 3 (by decide) e he).1).symm⟩
      · exact absurd he.1 (by simp [reuseState])) h
  obtain ⟨k, hk, rfl⟩ := List.mem_map.mp hmem
  exact ⟨k, hk, rfl⟩

/-- C13, same-instant slot reuse: for every limit `N ≥ 1`, a request `A`
with latency `L = A.size * (1 if WRITE else 2) > 0` and a request `B` with
`B.timestamp = A.timestamp + L`, in every run of the trace of these two
requests (in either order in the input, for every result of the sort and
every order of the queue) the ARRIVAL of `B` is handed out only when `A` is
completed and nothing is active, `B` is admitted by that ARRIVAL, and the
run ends with `B.start_time = B.timestamp`; so does `simulateServer`.
Nothing is asked of the types, the ranges or of `N` beyond `N ≥ 1`. -/
theorem same_instant_reuse (N : Int) (hN : 1 ≤ N) (A B : Request) (hL : 0 < latency A)
    (hB : B.timestamp = A.timestamp + latency A) :
    (∀ (requests reqs : List Request) (s : State), requests.Perm [A, B] →
      SortResult requests reqs → Reachable N reqs s →
        (∀ e, IsTop e s.event_queue → e.event_type = EventType.ARRIVAL → e.req = 1 →
          s.completed_requests = [0] ∧ s.active_requests = [] ∧
          (processEvent N { s with event_queue := s.event_queue.erase e } e).active_requests
            = [1] ∧
          (processEvent N { s with event_queue := s.event_queue.erase e } e).pending_queue
            = []) ∧
        (s.event_queue = [] →
          s.requests
            = [ { A with start_time := A.timestamp, end_time := A.timestamp + latency A },
                { B with start_time := B.timestamp,
                         end_time := B.timestamp + latency B } ])) ∧
    (∀ requests : List Request, requests.Perm [A, B] →
      (simulateServer requests N).requests
        = [ { A with start_time := A.timestamp, end_time := A.timestamp + latency A },
            { B with start_time := B.timestamp, end_time := B.timestamp + latency B } ]) := by
  have key : ∀ (requests reqs : List Request) (s : State), requests.Perm [A, B] →
      SortResult requests reqs → Reachable N reqs s →
        (∀ e, IsTop e s.event_queue → e.event_type = EventType.ARRIVAL → e.req = 1 →
          s.completed_requests = [0] ∧ s.active_requests = [] ∧
          (processEvent N { s with event_queue := s.event_queue.erase e } e).active_requests
            = [1] ∧
          (processEvent N { s with event_queue := s.event_queue.erase e } e).pending_queue
            = []) ∧
        (s.event_queue = [] →
          s.requests
            = [ { A with start_time := A.timestamp, end_time := A.timestamp + latency A },
                { B with start_time := B.timestamp,
                         end_time := B.timestamp + latency B } ]) := by
    intro requests reqs s hp hsr hr
    have hreqs := sortResult_pair (by omega : A.timestamp < B.timestamp) hp hsr
    subst hreqs
    obtain ⟨k, hk, rfl⟩ := reuse_mem hN hL hB hr
    simp only [List.mem_cons, List.mem_singleton, List.not_mem_nil, or_false] at hk
    refine ⟨?_, ?_⟩
    · intro e he ha h1
      rcases hk with rfl | rfl | rfl | rfl | rfl
      · exact absurd ((reuse_step hN hL hB 0 (by decide) e he).2 ha h1) (by decide)
      · exact absurd ((reuse_step hN hL hB 1 (by decide) e he).2 ha h1) (by decide)
      · rw [(reuse_step hN hL hB 2 (by decide) e he).1]
        exact ⟨rfl, rfl, rfl, rfl⟩
      · exact absurd ((reuse_step hN hL hB 3 (by decide) e he).2 ha h1) (by decide)
      · exact absurd he.1 (by simp [reuseState])
    · intro hq
      rcases hk with rfl | rfl | rfl | rfl | rfl
      · simp [reuseState] at hq
      · simp [reuseState] at hq
      · simp [reuseState] at hq
      · simp [reuseState] at hq
      · rfl
  refine ⟨key, ?_⟩
  intro requests hp
  exact (key requests _ _ hp (sortRequests_sortResult requests)
    (reachable_simulateServer requests N)).2 (simulateServer_queue_empty requests N)

/-- The same-instant trace with `N = 1`, where A is a WRITE that overlaps B:
B starts at 10, its timestamp. -/
theorem same_instant_reuse_witness :
    isRangesOverlap (getReq sameInstant 0) (getReq sameInstant 1) = true ∧
      (simulateServer sameInstant 1).requests
        = [ { id := 1, timestamp := 0, type := "WRITE", address := 0, size := 10,
              start_time := 0, end_time := 10 },
            { id := 2, timestamp := 10, type := "READ", address := 5, size := 1,
              start_time := 10, end_time := 12 } ] :=
  ⟨by decide,
    (same_instant_reuse 1 (by decide)
      { id := 1, timestamp := 0, type := "WRITE", address := 0, size := 10 }
      { id := 2, timestamp := 10, type := "READ", address := 5, size := 1 }
      (by decide) (by decide)).2 sameInstant (List.Perm.refl _)⟩

/-! ## The run with its history -/

theorem tracedStart_state (x : Traced) (t : Int) (r : Nat) :
    (tracedStart x t r).state = startRequest x.state t r := rfl

theorem tracedArrival_state (N : Int) (x : Traced) (e : Event) :
    (tracedArrival N x e).state = processArrival N x.state e := by
  unfold tracedArrival processArrival
  split <;> rfl

theorem tracedReadmitBody_state (N : Int) (t : Int) (x : Traced) :
    (tracedReadmitBody N t x).map Traced.state = readmitBody N t x.state := by
  unfold tracedReadmitBody readmitBody
  cases hp : x.state.pending_queue with
  | nil => rfl
  | cons r rest =>
    simp only
    by_cases hlt : x.state.active_requests.length < sizeT N
    · by_cases ho : (!overlapsActiveWrite (activeReqs x.state)
          (getReq x.state.requests r)) = true
      · simp only [hlt, ho, if_true, Option.map_some', tracedStart_state]
      · simp [hlt, ho]
    · simp only [hlt, if_false, Option.map_none']

theorem tracedReadmitLoop_state (N : Int) (t : Int) (k : Nat) (x : Traced) :
    (tracedReadmitLoop N t k x).state = readmitLoop N t k x.state := by
  induction k generalizing x with
  | zero => rfl
  | succ k ih =>
    have hb := tracedReadmitBody_state N t x
    unfold tracedReadmitLoop readmitLoop
    cases h : tracedReadmitBody N t x with
    | none =>
      rw [h] at hb
      simp only [Option.map_none'] at hb
      rw [← hb]
    | some x1 =>
      rw [h] at hb
      simp only [Option.map_some'] at hb
      rw [← hb]
      exact ih x1

theorem tracedEvent_state (N : Int) (x : Traced) (e : Event) :
    (tracedEvent N x e).state
      = processEvent N { x.state with event_queue := x.state.event_queue.erase e } e := by
  unfold tracedEvent processEvent
  cases he : e.event_type with
  | ARRIVAL =>
    simp only
    rw [tracedArrival_state]; rfl
  | COMPLETION =>
    simp only
    unfold tracedCompletion processCompletion
    rw [tracedReadmitLoop_state]; rfl

/-- The states of the run with history are the reachable states. -/
theorem reachable_of_traced {N : Int} {reqs : List Request} {x : Traced}
    (h : TracedReachable N reqs x) : Reachable N reqs x.state := by
  induction h with
  | init => exact Reachable.init
  | step x e _ htop ih =>
    rw [tracedEvent_state]
    exact Reachable.step _ e ih htop

/-- Every reachable state has a history. -/
theorem traced_of_reachable {N : Int} {reqs : List Request} {s : State}
    (h : Reachable N reqs s) : ∃ x, TracedReachable N reqs x ∧ x.state = s := by
  induction h with
  | init => exact ⟨_, TracedReachable.init, rfl⟩
  | step s e _ htop ih =>
    obtain ⟨x, hx, rfl⟩ := ih
    exact ⟨_, TracedReachable.step x e hx htop, tracedEvent_state N x e⟩

theorem tracedReachable_loop {N : Int} {reqs : List Request} (k : Nat) {x : Traced}
    (h : TracedReachable N reqs x) : TracedReachable N reqs (tracedLoop N k x) := by
  induction k generalizing x with
  | zero => exact h
  | succ k ih =>
    unfold tracedLoop
    split
    · exact h
    · rename_i e ht
      exact ih (TracedReachable.step x e h (topEvent_isTop ht))

theorem tracedLoop_state (N : Int) (k : Nat) (x : Traced) :
    (tracedLoop N k x).state = eventLoop N k x.state := by
  induction k generalizing x with
  | zero => rfl
  | succ k ih =>
    unfold tracedLoop eventLoop step popEvent
    cases ht : topEvent x.state.event_queue with
    | none => rfl
    | some e =>
      simp only
      rw [ih, tracedEvent_state]

/-- The run with history ends in the state of `simulateServer`. -/
theorem simulateTraced_state (requests : List Request) (N : Int) :
    (simulateTraced requests N).state = simulateServer requests N :=
  tracedLoop_state N _ _

theorem tracedReachable_simulate (requests : List Request) (N : Int) :
    TracedReachable N (sortRequests requests) (simulateTraced requests N) :=
  tracedReachable_loop _ TracedReachable.init

theorem tracedReadmitBody_eq_some {N : Int} {t : Int} {x x1 : Traced}
    (h : tracedReadmitBody N t x = some x1) :
    ∃ r rest, x.state.pending_queue = r :: rest ∧
      x1 = tracedStart
        { state := { x.state with pending_queue := rest }
          history := { x.history with dequeued := x.history.dequeued ++ [r] } } t r := by
  unfold tracedReadmitBody at h
  split at h
  · cases h
  · rename_i r rest hp
    split at h
    · simp only at h
      split at h
      · exact ⟨r, rest, hp, by simpa using h.symm⟩
      · cases h
    · cases h

theorem histInv_start {x : Traced} (t : Int) (r : Nat) (h : HistInv x) :
    HistInv (tracedStart x t r) where
  started := by
    simp only [tracedStart, startRequest]
    have := h.started
    rw [List.perm_iff_count] at this ⊢
    intro a
    have := this a
    simp [List.count_append, List.count_cons] at this ⊢
    omega
  ended := h.ended
  fifo := h.fifo
  dequeuedIn := by
    intro a ha
    simp only [tracedStart, startRequest, List.mem_append, List.mem_singleton]
    rcases h.dequeuedIn a ha with h1 | h1
    · exact Or.inl (Or.inl h1)
    · exact Or.inr h1
  dequeuedNodup := h.dequeuedNodup

theorem histInv_arrival (N : Int) {x : Traced} (e : Event) (h : HistInv x) :
    HistInv (tracedArrival N x e) := by
  unfold tracedArrival
  split
  · exact histInv_start _ _ h
  · refine ⟨h.started, h.ended, ?_, h.dequeuedIn, h.dequeuedNodup⟩
    simp only [h.fifo, List.append_assoc]

theorem histInv_complete {N : Int} {reqs : List Request} {x : Traced} {e : Event}
    (hi : Inv N reqs [] { x.state with event_queue := e :: x.state.event_queue })
    (he : e.event_type = EventType.COMPLETION) (h : HistInv x) :
    HistInv (tracedComplete x e) := by
  have hnd := hi.nodup
  have hrun := hi.running
  simp only [completionReqs_cons_completion _ he] at hrun
  have hmem : e.req ∈ x.state.active_requests :=
    (hrun.mem_iff).mp (List.mem_cons_self _ _)
  simp only [placed, List.nil_append, arrivalReqs_cons_completion _ he] at hnd
  have hact : x.state.active_requests.Nodup :=
    (List.nodup_append.mp (List.nodup_append.mp hnd).1).2.1
  have hfil := filter_ne_eq_erase hact e.req
  have hper : x.state.active_requests.Perm (e.req :: x.state.active_requests.erase e.req) :=
    List.perm_cons_erase hmem
  refine ⟨?_, ?_, h.fifo, ?_, h.dequeuedNodup⟩
  · simp only [tracedComplete, complete, hfil]
    have h1 := h.started
    rw [List.perm_iff_count] at h1 hper ⊢
    intro a
    have h2 := h1 a
    have h3 := hper a
    simp [List.count_append, List.count_cons] at h2 h3 ⊢
    omega
  · simp only [tracedComplete, complete, h.ended]
  · intro a ha
    simp only [tracedComplete, complete, List.mem_filter, List.mem_append,
      List.mem_singleton, decide_eq_true_eq]
    by_cases hae : a = e.req
    · exact Or.inr (Or.inr hae)
    · rcases h.dequeuedIn a ha with h1 | h1
      · exact Or.inl ⟨h1, hae⟩
      · exact Or.inr (Or.inl h1)

theorem histInv_readmitBody {N : Int} {reqs : List Request} {t : Int} {x x1 : Traced}
    (hi : Inv N reqs [] x.state) (h : HistInv x)
    (hb : tracedReadmitBody N t x = some x1) : HistInv x1 := by
  obtain ⟨r, rest, hp, rfl⟩ := tracedReadmitBody_eq_some hb
  have hnd := hi.nodup
  simp only [placed, List.nil_append, hp] at hnd
  have hr : r ∉ x.history.dequeued := by
    intro hmem
    have h1 := List.nodup_append.mp hnd
    have h2 := List.nodup_append.mp h1.1
    rcases h.dequeuedIn r hmem with h3 | h3
    · exact h2.2.2 (List.mem_append_right _ (List.mem_cons_self _ _)) h3
    · exact h1.2.2 (List.mem_append_left _
        (List.mem_append_right _ (List.mem_cons_self _ _))) h3
  refine ⟨?_, h.ended, ?_, ?_, ?_⟩
  · simp only [tracedStart, startRequest]
    have := h.started
    rw [List.perm_iff_count] at this ⊢
    intro a
    have := this a
    simp [List.count_append, List.count_cons] at this ⊢
    omega
  · simp only [tracedStart, startRequest, h.fifo, hp, List.append_assoc,
      List.singleton_append]
  · intro a ha
    simp only [tracedStart, startRequest, List.mem_append, List.mem_singleton] at ha ⊢
    rcases ha with ha | rfl
    · rcases h.dequeuedIn a ha with h1 | h1
      · exact Or.inl (Or.inl h1)
      · exact Or.inr h1
    · exact Or.inl (Or.inr rfl)
  · exact List.nodup_append.mpr ⟨h.dequeuedNodup, List.nodup_singleton r, by
      intro a ha hb
      rw [List.mem_singleton] at hb
      exact hr (hb ▸ ha)⟩

theorem histInv_readmitLoop {N : Int} {reqs : List Request} (t : Int) (k : Nat) {x : Traced}
    (hi : Inv N reqs [] x.state) (h : HistInv x) : HistInv (tracedReadmitLoop N t k x) := by
  induction k generalizing x with
  | zero => exact h
  | succ k ih =>
    unfold tracedReadmitLoop
    split
    · exact h
    · rename_i x1 hb
      have hs := tracedReadmitBody_state N t x
      rw [hb] at hs
      exact ih (inv_readmitBody hi hs.symm) (histInv_readmitBody hi h hb)

/-- Every state of the run with history satisfies `HistInv`. -/
theorem traced_histInv {N : Int} {reqs : List Request} {x : Traced}
    (h : TracedReachable N reqs x) : HistInv x := by
  induction h with
  | init =>
    exact ⟨List.Perm.refl _, rfl, rfl, fun r hr => absurd hr (List.not_mem_nil r),
      List.nodup_nil⟩
  | step x e hx htop ih =>
    have hi := inv_pop (reachable_inv (reachable_of_traced hx)) htop.1
    have hpop : HistInv (tracedPop x e) :=
      ⟨ih.started, ih.ended, ih.fifo, ih.dequeuedIn, ih.dequeuedNodup⟩
    unfold tracedEvent
    cases he : e.event_type with
    | ARRIVAL => exact histInv_arrival N e hpop
    | COMPLETION =>
      simp only
      unfold tracedCompletion
      exact histInv_readmitLoop _ _ (inv_complete hi he)
        (histInv_complete (x := tracedPop x e) hi he hpop)

theorem stage_le_of_mem {s s1 : State} {r : Nat}
    (hc : r ∈ s.completed_requests → r ∈ s1.completed_requests)
    (ha : r ∈ s.active_requests → r ∈ s1.active_requests ∨ r ∈ s1.completed_requests)
    (hp : r ∈ s.pending_queue →
      r ∈ s1.pending_queue ∨ r ∈ s1.active_requests ∨ r ∈ s1.completed_requests) :
    stage s r ≤ stage s1 r := by
  unfold stage
  by_cases h3 : r ∈ s.completed_requests
  · simp [h3, hc h3]
  · by_cases h2 : r ∈ s.active_requests
    · rcases ha h2 with h | h
      · by_cases h4 : r ∈ s1.completed_requests <;> simp [h3, h2, h, h4]
      · simp [h3, h2, h]
    · by_cases h1 : r ∈ s.pending_queue
      · rcases hp h1 with h | h | h
        · by_cases h4 : r ∈ s1.completed_requests <;>
            by_cases h5 : r ∈ s1.active_requests <;> simp [h3, h2, h1, h, h4, h5]
        · by_cases h4 : r ∈ s1.completed_requests <;> simp [h3, h2, h1, h, h4]
        · simp [h3, h2, h1, h]
      · simp [h3, h2, h1]

theorem stage_startRequest (s : State) (t : Int) (r x : Nat) :
    stage s x ≤ stage (startRequest s t r) x :=
  stage_le_of_mem (fun h => h) (fun h => Or.inl (List.mem_append_left _ h))
    (fun h => Or.inl h)

theorem stage_processArrival (N : Int) (s : State) (e : Event) (x : Nat) :
    stage s x ≤ stage (processArrival N s e) x := by
  unfold processArrival
  split
  · exact stage_startRequest _ _ _ _
  · exact stage_le_of_mem (fun h => h) (fun h => Or.inl h)
      (fun h => Or.inl (List.mem_append_left _ h))

theorem stage_complete (s : State) (e : Event) (x : Nat) :
    stage s x ≤ stage (complete s e) x := by
  refine stage_le_of_mem (fun h => List.mem_append_left _ h) ?_ (fun h => Or.inl h)
  intro h
  by_cases hx : x = e.req
  · exact Or.inr (List.mem_append_right _ (by simp [hx]))
  · exact Or.inl (List.mem_filter.mpr ⟨h, by simpa using hx⟩)

theorem stage_readmitBody {N : Int} {t : Int} {s s1 : State}
    (h : readmitBody N t s = some s1) (x : Nat) : stage s x ≤ stage s1 x := by
  obtain ⟨r, rest, hp, -, -, rfl⟩ := readmitBody_eq_some h
  refine stage_le_of_mem (fun h => h) (fun h => Or.inl (List.mem_append_left _ h)) ?_
  intro hx
  rw [hp] at hx
  rcases List.mem_cons.mp hx with rfl | hx
  · exact Or.inr (Or.inl (List.mem_append_right _ (List.mem_singleton_self _)))
  · exact Or.inl hx

theorem stage_readmitLoop (N : Int) (t : Int) (k : Nat) (s : State) (x : Nat) :
    stage s x ≤ stage (readmitLoop N t k s) x := by
  induction k generalizing s with
  | zero => exact le_refl _
  | succ k ih =>
    unfold readmitLoop
    split
    · exact le_refl _
    · rename_i s1 hb
      exact le_trans (stage_readmitBody hb x) (ih s1)

theorem stage_readmitLoop_succ (N : Int) (t : Int) (k : Nat) (s : State) (x : Nat) :
    stage (readmitLoop N t k s) x ≤ stage (readmitLoop N t (k + 1) s) x := by
  induction k generalizing s with
  | zero => exact stage_readmitLoop N t 1 s x
  | succ k ih =>
    rw [readmitLoop, readmitLoop]
    cases hb : readmitBody N t s with
    | none => exact le_refl _
    | some s1 => exact ih s1

theorem stage_processEvent (N : Int) (s : State) (e : Event) (x : Nat) :
    stage s x ≤ stage (processEvent N { s with event_queue := s.event_queue.erase e } e) x := by
  have h0 : stage s x = stage { s with event_queue := s.event_queue.erase e } x := rfl
  rw [h0]
  unfold processEvent
  split
  · exact stage_processArrival _ _ _ _
  · exact le_trans (stage_complete _ _ _) (stage_readmitLoop _ _ _ _ _)

theorem stage_eq_zero_iff {N : Int} {reqs : List Request} {s : State}
    (hi : Inv N reqs [] s) {r : Nat} (hr : r < reqs.length) :
    stage s r = 0 ↔ r ∈ arrivalReqs s.event_queue := by
  have hnd := hi.nodup
  have hmem := (hi.place.mem_iff (a := r)).mpr (List.mem_range.mpr hr)
  simp only [placed, List.nil_append, List.mem_append] at hmem
  simp only [placed, List.nil_append] at hnd
  have h1 := List.nodup_append.mp hnd
  have h2 := List.nodup_append.mp h1.1
  have h3 := List.nodup_append.mp h2.1
  unfold stage
  constructor
  · intro h
    by_cases hc : r ∈ s.completed_requests
    · simp [hc] at h
    · by_cases ha : r ∈ s.active_requests
      · simp [hc, ha] at h
      · by_cases hp : r ∈ s.pending_queue
        · simp [hc, ha, hp] at h
        · tauto
  · intro h
    have hc : r ∉ s.completed_requests := fun hc =>
      h1.2.2 (List.mem_append_left _ (List.mem_append_left _ h)) hc
    have ha : r ∉ s.active_requests := fun ha =>
      h2.2.2 (List.mem_append_left _ h) ha
    have hp : r ∉ s.pending_queue := fun hp => h3.2.2 h hp
    simp [hc, ha, hp]

/-- C14, request lifecycle: at every point of the run, for every request
vector and every limit `N`, the pending queue, the active set and the
completed list together hold no request twice, and a request is in none of
them exactly while its ARRIVAL is queued; every pass of the event loop, the
lines 82-84 and every pass of the pending loop leave the stage of a request
(0 not arrived, 1 pending, 2 active, 3 completed) as it is or raise it, and
a completed request stays completed; `start_time` and `end_time` are each
written at most once for a request, and when the event queue is empty and
`N ≥ 1`, exactly once for every request. -/
theorem request_lifecycle :
    (∀ (N : Int) (reqs : List Request) (s : State), Visited N reqs s →
      (s.pending_queue ++ s.active_requests ++ s.completed_requests).Nodup ∧
      (∀ r, r < reqs.length → (stage s r = 0 ↔ r ∈ arrivalReqs s.event_queue))) ∧
    (∀ (N : Int) (s : State) (e : Event) (r : Nat),
      stage s r ≤ stage (processEvent N { s with event_queue := s.event_queue.erase e } e) r ∧
      (r ∈ s.completed_requests →
        r ∈ (processEvent N
          { s with event_queue := s.event_queue.erase e } e).completed_requests)) ∧
    (∀ (N : Int) (t : Int) (s : State) (e : Event) (k : Nat) (r : Nat),
      stage s r ≤ stage (complete s e) r ∧
      stage (readmitLoop N t k (complete s e)) r
        ≤ stage (readmitLoop N t (k + 1) (complete s e)) r) ∧
    (∀ (N : Int) (reqs : List Request) (x : Traced), TracedReachable N reqs x →
      x.history.started.Nodup ∧ x.history.ended.Nodup ∧
      (1 ≤ N → x.state.event_queue = [] →
        x.history.started.Perm (List.range reqs.length) ∧
        x.history.ended.Perm (List.range reqs.length))) := by
  refine ⟨?_, ?_, ?_, ?_⟩
  · intro N reqs s h
    have hi := visited_inv h
    have hnd := hi.nodup
    simp only [placed, List.nil_append, List.append_assoc] at hnd
    exact ⟨by
      rw [List.append_assoc]
      exact (List.nodup_append.mp hnd).2.1, fun r hr => stage_eq_zero_iff hi hr⟩
  · intro N s e r
    have hle := stage_processEvent N s e r
    refine ⟨hle, ?_⟩
    intro hc
    by_contra hn
    have h3 : stage s r = 3 := by simp [stage, hc]
    have hlt : stage (processEvent N { s with event_queue := s.event_queue.erase e } e) r
        < 3 := by
      unfold stage
      rw [if_neg hn]
      split
      · omega
      · split <;> omega
    omega
  · intro N t s e k r
    exact ⟨stage_complete s e r, stage_readmitLoop_succ N t k _ r⟩
  · intro N reqs x hx
    have hh := traced_histInv hx
    have hr := reachable_of_traced hx
    have hi := reachable_inv hr
    have hnd := hi.nodup
    simp only [placed, List.nil_append, List.append_assoc] at hnd
    have hac : (x.state.active_requests ++ x.state.completed_requests).Nodup :=
      (List.nodup_append.mp (List.nodup_append.mp hnd).2.1).2.1
    refine ⟨(hh.started.nodup_iff).mpr hac, ?_, ?_⟩
    · rw [hh.ended]
      exact (List.nodup_append.mp hac).2.1
    · intro hN hq
      obtain ⟨ha, -, hc⟩ := reachable_done hr (sizeT_ne_zero hN) hq
      refine ⟨?_, by rw [hh.ended]; exact hc⟩
      have := hh.started
      rw [ha, List.nil_append] at this
      exact this.trans hc

/-- The lifecycle in the run of the head-of-line trace with `N = 2`: the
order of the writes of `start_time` and of `end_time`. -/
theorem request_lifecycle_witness :
    (simulateTraced holTrace 2).history.started = [0, 1, 2, 3] ∧
      (simulateTraced holTrace 2).history.ended = [1, 0, 2, 3] ∧
      (simulateTraced holTrace 2).history.started.Nodup ∧
      (simulateTraced holTrace 2).history.started.Perm (List.range 4) :=
  ⟨by decide, by decide,
    (request_lifecycle.2.2.2 2 (sortRequests holTrace) _
      (tracedReachable_simulate holTrace 2)).1,
    ((request_lifecycle.2.2.2 2 (sortRequests holTrace) _
      (tracedReachable_simulate holTrace 2)).2.2 (by decide) (by decide)).1⟩

/-- C15, the pending queue is FIFO: the ARRIVAL branch leaves the pending
queue as it is or appends the arriving request at its tail, a pass of the
pending loop removes exactly the head, which becomes active, and the lines
82-84 do not touch the queue; so in every run the requests that entered the
pending queue (each at most once) are, in this order, those that left it
followed by those still in it, and a request `P` that entered before a
request `Q` has left the queue, and before `Q`, whenever `Q` has left
it. -/
theorem pending_fifo :
    (∀ (N : Int) (s : State) (e : Event),
      (processArrival N s e).pending_queue = s.pending_queue ∨
      (processArrival N s e).pending_queue = s.pending_queue ++ [e.req]) ∧
    (∀ (N : Int) (t : Int) (s s1 : State), readmitBody N t s = some s1 →
      ∃ head, s.pending_queue = head :: s1.pending_queue ∧
        s1.active_requests = s.active_requests ++ [head]) ∧
    (∀ (s : State) (e : Event), (complete s e).pending_queue = s.pending_queue) ∧
    (∀ (N : Int) (reqs : List Request) (x : Traced), TracedReachable N reqs x →
      x.history.enqueued = x.history.dequeued ++ x.state.pending_queue ∧
      x.history.enqueued.Nodup ∧
      (∀ P Q : Nat, List.indexOf P x.history.enqueued < List.indexOf Q x.history.enqueued →
        Q ∈ x.history.dequeued →
          P ∈ x.history.dequeued ∧
          List.indexOf P x.history.dequeued < List.indexOf Q x.history.dequeued)) := by
  refine ⟨?_, ?_, fun _ _ => rfl, ?_⟩
  · intro N s e
    unfold processArrival
    split
    · exact Or.inl rfl
    · exact Or.inr rfl
  · intro N t s s1 h
    obtain ⟨r, rest, hp, -, -, rfl⟩ := readmitBody_eq_some h
    exact ⟨r, hp, rfl⟩
  · intro N reqs x hx
    have hh := traced_histInv hx
    have hi := reachable_inv (reachable_of_traced hx)
    have hnd := hi.nodup
    simp only [placed, List.nil_append] at hnd
    have h1 := List.nodup_append.mp hnd
    have h2 := List.nodup_append.mp h1.1
    have h3 := List.nodup_append.mp h2.1
    refine ⟨hh.fifo, ?_, ?_⟩
    · rw [hh.fifo]
      refine List.nodup_append.mpr ⟨hh.dequeuedNodup, h3.2.1, ?_⟩
      intro a ha hp
      rcases hh.dequeuedIn a ha with h | h
      · exact h2.2.2 (List.mem_append_right _ hp) h
      · exact h1.2.2 (List.mem_append_left _ (List.mem_append_right _ hp)) h
    · intro P Q hlt hQ
      rw [hh.fifo, List.indexOf_append_of_mem hQ] at hlt
      have hQlt : List.indexOf Q x.history.dequeued < x.history.dequeued.length :=
        List.indexOf_lt_length.mpr hQ
      have hP : P ∈ x.history.dequeued := by
        by_contra hP
        rw [List.indexOf_append_of_not_mem hP] at hlt
        omega
      rw [List.indexOf_append_of_mem hP] at hlt
      exact ⟨hP, hlt⟩

/-- The pending queue in the run of the head-of-line trace with `N = 2`: C
(index 2) entered before D (index 3) and left before it. -/
theorem pending_fifo_witness :
    (simulateTraced holTrace 2).history.enqueued = [2, 3] ∧
      (simulateTraced holTrace 2).history.dequeued = [2, 3] ∧
      (2 ∈ (simulateTraced holTrace 2).history.dequeued ∧
        List.indexOf 2 (simulateTraced holTrace 2).history.dequeued
          < List.indexOf 3 (simulateTraced holTrace 2).history.dequeued) :=
  ⟨by decide, by decide,
    (pending_fifo.2.2.2 2 (sortRequests holTrace) _
      (tracedReachable_simulate holTrace 2)).2.2 2 3 (by decide) (by decide)⟩

/-! ## The run on 32-bit integers -/

theorem overflows_eq_false {x : Int} (h : overflows x = false) : wrapInt x = x := by
  apply wrapInt_of_range
  simpa [overflows] using h

theorem isRangesOverlap32_exact {a b : Request} (h : (isRangesOverlap32 a b).2 = false) :
    (isRangesOverlap32 a b).1 = isRangesOverlap a b := by
  simp only [isRangesOverlap32, Bool.or_eq_false_iff] at h
  obtain ⟨⟨⟨h1, h2⟩, h3⟩, h4⟩ := h
  have e1 := overflows_eq_false h1
  have e2 := overflows_eq_false h2
  have e3 := overflows_eq_false h3
  have e4 := overflows_eq_false h4
  simp only [isRangesOverlap32, isRangesOverlap]
  rw [e2, e1, e4, e3]

theorem overlapsActiveWrite32_exact (cand : Request) (active : List Request)
    (h : (overlapsActiveWrite32 cand active).2 = false) :
    (overlapsActiveWrite32 cand active).1 = overlapsActiveWrite active cand := by
  induction active with
  | nil => rfl
  | cons a rest ih =>
    have hcons : overlapsActiveWrite (a :: rest) cand
        = (decide (a.type = "WRITE") && isRangesOverlap a cand
            || overlapsActiveWrite rest cand) := by
      simp only [overlapsActiveWrite, List.any_cons]
    rw [hcons]
    unfold overlapsActiveWrite32 at h ⊢
    by_cases hw : a.type = "WRITE"
    · rw [if_pos hw] at h ⊢
      rw [decide_eq_true hw, Bool.true_and]
      by_cases ho : (isRangesOverlap32 a cand).1 = true
      · rw [if_pos ho] at h ⊢
        rw [← isRangesOverlap32_exact h, ho, Bool.true_or]
      · rw [if_neg ho] at h ⊢
        simp only [Bool.or_eq_false_iff] at h
        rw [← isRangesOverlap32_exact h.1]
        simp only [Bool.not_eq_true] at ho
        rw [ho, Bool.false_or]
        exact ih h.2
    · rw [if_neg hw] at h ⊢
      rw [decide_eq_false hw, Bool.false_and, Bool.false_or]
      exact ih h

/-- A run step of `start32` that leaves the flag down is the exact
admission. -/
theorem start32_exact {m : Machine} {t : Int} {r : Nat}
    (h : (start32 m t r).overflow = false) :
    m.overflow = false ∧ (start32 m t r).traced = tracedStart m.traced t r := by
  simp only [start32, Bool.or_eq_false_iff] at h
  obtain ⟨⟨h0, h1⟩, h2⟩ := h
  have e1 := overflows_eq_false h1
  rw [e1] at h2
  have e2 := overflows_eq_false h2
  refine ⟨h0, ?_⟩
  simp only [start32, Machine.traced, tracedStart, startRequest, latency]
  rw [e1, e2]

theorem arrival32_exact {N : Int} {m : Machine} {e : Event}
    (h : (arrival32 N m e).overflow = false) :
    m.overflow = false ∧ (arrival32 N m e).traced = tracedArrival N m.traced e := by
  have hlen : (activeReqs m.state).length = m.state.active_requests.length := by
    simp only [activeReqs, List.length_map]
  unfold arrival32 at h ⊢
  by_cases hc : (if m.state.active_requests.length ≥ sizeT N then false
      else !(overlapsActiveWrite32 (getReq m.state.requests e.req) (activeReqs m.state)).1)
      = true
  · rw [if_pos hc] at h ⊢
    obtain ⟨h0, h1⟩ := start32_exact h
    simp only [Bool.or_eq_false_iff] at h0
    refine ⟨h0.1, ?_⟩
    rw [h1]
    have hcan : can_start N (activeReqs m.traced.state)
        (getReq m.traced.state.requests e.req) = true := by
      show can_start N (activeReqs m.state) (getReq m.state.requests e.req) = true
      simp only [can_start, hlen]
      rw [← overlapsActiveWrite32_exact _ _ h0.2]
      exact hc
    unfold tracedArrival
    rw [if_pos hcan]
    rfl
  · rw [if_neg hc] at h ⊢
    simp only [Bool.or_eq_false_iff] at h
    refine ⟨h.1, ?_⟩
    have hcan : ¬ can_start N (activeReqs m.traced.state)
        (getReq m.traced.state.requests e.req) = true := by
      show ¬ can_start N (activeReqs m.state) (getReq m.state.requests e.req) = true
      simp only [can_start, hlen]
      rw [← overlapsActiveWrite32_exact _ _ h.2]
      exact hc
    unfold tracedArrival
    rw [if_neg hcan]
    rfl

theorem readmitLoop32_exact {N : Int} {t : Int} (k : Nat) {m : Machine}
    (h : (readmitLoop32 N t k m).overflow = false) :
    m.overflow = false ∧
      (readmitLoop32 N t k m).traced = tracedReadmitLoop N t k m.traced := by
  induction k generalizing m with
  | zero => exact ⟨h, rfl⟩
  | succ k ih =>
    unfold readmitLoop32 at h ⊢
    unfold tracedReadmitLoop tracedReadmitBody
    cases hp : m.state.pending_queue with
    | nil =>
      simp only [hp] at h ⊢
      refine ⟨h, ?_⟩
      simp only [Machine.traced, hp]
    | cons r rest =>
      simp only [hp] at h ⊢
      by_cases hlt : m.state.active_requests.length < sizeT N
      · simp only [hlt, if_true] at h ⊢
        by_cases ho : (overlapsActiveWrite32 (getReq m.state.requests r)
            (activeReqs m.state)).1 = true
        · simp only [ho, Bool.not_true, Bool.false_eq_true, if_false,
            Bool.or_eq_false_iff] at h ⊢
          refine ⟨h.1, ?_⟩
          have := overlapsActiveWrite32_exact _ _ h.2
          rw [ho] at this
          simp only [Machine.traced, hp, hlt, if_true, ← this, Bool.not_true,
            Bool.false_eq_true, if_false]
        · simp only [Bool.not_eq_true] at ho
          simp only [ho, Bool.not_false, if_true] at h ⊢
          obtain ⟨h1, h2⟩ := ih h
          obtain ⟨h3, h4⟩ := start32_exact h1
          simp only [Bool.or_eq_false_iff] at h3
          refine ⟨h3.1, ?_⟩
          have := overlapsActiveWrite32_exact _ _ h3.2
          rw [ho] at this
          rw [h2, h4]
          simp only [Machine.traced, hp, hlt, if_true, ← this, Bool.not_false]
      · simp only [hlt, if_false] at h ⊢
        refine ⟨h, ?_⟩
        simp only [Machine.traced, hp, hlt, if_false]

theorem event32_exact {N : Int} {m : Machine} {e : Event}
    (h : (event32 N m e).overflow = false) :
    m.overflow = false ∧ (event32 N m e).traced = tracedEvent N m.traced e := by
  unfold event32 at h ⊢
  unfold tracedEvent
  cases he : e.event_type with
  | ARRIVAL =>
    simp only [he] at h ⊢
    obtain ⟨h1, h2⟩ := arrival32_exact h
    exact ⟨h1, h2⟩
  | COMPLETION =>
    simp only [he] at h ⊢
    unfold completion32 at h ⊢
    obtain ⟨h1, h2⟩ := readmitLoop32_exact _ h
    exact ⟨h1, h2⟩

/-- A run on 32-bit `int`s in which no operation has overflowed is a run of
the exact engine, with the same history. -/
theorem reachable32_exact {N : Int} {reqs : List Request} {m : Machine}
    (h : Reachable32 N reqs m) (hov : m.overflow = false) :
    TracedReachable N reqs m.traced := by
  induction h with
  | init => exact TracedReachable.init
  | step m e _ htop ih =>
    obtain ⟨h1, h2⟩ := event32_exact hov
    rw [h2]
    exact TracedReachable.step _ e (ih h1) htop

theorem reachable32_loop {N : Int} {reqs : List Request} (k : Nat) {m : Machine}
    (h : Reachable32 N reqs m) : Reachable32 N reqs (loop32 N k m) := by
  induction k generalizing m with
  | zero => exact h
  | succ k ih =>
    unfold loop32
    split
    · exact h
    · rename_i e ht
      exact ih (Reachable32.step m e h (topEvent_isTop ht))

/-- The machine that `simulate32` returns is one that a run reaches. -/
theorem reachable32_simulate (requests : List Request) (N : Int) :
    Reachable32 N (sortRequests requests) (simulate32 requests N) :=
  reachable32_loop _ Reachable32.init

theorem partitionLatencies32_exact (requests : List Request) (completed : List Nat)
    (h : latencyOverflow requests completed = false) :
    partitionLatencies32 requests completed = partitionLatencies requests completed := by
  induction completed with
  | nil => rfl
  | cons r rest ih =>
    simp only [latencyOverflow, List.any_cons, Bool.or_eq_false_iff] at h
    have e1 := overflows_eq_false h.1
    have e2 := ih (by simpa only [latencyOverflow] using h.2)
    simp only [partitionLatencies32, partitionLatencies, e1, e2]

theorem work_start32 (m : Machine) (t : Int) (r : Nat) :
    work (start32 m t r).state = work m.state + 1 := by
  simp only [work, start32, arrivalReqs_push_completion, completionReqs_push_completion,
    List.length_append, List.length_singleton]
  omega

theorem work_readmitLoop32 (N : Int) (t : Int) (k : Nat) (m : Machine) :
    work (readmitLoop32 N t k m).state = work m.state := by
  induction k generalizing m with
  | zero => rfl
  | succ k ih =>
    unfold readmitLoop32
    cases hp : m.state.pending_queue with
    | nil => rfl
    | cons r rest =>
      simp only
      split
      · split
        · rw [ih, work_start32]
          simp only [work, hp, List.length_cons]
          omega
        · rfl
      · rfl

theorem work_ite (c : Bool) (a b : Machine) (w : Nat) (ha : work a.state = w)
    (hb : work b.state = w) : work (if c = true then a else b).state = w := by
  cases c
  · exact hb
  · exact ha

theorem work_arrival32 (N : Int) (m : Machine) (e : Event) :
    work (arrival32 N m e).state = work m.state + 1 := by
  unfold arrival32
  refine work_ite _ _ _ _ (work_start32 _ _ _) ?_
  simp only [work, List.length_append, List.length_singleton]
  omega

theorem work_event32 (N : Int) (m : Machine) (e : Event) (he : e ∈ m.state.event_queue) :
    work (event32 N m e).state + 1 = work m.state := by
  have hp : m.state.event_queue.Perm (e :: m.state.event_queue.erase e) :=
    List.perm_cons_erase he
  have h1 := ((hp.filter (fun e => decide (e.event_type = EventType.ARRIVAL))).map
    Event.req).length_eq
  have h2 := ((hp.filter (fun e => decide (e.event_type = EventType.COMPLETION))).map
    Event.req).length_eq
  unfold event32
  cases hty : e.event_type with
  | ARRIVAL =>
    simp only
    rw [work_arrival32]
    have h3 := congrArg List.length
      (arrivalReqs_cons_arrival (m.state.event_queue.erase e) hty)
    have h4 := congrArg List.length
      (completionReqs_cons_arrival (m.state.event_queue.erase e) hty)
    simp only [work, arrivalReqs, completionReqs, List.length_cons] at h1 h2 h3 h4 ⊢
    omega
  | COMPLETION =>
    simp only
    unfold completion32
    rw [work_readmitLoop32]
    have h5 := congrArg List.length
      (arrivalReqs_cons_completion (m.state.event_queue.erase e) hty)
    have h6 := congrArg List.length
      (completionReqs_cons_completion (m.state.event_queue.erase e) hty)
    simp only [work, complete, arrivalReqs, completionReqs, List.length_cons] at h1 h2 h5 h6 ⊢
    omega

/-- With fuel for the work left, the event loop on 32-bit `int`s stops on an
empty queue. -/
theorem loop32_queue_empty (N : Int) (k : Nat) (m : Machine) (h : work m.state ≤ k) :
    (loop32 N k m).state.event_queue = [] := by
  induction k generalizing m with
  | zero =>
    have h0 := length_arrival_add_completion m.state.event_queue
    simp only [work] at h
    show m.state.event_queue = []
    exact List.length_eq_zero.mp (by omega)
  | succ k ih =>
    unfold loop32
    split
    · rename_i hs; exact topEvent_eq_none hs
    · rename_i e hs
      have := work_event32 N m e (topEvent_isTop hs).1
      exact ih _ (by omega)

/-- The event loop of `simulate32` ends: its queue is empty. -/
theorem simulate32_queue_empty (requests : List Request) (N : Int) :
    (simulate32 requests N).state.event_queue = [] :=
  loop32_queue_empty _ _ _ (by
    show work (initState (sortRequests requests)) ≤ 2 * requests.length
    rw [work_initState, length_sortRequests])

theorem start32_pending (m : Machine) (t : Int) (r : Nat) :
    (start32 m t r).state.pending_queue = m.state.pending_queue := rfl

/-- The pending loop on 32-bit `int`s is left by its test or its `break`:
with the length of the pending queue as fuel, one more pass changes
nothing. -/
theorem readmitLoop32_fuel (N : Int) (t : Int) (k : Nat) (m : Machine)
    (h : m.state.pending_queue.length ≤ k) :
    readmitLoop32 N t (k + 1) m = readmitLoop32 N t k m := by
  induction k generalizing m with
  | zero =>
    have hp : m.state.pending_queue = [] := List.length_eq_zero.mp (by omega)
    unfold readmitLoop32
    simp only [hp]
  | succ k ih =>
    rw [readmitLoop32]
    conv => rhs; rw [readmitLoop32]
    cases hp : m.state.pending_queue with
    | nil => rfl
    | cons r rest =>
      simp only
      split
      · split
        · refine ih _ ?_
          rw [start32_pending]
          simp only [hp, List.length_cons] at h ⊢
          omega
        · rfl
      · rfl

/-- A point of a run on 32-bit `int`s before which no operation has
overflowed is a point of a run of the exact engine. -/
theorem visited32_exact {N : Int} {reqs : List Request} {m : Machine}
    (h : Visited32 N reqs m) (hov : m.overflow = false) : Visited N reqs m.state := by
  cases h with
  | top _ hr => exact Visited.top _ (reachable_of_traced (reachable32_exact hr hov))
  | inner m e k hr htop he =>
    obtain ⟨h1, h2⟩ := readmitLoop32_exact k hov
    have h3 := congrArg Traced.state h2
    rw [tracedReadmitLoop_state] at h3
    have h4 : (readmitLoop32 N e.time k
          { state := complete { m.state with event_queue := m.state.event_queue.erase e } e
            history := { m.history with
              popped := m.history.popped ++ [e]
              ended := m.history.ended ++ [e.req] }
            overflow := m.overflow }).state
        = readmitLoop N e.time k
            (complete { m.state with event_queue := m.state.event_queue.erase e } e) := h3
    rw [h4]
    exact Visited.inner m.state e k (reachable_of_traced (reachable32_exact hr h1)) htop he

/-- C16 as stated fails: a WRITE with timestamp 10 and size -3 is admitted
at time 10 with a latency of -3, its COMPLETION has time 7, and the run with
`N = 1` ends, without any overflow, with `start_time = 10` and
`end_time = 7`.  A size that is not negative does not suffice either: for a
READ of size 1073741824 at time 0 the product `size * 2` overflows, the
latency wraps to -2147483648, and the run ends with `start_time = 0` and
`end_time = -2147483648`. -/
theorem outputs_ordered_counterexample :
    ((simulate32 negativeSize 1).state.event_queue = [] ∧
      (simulate32 negativeSize 1).state.completed_requests = [0] ∧
      (getReq (simulate32 negativeSize 1).state.requests 0).start_time = 10 ∧
      (getReq (simulate32 negativeSize 1).state.requests 0).end_time = 7 ∧
      (simulate32 negativeSize 1).overflow = false ∧
      ¬ OutputsOrdered (simulate32 negativeSize 1).state) ∧
    ((∀ r ∈ largeRead, 0 ≤ r.size) ∧
      (simulate32 largeRead 1).state.event_queue = [] ∧
      (simulate32 largeRead 1).state.completed_requests = [0] ∧
      (getReq (simulate32 largeRead 1).state.requests 0).start_time = 0 ∧
      (getReq (simulate32 largeRead 1).state.requests 0).end_time = -2147483648 ∧
      (simulate32 largeRead 1).overflow = true ∧
      ¬ OutputsOrdered (simulate32 largeRead 1).state) ∧
    ¬ (∀ (N : Int) (reqs : List Request) (m : Machine),
        Visited32 N reqs m → OutputsOrdered m.state) :=
  ⟨by decide, by decide, fun h =>
    absurd (h 1 (sortRequests negativeSize) _
      (Visited32.top _ (reachable32_simulate negativeSize 1))) (by decide)⟩

/-- C16, amended: for every request vector without a negative size and
every limit `N`, at every point of the run on 32-bit `int`s before which no
`int` operation has overflowed, every completed request (the requests with
both `start_time` and `end_time` written) has `start_time ≤ end_time`. -/
theorem outputs_ordered (N : Int) (reqs : List Request) (hsize : ∀ r ∈ reqs, 0 ≤ r.size)
    (m : Machine) (h : Visited32 N reqs m) (hov : m.overflow = false) :
    OutputsOrdered m.state := by
  intro r hr
  have hi := visited_inv (visited32_exact h hov)
  have hlt : r < reqs.length := by
    refine hi.lt ?_
    simp only [placed, List.nil_append, List.mem_append]
    exact Or.inr hr
  have := hi.doneTime r hr
  have hl := latency_nonneg (hsize _ (getReq_mem hlt))
  omega

/-- The order of the outputs at the end of the head-of-line trace, which
runs without overflow. -/
theorem outputs_ordered_witness :
    (simulate32 holTrace 2).state.completed_requests = [1, 0, 2, 3] ∧
      (simulate32 holTrace 2).overflow = false ∧
      OutputsOrdered (simulate32 holTrace 2).state :=
  ⟨by decide, by decide,
    outputs_ordered 2 (sortRequests holTrace) (by decide) _
      (Visited32.top _ (reachable32_simulate holTrace 2)) (by decide)⟩

theorem isRangesOverlap_comm (a b : Request) : isRangesOverlap a b = isRangesOverlap b a := by
  simp only [isRangesOverlap]
  exact Bool.and_comm _ _

theorem visited_excl {N : Int} {reqs : List Request} {s : State} (h : Visited N reqs s) :
    s.active_requests.Pairwise (fun w x =>
      (getReq s.requests w).type = "WRITE" →
        isRangesOverlap (getReq s.requests w) (getReq s.requests x) = false) := by
  have hi := visited_inv h
  refine hi.excl.imp ?_
  intro a b hab hw
  rw [inputs_type (hi.inputs a)] at hw
  rw [inputs_overlap (hi.inputs a) (hi.inputs b)]
  exact hab hw

/-- C17, write-write exclusion: at every point of the run, for every limit
`N`, two distinct active requests of type WRITE do not overlap; so an
overlapping pair of distinct active requests has a member that is not a
WRITE. -/
theorem write_write_exclusion (N : Int) (reqs : List Request) (s : State)
    (h : Visited N reqs s) (a b : Nat) (ha : a ∈ s.active_requests)
    (hb : b ∈ s.active_requests) (hab : a ≠ b) :
    ((getReq s.requests a).type = "WRITE" → (getReq s.requests b).type = "WRITE" →
      isRangesOverlap (getReq s.requests a) (getReq s.requests b) = false) ∧
    (isRangesOverlap (getReq s.requests a) (getReq s.requests b) = true →
      (getReq s.requests a).type ≠ "WRITE" ∨ (getReq s.requests b).type ≠ "WRITE") := by
  have hp := visited_excl h
  have hsym : Symmetric (fun w x : Nat =>
      (getReq s.requests w).type = "WRITE" → (getReq s.requests x).type = "WRITE" →
        isRangesOverlap (getReq s.requests w) (getReq s.requests x) = false) := by
    intro w x hwx hx hw
    rw [isRangesOverlap_comm]; exact hwx hw hx
  have hp2 := (hp.imp (fun {w x} hwx hw _ => hwx hw)).forall hsym ha hb hab
  refine ⟨hp2, ?_⟩
  intro ho
  by_contra hcon
  simp only [ne_eq, not_or, not_not] at hcon
  rw [hp2 hcon.1 hcon.2] at ho
  exact Bool.false_ne_true ho

/-- The exclusion at the state of `readThenWrite` where the READ and the
WRITE are both active and overlap: the pair holds a request that is not a
WRITE. -/
theorem write_write_exclusion_witness :
    isRangesOverlap
        (getReq (eventLoop 2 2 (initState (sortRequests readThenWrite))).requests 0)
        (getReq (eventLoop 2 2 (initState (sortRequests readThenWrite))).requests 1) = true ∧
      ((getReq (eventLoop 2 2 (initState (sortRequests readThenWrite))).requests 0).type
          ≠ "WRITE" ∨
        (getReq (eventLoop 2 2 (initState (sortRequests readThenWrite))).requests 1).type
          ≠ "WRITE") :=
  ⟨by decide,
    (write_write_exclusion 2 (sortRequests readThenWrite) _
      (Visited.top _ (reachable_eventLoop 2 Reachable.init)) 0 1
      (by decide) (by decide) (by decide)).2 (by decide)⟩

theorem partitionLatencies_eq (requests : List Request) (completed : List Nat) :
    partitionLatencies requests completed
      = ((completed.filter (fun r => decide ((getReq requests r).type = "READ"))).map
            (totalLatency requests),
          (completed.filter (fun r => decide ((getReq requests r).type ≠ "READ"))).map
            (totalLatency requests)) := by
  induction completed with
  | nil => rfl
  | cons r rest ih =>
    simp only [partitionLatencies, ih]
    by_cases hr : (getReq requests r).type = "READ"
    · simp [hr, totalLatency]
    · simp [hr, totalLatency]

theorem timed_pop {reqs : List Request} {x : Traced} {e : Event}
    (h : Timed reqs x) (he : IsTop e x.state.event_queue) :
    Timed reqs (tracedPop x e) ∧
      e ∈ (tracedPop x e).history.popped ∧
      ∀ p ∈ (tracedPop x e).history.popped, p.time ≤ e.time := by
  have hnow : ∀ p ∈ x.history.popped ++ [e], p.time ≤ e.time := by
    intro p hp
    rcases List.mem_append.mp hp with hp | hp
    · exact h.queue p hp e he.1
    · rw [List.mem_singleton.mp hp]
  refine ⟨⟨?_, ?_, ?_, h.start⟩, ?_, hnow⟩
  · simp only [tracedPop, List.map_append, List.map_cons, List.map_nil]
    rw [List.pairwise_append]
    refine ⟨h.sorted, List.pairwise_singleton _ _, ?_⟩
    intro a ha b hb
    rw [List.mem_singleton] at hb
    obtain ⟨p, hp, rfl⟩ := List.mem_map.mp ha
    rw [hb]
    exact h.queue p hp e he.1
  · intro p hp y hy
    simp only [tracedPop] at hp hy
    have hy2 := List.mem_of_mem_erase hy
    rcases List.mem_append.mp hp with hp | hp
    · exact h.queue p hp y hy2
    · rw [List.mem_singleton.mp hp]
      have := he.2 y hy2
      rw [gt_eq_false_iff] at this
      omega
  · intro r hr
    obtain ⟨p, hp, hle⟩ := h.pend r hr
    exact ⟨p, List.mem_append_left _ hp, hle⟩
  · simp [tracedPop]

theorem timed_start {reqs : List Request} {x : Traced} {t : Int} {r : Nat}
    (h : Timed reqs x) (hnow : ∀ p ∈ x.history.popped, p.time ≤ t)
    (hl : 0 ≤ latency (getReq x.state.requests r)) (hr : r < x.state.requests.length)
    (hts : (getReq reqs r).timestamp ≤ t) : Timed reqs (tracedStart x t r) where
  sorted := h.sorted
  queue := by
    intro p hp y hy
    simp only [tracedStart, startRequest, List.mem_append, List.mem_singleton] at hp hy
    rcases hy with hy | hy
    · exact h.queue p hp y hy
    · have := hnow p hp
      rw [hy]
      simp only
      omega
  pend := h.pend
  start := by
    intro a ha
    simp only [tracedStart, startRequest, List.mem_append, List.mem_singleton] at ha ⊢
    by_cases har : a = r
    · subst har
      rw [start_time_setStart_self _ _ _ hr]
      exact hts
    · rw [start_time_setStart_ne _ _ _ _ har]
      rcases ha with (ha | ha) | ha
      · exact h.start a (Or.inl ha)
      · exact absurd ha har
      · exact h.start a (Or.inr ha)

theorem timed_readmitLoop {N : Int} {reqs : List Request} (hsize : ∀ r ∈ reqs, 0 ≤ r.size)
    (t : Int) (k : Nat) {x : Traced} (hi : Inv N reqs [] x.state) (h : Timed reqs x)
    (hnow : ∀ p ∈ x.history.popped, p.time ≤ t) :
    Timed reqs (tracedReadmitLoop N t k x) := by
  induction k generalizing x with
  | zero => exact h
  | succ k ih =>
    unfold tracedReadmitLoop
    split
    · exact h
    · rename_i x1 hb
      have hs := tracedReadmitBody_state N t x
      rw [hb] at hs
      have hi1 := inv_readmitBody hi hs.symm
      obtain ⟨r, rest, hp, rfl⟩ := tracedReadmitBody_eq_some hb
      refine ih hi1 ?_ hnow
      have hr : r < reqs.length := by
        refine hi.lt ?_
        simp only [placed, hp, List.nil_append, List.mem_append, List.mem_cons]
        tauto
      obtain ⟨p, hp1, hp2⟩ := h.pend r (by rw [hp]; exact List.mem_cons_self _ _)
      refine timed_start ⟨h.sorted, h.queue, ?_, h.start⟩ hnow ?_ (by
        have := hi.len
        simp only
        omega) (le_trans hp2 (hnow p hp1))
      · intro a ha
        exact h.pend a (by rw [hp]; exact List.mem_cons_of_mem _ ha)
      · simp only
        rw [inputs_latency (hi.inputs r)]
        exact latency_nonneg (hsize _ (getReq_mem hr))

/-- In a run of a vector without a negative size, time is in order. -/
theorem traced_timed {N : Int} {reqs : List Request} (hsize : ∀ r ∈ reqs, 0 ≤ r.size)
    {x : Traced} (h : TracedReachable N reqs x) : Timed reqs x := by
  induction h with
  | init =>
    refine ⟨List.Pairwise.nil, ?_, ?_, ?_⟩
    · intro p hp; exact absurd hp (List.not_mem_nil p)
    · intro r hr; exact absurd hr (List.not_mem_nil r)
    · intro r hr; simp [tracedInit, initState] at hr
  | step x e hx htop ih =>
    have hi := inv_pop (reachable_inv (reachable_of_traced hx)) htop.1
    obtain ⟨hpop, hmem, hnow⟩ := timed_pop ih htop
    unfold tracedEvent
    cases he : e.event_type with
    | ARRIVAL =>
      simp only
      have h1 := inv_take_arrival hi he
      have hr : e.req < reqs.length :=
        h1.lt (List.mem_append_left _ (List.mem_singleton_self _))
      have hts : (getReq reqs e.req).timestamp = e.time :=
        (hi.arrTime e (List.mem_cons_self _ _) he).symm
      unfold tracedArrival
      split
      · refine timed_start hpop hnow ?_ (by
          have := h1.len
          simp only [tracedPop] at this ⊢
          omega) (le_of_eq hts)
        simp only [tracedPop]
        rw [inputs_latency (h1.inputs e.req)]
        exact latency_nonneg (hsize _ (getReq_mem hr))
      · refine ⟨hpop.sorted, hpop.queue, ?_, hpop.start⟩
        intro r hr2
        simp only [List.mem_append, List.mem_singleton] at hr2
        rcases hr2 with hr2 | hr2
        · exact hpop.pend r hr2
        · exact ⟨e, hmem, by rw [hr2, hts]⟩
    | COMPLETION =>
      simp only
      unfold tracedCompletion
      have hact : e.req ∈ x.state.active_requests := by
        have := hi.running
        simp only [completionReqs_cons_completion _ he] at this
        exact (this.mem_iff).mp (List.mem_cons_self _ _)
      refine timed_readmitLoop hsize _ _ (inv_complete hi he) ?_ hnow
      refine ⟨hpop.sorted, hpop.queue, hpop.pend, ?_⟩
      intro r hr
      simp only [tracedComplete, tracedPop, complete, List.mem_filter, List.mem_append,
        List.mem_singleton, decide_eq_true_eq] at hr ⊢
      rw [start_time_setEnd]
      rcases hr with hr | hr | hr
      · exact ih.start r (Or.inl hr.1)
      · exact ih.start r (Or.inr hr)
      · subst hr; exact ih.start _ (Or.inl hact)

/-- C18 as stated fails: the trace of one READ of size 1073741824 at time 0
has no negative size, but with `N = 1` the product `size * 2` overflows, the
COMPLETION event is pushed with the time -2147483648, so the popped times 0,
-2147483648 descend, and the latency handed to the statistics is
-2147483648.  And in the run of `earlyTrace` with `N = 1`, which has no
overflow in the event loop, the WRITE ends at time 3, the subtraction
`end_time - timestamp` of line 112 overflows, and the latency handed to the
statistics is -2147483645. -/
theorem no_start_before_arrival_counterexample :
    ((∀ r ∈ sortRequests largeRead, 0 ≤ r.size) ∧
      (simulate32 largeRead 1).state.event_queue = [] ∧
      (simulate32 largeRead 1).history.popped.map Event.time = [0, -2147483648] ∧
      partitionLatencies32 (simulate32 largeRead 1).state.requests
          (simulate32 largeRead 1).state.completed_requests = ([-2147483648], []) ∧
      (simulate32 largeRead 1).overflow = true) ∧
    ((∀ r ∈ sortRequests earlyTrace, 0 ≤ r.size) ∧
      (simulate32 earlyTrace 1).state.event_queue = [] ∧
      (simulate32 earlyTrace 1).history.popped.map Event.time
        = [-2147483648, -2147483648, -2, 3] ∧
      (simulate32 earlyTrace 1).overflow = false ∧
      latencyOverflow (simulate32 earlyTrace 1).state.requests
          (simulate32 earlyTrace 1).state.completed_requests = true ∧
      partitionLatencies32 (simulate32 earlyTrace 1).state.requests
          (simulate32 earlyTrace 1).state.completed_requests
        = ([2147483646], [-2147483645])) ∧
    ¬ (∀ (N : Int) (reqs : List Request), (∀ r ∈ reqs, 0 ≤ r.size) →
        ∀ m : Machine, Reachable32 N reqs m →
          (m.history.popped.map Event.time).Pairwise (fun a b => a ≤ b) ∧
          ∀ v, v ∈ (partitionLatencies32 m.state.requests m.state.completed_requests).1 ∨
            v ∈ (partitionLatencies32 m.state.requests m.state.completed_requests).2 →
            0 ≤ v) :=
  ⟨by decide, by decide, fun h =>
    absurd (h 1 (sortRequests largeRead) (by decide) _
      (reachable32_simulate largeRead 1)).1 (by decide)⟩

/-- C18, amended: for every request vector without a negative size and
every limit `N`, in every run on 32-bit `int`s in which no `int` operation
has overflowed, the times of the popped events are in ascending order, every
active or completed request has `start_time ≥ timestamp`, and for every
completed request `end_time - timestamp` is at least `end_time - start_time`
and is not negative; if the subtractions `end_time - timestamp` of the
statistics loop do not overflow either, no latency handed to the statistics
is negative. -/
theorem no_start_before_arrival (N : Int) (reqs : List Request)
    (hsize : ∀ r ∈ reqs, 0 ≤ r.size) (m : Machine) (h : Reachable32 N reqs m)
    (hov : m.overflow = false) :
    (m.history.popped.map Event.time).Pairwise (fun a b => a ≤ b) ∧
    (∀ r, r ∈ m.state.active_requests ∨ r ∈ m.state.completed_requests →
      (getReq m.state.requests r).timestamp ≤ (getReq m.state.requests r).start_time) ∧
    (∀ r ∈ m.state.completed_requests,
      (getReq m.state.requests r).end_time - (getReq m.state.requests r).start_time
        ≤ (getReq m.state.requests r).end_time - (getReq m.state.requests r).timestamp ∧
      0 ≤ (getReq m.state.requests r).end_time - (getReq m.state.requests r).timestamp) ∧
    (latencyOverflow m.state.requests m.state.completed_requests = false →
      ∀ v, v ∈ (partitionLatencies32 m.state.requests m.state.completed_requests).1 ∨
        v ∈ (partitionLatencies32 m.state.requests m.state.completed_requests).2 → 0 ≤ v) := by
  have hx := reachable32_exact h hov
  have ht := traced_timed hsize hx
  have hi := reachable_inv (reachable_of_traced hx)
  have hstart : ∀ r, r ∈ m.state.active_requests ∨ r ∈ m.state.completed_requests →
      (getReq m.state.requests r).timestamp ≤ (getReq m.state.requests r).start_time := by
    intro r hr
    have h1 := inputs_timestamp (hi.inputs r)
    have h2 := ht.start r hr
    simp only [Machine.traced] at h1 h2
    rw [h1]
    exact h2
  have hdone : ∀ r ∈ m.state.completed_requests,
      (getReq m.state.requests r).end_time - (getReq m.state.requests r).start_time
        ≤ (getReq m.state.requests r).end_time - (getReq m.state.requests r).timestamp ∧
      0 ≤ (getReq m.state.requests r).end_time - (getReq m.state.requests r).timestamp := by
    intro r hr
    have h1 := hstart r (Or.inr hr)
    have h2 := hi.doneTime r hr
    have hlt : r < reqs.length := by
      refine hi.lt ?_
      simp only [placed, List.nil_append, List.mem_append]
      exact Or.inr hr
    have h3 := latency_nonneg (hsize _ (getReq_mem hlt))
    simp only [Machine.traced] at h2
    constructor <;> omega
  refine ⟨ht.sorted, hstart, hdone, ?_⟩
  intro hlat v hv
  rw [partitionLatencies32_exact _ _ hlat, partitionLatencies_eq] at hv
  simp only [List.mem_map, List.mem_filter] at hv
  rcases hv with ⟨r, ⟨hr, -⟩, rfl⟩ | ⟨r, ⟨hr, -⟩, rfl⟩
  · exact (hdone r hr).2
  · exact (hdone r hr).2

/-- The order of time in the run of the head-of-line trace with `N = 2`,
which has no overflow: the times of the popped events and the latencies of
the statistics. -/
theorem no_start_before_arrival_witness :
    (simulate32 holTrace 2).history.popped.map Event.time
        = [0, 0, 1, 2, 3, 10, 12, 12] ∧
      (simulate32 holTrace 2).overflow = false ∧
      latencyOverflow (simulate32 holTrace 2).state.requests
          (simulate32 holTrace 2).state.completed_requests = false ∧
      partitionLatencies32 (simulate32 holTrace 2).state.requests
          (simulate32 holTrace 2).state.completed_requests = ([11, 10], [3, 10]) ∧
      ((simulate32 holTrace 2).history.popped.map Event.time).Pairwise
        (fun a b => a ≤ b) :=
  ⟨by decide, by decide, by decide, by decide,
    (no_start_before_arrival 2 (sortRequests holTrace) (by decide) _
      (reachable32_simulate holTrace 2) (by decide)).1⟩

/-- C19, unknown type tokens: a request whose type is not "WRITE" (so also
one whose type is neither "READ" nor "WRITE") has the latency `2 * size` and
never blocks a candidate (the scan of the active set gives the same result
with and without it); the reads list holds exactly the latencies
`end_time - timestamp` of the completed requests of type "READ", the writes
list those of all other completed requests, so the latency of a completed
request of an unknown type is in the writes list.  A single "FLUSH" request
of size 5 gives no READ statistics and WRITE statistics of 10. -/
theorem unknown_type_statistics :
    (∀ r : Request, r.type ≠ "WRITE" → latency r = 2 * r.size) ∧
    (∀ (r : Request) (before after : List Request) (cand : Request), r.type ≠ "WRITE" →
      overlapsActiveWrite (before ++ r :: after) cand
        = overlapsActiveWrite (before ++ after) cand) ∧
    (∀ (requests : List Request) (completed : List Nat),
      (partitionLatencies requests completed).1
        = (completed.filter (fun r => decide ((getReq requests r).type = "READ"))).map
            (totalLatency requests) ∧
      (partitionLatencies requests completed).2
        = (completed.filter (fun r => decide ((getReq requests r).type ≠ "READ"))).map
            (totalLatency requests)) ∧
    (∀ (requests : List Request) (completed : List Nat) (r : Nat), r ∈ completed →
      (getReq requests r).type ≠ "READ" → (getReq requests r).type ≠ "WRITE" →
      totalLatency requests r ∈ (partitionLatencies requests completed).2) ∧
    ((simulateServer flushTrace 1).completed_requests = [0] ∧
      (getReq (simulateServer flushTrace 1).requests 0).end_time = 10 ∧
      partitionLatencies (simulateServer flushTrace 1).requests
          (simulateServer flushTrace 1).completed_requests = ([], [10]) ∧
      report (simulateServer flushTrace 1)
        = (none, some { avg := 10, median := 10, min_val := 10, max_val := 10 })) := by
  refine ⟨?_, ?_, ?_, ?_, ?_⟩
  · intro r hr
    simp only [latency, if_neg hr]
    ring
  · intro r before after cand hr
    simp [overlapsActiveWrite, hr]
  · intro requests completed
    rw [partitionLatencies_eq]
    exact ⟨rfl, rfl⟩
  · intro requests completed r hr hread _
    rw [partitionLatencies_eq]
    simp only [List.mem_map, List.mem_filter, decide_eq_true_eq]
    exact ⟨r, ⟨hr, hread⟩, rfl⟩
  · have hp : partitionLatencies (simulateServer flushTrace 1).requests
        (simulateServer flushTrace 1).completed_requests = ([], [10]) := by decide
    refine ⟨by decide, by decide, hp, ?_⟩
    rw [report]
    simp only [hp]
    rw [compute_stats, compute_stats, if_pos rfl, if_neg (by decide)]
    norm_num [List.insertionSort, List.orderedInsert, List.getD]

/-- The unknown type in the run of `flushTrace`: the request does not block,
and its latency of `2 * 5` is in the writes list. -/
theorem unknown_type_statistics_witness :
    latency (getReq flushTrace 0) = 2 * 5 ∧
      overlapsActiveWrite [getReq flushTrace 0] (getReq flushTrace 0) = false ∧
      totalLatency (simulateServer flushTrace 1).requests 0
        ∈ (partitionLatencies (simulateServer flushTrace 1).requests
            (simulateServer flushTrace 1).completed_requests).2 :=
  ⟨unknown_type_statistics.1 (getReq flushTrace 0) (by decide),
    by decide,
    unknown_type_statistics.2.2.2.1 _ _ 0 (by decide) (by decide) (by decide)⟩

theorem overtake_runs :
    ∀ reqs ∈ List.permutations' overtakeTrace,
      reqs.Pairwise (fun a b => byTimestamp b a = false) →
      ∀ s ∈ runs 2 reqs,
        Overtaken s ∧
        OvertakeEnd s := by
  decide

/-- C20, new arrivals overtake the pending queue: the ARRIVAL branch decides
without reading the pending queue (the same arrival is decided the same way
whatever the pending queue holds, and an admitted arrival leaves the pending
queue as it is).  In every run of the overtaking trace with `N = 2`, C is
pending when D arrives at time 2, D is admitted at once, and at the end D
(timestamp 2) has `start_time = 2` while C (timestamp 1) has
`start_time = 10`. -/
theorem arrival_overtakes_pending :
    (∀ (N : Int) (s : State) (e : Event) (pending : List Nat),
      (processArrival N { s with pending_queue := pending } e).active_requests
        = (processArrival N s e).active_requests ∧
      ((processArrival N s e).active_requests = s.active_requests ++ [e.req] →
        (processArrival N { s with pending_queue := pending } e).pending_queue = pending)) ∧
    (∀ (reqs : List Request) (s : State), SortResult overtakeTrace reqs →
      Reachable 2 reqs s →
        Overtaken s ∧
        OvertakeEnd s) ∧
    ((getReq (simulateServer overtakeTrace 2).requests 2).id = 4 ∧
      (getReq (simulateServer overtakeTrace 2).requests 2).start_time = 2 ∧
      (getReq (simulateServer overtakeTrace 2).requests 1).id = 3 ∧
      (getReq (simulateServer overtakeTrace 2).requests 1).start_time = 10) := by
  refine ⟨?_, ?_, by decide⟩
  · intro N s e pending
    refine ⟨?_, ?_⟩
    · simp only [processArrival, activeReqs]
      split <;> rfl
    · simp only [processArrival, activeReqs]
      split
      · intro _; rfl
      · intro h
        have := congrArg List.length h
        simp at this
  · intro reqs s hsr hr
    exact overtake_runs reqs (List.mem_permutations'.mpr hsr.1) hsr.2 s (mem_runs_iff.mpr hr)

/-- The arrival of D in the overtaking trace, with C pending: D is admitted
and C stays pending. -/
theorem arrival_overtakes_pending_witness :
    (eventLoop 2 2 (initState (sortRequests overtakeTrace))).pending_queue = [1] ∧
      (processArrival 2
          { (eventLoop 2 2 (initState (sortRequests overtakeTrace))) with
            event_queue := [⟨10, EventType.COMPLETION, 0⟩] }
          ⟨2, EventType.ARRIVAL, 2⟩).active_requests = [0, 2] ∧
      (processArrival 2
          { ({ (eventLoop 2 2 (initState (sortRequests overtakeTrace))) with
              event_queue := [⟨10, EventType.COMPLETION, 0⟩] } : State) with
            pending_queue := [1] }
          ⟨2, EventType.ARRIVAL, 2⟩).pending_queue = [1] :=
  ⟨by decide, by decide,
    (arrival_overtakes_pending.1 2
      { (eventLoop 2 2 (initState (sortRequests overtakeTrace))) with
        event_queue := [⟨10, EventType.COMPLETION, 0⟩] }
      ⟨2, EventType.ARRIVAL, 2⟩ [1]).2 (by decide)⟩


end Task7
